import Mathlib

/-!
# Ford–Fulkerson (Edmonds–Karp) maximum flow: embedding of `main.cpp`

The pointer-linked graph of the program is embedded as an arena of edges
(`Graph.edges`, in allocation order) addressed by index, plus one list of edge
indices per vertex (`Graph.adj`, the `next`-chain of `adjList[u]` in order).
Edge fields of type `int16_t` are integers; the narrowing stores into `flow`
go through `wrap16`, the 32-bit running total through `wrap32`.
The loops over a chain are recursions over its list; the other loops (the
queue loop of `bfs`, the two backward walks and the `while (true)` loop of
`fordFulkerson`) take a `fuel` argument and answer `none` when it runs out.
Reading a `path` entry that was never written also answers `none`.
-/

namespace FordFulkerson

/-! ## Definitions -/

/-- Two's-complement reduction of an integer to the range of `int16_t`. -/
def wrap16 (x : Int) : Int := (x + 32768) % 65536 - 32768

/-- Two's-complement reduction of an integer to the range of a 32-bit `int`.
Overflow of `maxFlow += flow` is undefined in C++; the embedding takes the
wrap-around of the usual targets, and the theorems that need the exact value
assume that it does not occur. -/
def wrap32 (x : Int) : Int := (x + 2147483648) % 4294967296 - 2147483648

/-- The constant `INT_MAX` of `<climits>`. -/
def INT_MAX : Int := 2147483647

/-- The `Edge` record: `dst` is the field `to` (a reserved word here), `reverse` is
the arena index of the paired edge; the `next` pointer is the list order of
`Graph.adj`. -/
structure Edge where
  dst : Nat
  capacity : Int
  flow : Int
  reverse : Nat
deriving DecidableEq

/-- The heap of edges together with `adjList`. -/
structure Graph where
  edges : List Edge
  adj : List (List Nat)
deriving DecidableEq

/-- Dereference of an edge pointer. -/
def Graph.edge (g : Graph) (e : Nat) : Edge := g.edges.getD e ⟨0, 0, 0, 0⟩

/-- The chain `adjList[u]`, as the list of its edges in `next` order. -/
def Graph.adjOf (g : Graph) (u : Nat) : List Nat := g.adj.getD u []

/-- Residual test `edge->capacity > edge->flow` used by `bfs`. -/
def Graph.residual (g : Graph) (e : Nat) : Int := (g.edge e).capacity - (g.edge e).flow

/-- An input record `(from, to, capacity)`. -/
abbrev Triple := Nat × Nat × Int

/-- Appends `e` at the end of the chain `adjList[u]`. -/
def appendAdj (adj : List (List Nat)) (u e : Nat) : List (List Nat) :=
  adj.set u (adj.getD u [] ++ [e])

/-- Function `addEdge`: allocates `direct`, appends it to `adjList[from]`, allocates
`reverse` (pointing back to `direct`), appends it to `adjList[to]`, then links
`direct->reverse`. -/
def addEdge (g : Graph) (src dst : Nat) (capacity : Int) : Graph :=
  let direct := g.edges.length
  let reverse := g.edges.length + 1
  { edges := g.edges ++ [⟨dst, capacity, 0, reverse⟩, ⟨src, 0, 0, direct⟩],
    adj := appendAdj (appendAdj g.adj src direct) dst reverse }

/-- The empty graph on `V` vertices (`memset(adjList, 0, ...)`). -/
def emptyGraph (V : Nat) : Graph := ⟨[], List.replicate V []⟩

/-- The reading loop of `main`: one `addEdge` per decoded triple, in order. -/
def buildGraph (V : Nat) (triples : List Triple) : Graph :=
  triples.foldl (fun g tr => addEdge g tr.1 tr.2.1 tr.2.2) (emptyGraph V)

/-- Inner loop of the classification pass over the chain of `u`. -/
def markEdges (g : Graph) (u : Nat) : List Nat → List Bool × List Bool → List Bool × List Bool
  | [], ps => ps
  | e :: rest, ps =>
    if (g.edge e).capacity > 0 then
      markEdges g u rest (ps.1.set u true, ps.2.set (g.edge e).dst true)
    else markEdges g u rest ps

/-- Outer loop of the classification pass: `us` are the vertices still to visit. -/
def markAll (g : Graph) : List Nat → List Bool × List Bool → List Bool × List Bool
  | [], ps => ps
  | u :: us, ps => markAll g us (markEdges g u (g.adjOf u) ps)

/-- The search `for (i = 0; i < vertexCount; ++i) if (p i) { r = i; break; }`
starting from `r = -1`; `is` are the indices still to try. -/
def firstIndex (p : Nat → Bool) : List Nat → Int
  | [] => -1
  | i :: is => if p i then (i : Int) else firstIndex p is

/-- Function `findSourceSink`: returns `(src, sink)`. -/
def findSourceSink (g : Graph) (vertexCount : Nat) : Int × Int :=
  let ps := markAll g (List.range vertexCount)
    (List.replicate vertexCount false, List.replicate vertexCount false)
  let potentialSource := ps.1
  let potentialSink := ps.2
  (firstIndex (fun i => potentialSource.getD i false && !potentialSink.getD i false)
      (List.range vertexCount),
   firstIndex (fun i => !potentialSource.getD i false && potentialSink.getD i false)
      (List.range vertexCount))

/-- The mutable state of one `bfs` call: the queue and the two caller-owned arrays. -/
structure BfsState where
  q : List Nat
  visited : List Bool
  path : List (Option Nat)
deriving DecidableEq

/-- The `for` loop of `bfs` over the rest of a chain; the Boolean tells whether
`return true` was executed. -/
def bfsScan (g : Graph) (sink : Nat) : List Nat → BfsState → Bool × BfsState
  | [], st => (false, st)
  | e :: rest, st =>
    if !st.visited.getD (g.edge e).dst false && (g.edge e).capacity > (g.edge e).flow then
      let st' : BfsState :=
        { q := st.q ++ [(g.edge e).dst],
          visited := st.visited.set (g.edge e).dst true,
          path := st.path.set (g.edge e).dst (some e) }
      if (g.edge e).dst = sink then (true, st') else bfsScan g sink rest st'
    else bfsScan g sink rest st

/-- The `while (!q.empty())` loop of `bfs`. -/
def bfsLoop (g : Graph) (sink : Nat) : Nat → BfsState → Option (Bool × BfsState)
  | 0, _ => none
  | fuel + 1, st =>
    match st.q with
    | [] => some (false, st)
    | u :: q' =>
      match bfsScan g sink (g.adjOf u) { st with q := q' } with
      | (true, st') => some (true, st')
      | (false, st') => bfsLoop g sink fuel st'

/-- Function `bfs`: pushes `src`, marks it, clears `path[src]`, then runs the loop. -/
def bfs (fuel : Nat) (g : Graph) (src sink : Nat) (path : List (Option Nat))
    (visited : List Bool) : Option (Bool × BfsState) :=
  bfsLoop g sink fuel { q := [src], visited := visited.set src true, path := path.set src none }

/-- The vertex `path[v]->reverse->to` from which edge `e` leaves. -/
def Graph.origin (g : Graph) (e : Nat) : Nat := (g.edge (g.edge e).reverse).dst

/-- First backward walk: `flow = min(flow, path[v]->capacity - path[v]->flow)`
for `v = sink; v != src; v = path[v]->reverse->to`. -/
def bottleneck (g : Graph) (path : List (Option Nat)) (src : Nat) : Nat → Nat → Int → Option Int
  | fuel, v, flow =>
    if v = src then some flow
    else match fuel with
      | 0 => none
      | fuel + 1 =>
        match path.getD v none with
        | none => none
        | some e => bottleneck g path src fuel (g.origin e) (min flow (g.residual e))

/-- Store `x` into the `flow` field of edge `e`. -/
def Graph.setFlow (g : Graph) (e : Nat) (x : Int) : Graph :=
  { g with edges := g.edges.set e { g.edge e with flow := x } }

/-- The body `path[v]->flow += flow; path[v]->reverse->flow -= flow`. -/
def pushEdge (g : Graph) (e : Nat) (flow : Int) : Graph :=
  let g1 := g.setFlow e (wrap16 ((g.edge e).flow + flow))
  let r := (g1.edge e).reverse
  g1.setFlow r (wrap16 ((g1.edge r).flow - flow))

/-- Second backward walk: applies `pushEdge` to every `path[v]`. -/
def augment (path : List (Option Nat)) (src : Nat) (flow : Int) : Nat → Nat → Graph → Option Graph
  | fuel, v, g =>
    if v = src then some g
    else match fuel with
      | 0 => none
      | fuel + 1 =>
        match path.getD v none with
        | none => none
        | some e =>
          let g' := pushEdge g e flow
          augment path src flow fuel (g'.origin e) g'

/-- The state carried round the `while (true)` loop of `fordFulkerson`. -/
structure FFState where
  g : Graph
  path : List (Option Nat)
  maxFlow : Int
deriving DecidableEq

/-- One iteration of the `while (true)` loop.  The Boolean is `false` when the
loop was left by `break` and `true` when an augmentation was performed. -/
def ffStep (fuel vertexCount src sink : Nat) (st : FFState) : Option (Bool × FFState) :=
  match bfs fuel st.g src sink st.path (List.replicate vertexCount false) with
  | none => none
  | some (false, b) => some (false, { st with path := b.path })
  | some (true, b) =>
    match bottleneck st.g b.path src fuel sink INT_MAX with
    | none => none
    | some flow =>
      match augment b.path src flow fuel sink st.g with
      | none => none
      | some g' => some (true, { g := g', path := b.path, maxFlow := wrap32 (st.maxFlow + flow) })

/-- The `while (true)` loop, at most `n` iterations. -/
def ffLoop (fuel vertexCount src sink : Nat) : Nat → FFState → Option FFState
  | 0, _ => none
  | n + 1, st =>
    match ffStep fuel vertexCount src sink st with
    | none => none
    | some (false, st') => some st'
    | some (true, st') => ffLoop fuel vertexCount src sink n st'

/-- The state in which the loop of `fordFulkerson` is entered. -/
def ffInit (g : Graph) (vertexCount : Nat) : FFState :=
  { g := g, path := List.replicate vertexCount none, maxFlow := 0 }

/-- Function `fordFulkerson`: returns `maxFlow` together with the final graph; every
loop runs for at most `fuel` iterations. -/
def fordFulkerson (fuel : Nat) (g : Graph) (vertexCount src sink : Nat) : Option (Int × Graph) :=
  (ffLoop fuel vertexCount src sink fuel (ffInit g vertexCount)).map fun st => (st.maxFlow, st.g)

/-- The triple number `i` of the input (a dummy one past the end). -/
def tri (L : List Triple) (i : Nat) : Triple := L.getD i (0, 0, 0)

/-- The vertex whose chain holds edge `e` of the graph built from `L`: the
`from` of its triple for the direct edge `2 i`, the `to` for the reverse edge
`2 i + 1`. -/
def ownerOf (L : List Triple) (e : Nat) : Nat :=
  if e % 2 = 0 then (tri L (e / 2)).1 else (tri L (e / 2)).2.1

/-- Every triple names two vertices below `V`. -/
def ValidTriples (V : Nat) (L : List Triple) : Prop :=
  ∀ tr ∈ L, tr.1 < V ∧ tr.2.1 < V

instance (V : Nat) (L : List Triple) : Decidable (ValidTriples V L) := by
  unfold ValidTriples; infer_instance

/-- The fields that `fordFulkerson` never writes, as laid out by `addEdge`
for the input `L`. -/
structure Built (V : Nat) (L : List Triple) (g : Graph) : Prop where
  len : g.edges.length = 2 * L.length
  adjLen : g.adj.length = V
  fwd : ∀ i, i < L.length → (g.edge (2 * i)).dst = (tri L i).2.1 ∧
    (g.edge (2 * i)).capacity = (tri L i).2.2 ∧ (g.edge (2 * i)).reverse = 2 * i + 1
  bwd : ∀ i, i < L.length → (g.edge (2 * i + 1)).dst = (tri L i).1 ∧
    (g.edge (2 * i + 1)).capacity = 0 ∧ (g.edge (2 * i + 1)).reverse = 2 * i
  adj : ∀ u, u < V → g.adjOf u = (List.range (2 * L.length)).filter (fun e => ownerOf L e = u)

/-- All flows are zero. -/
def ZeroFlow (g : Graph) : Prop := ∀ e, (g.edge e).flow = 0

/-- Vertex `i` owns an edge of positive capacity. -/
def PotentialSource (g : Graph) (i : Nat) : Prop :=
  ∃ e ∈ g.adjOf i, 0 < (g.edge e).capacity

/-- Vertex `i` is the destination of an edge of positive capacity held by one
of the `V` chains. -/
def PotentialSink (g : Graph) (V i : Nat) : Prop :=
  ∃ u, u < V ∧ ∃ e ∈ g.adjOf u, 0 < (g.edge e).capacity ∧ (g.edge e).dst = i

/-- The value `r` is the least index below `V` satisfying `p`, or `-1` when there is none. -/
def LeastOrMinusOne (p : Nat → Prop) (V : Nat) (r : Int) : Prop :=
  (r = -1 ∧ ∀ i, i < V → ¬ p i) ∨ (∃ i, i < V ∧ r = (i : Int) ∧ p i ∧ ∀ j, j < i → ¬ p j)

/-- The two graphs differ at most in `flow` fields. -/
structure SameShape (g g' : Graph) : Prop where
  adj : g'.adj = g.adj
  len : g'.edges.length = g.edges.length
  dst : ∀ e, (g'.edge e).dst = (g.edge e).dst
  capacity : ∀ e, (g'.edge e).capacity = (g.edge e).capacity
  reverse : ∀ e, (g'.edge e).reverse = (g.edge e).reverse

/-- The edge paired with `e` in the layout of `addEdge`. -/
def mate (e : Nat) : Nat := if e % 2 = 0 then e + 1 else e - 1

/-- The edges `es` are those met by the backward walk from `v` to `s`:
`path[v]`, then `path` of its origin, and so on.  Every edge on the way is a
residual edge of `g` entering a marked vertex, and no edge or its mate occurs
twice. -/
inductive TreePath (g : Graph) (m s : Nat) (path : List (Option Nat)) (vis : List Bool) :
    Nat → List Nat → Prop
  | root : vis.getD s false = true → TreePath g m s path vis s []
  | step {v e : Nat} {es : List Nat} :
      v ≠ s → path.getD v none = some e → e < m → (g.edge e).dst = v → 0 < g.residual e →
      vis.getD v false = true → TreePath g m s path vis (g.origin e) es →
      v ∉ es.map (fun e' => (g.edge e').dst) →
      (∀ e' ∈ es, e' ≠ e ∧ e' ≠ mate e) →
      TreePath g m s path vis v (e :: es)

/-- What holds between two visits of `bfs`; `pending` is the part of the
current chain still to be scanned. -/
structure BfsInv (g : Graph) (L : List Triple) (V s t : Nat) (pending : List Nat)
    (st : BfsState) : Prop where
  visLen : st.visited.length = V
  pathLen : st.path.length = V
  visS : st.visited.getD s false = true
  qVis : ∀ u ∈ st.q, st.visited.getD u false = true
  tree : ∀ v, st.visited.getD v false = true →
    ∃ es, TreePath g (2 * L.length) s st.path st.visited v es
  closed : ∀ e, e < 2 * L.length → 0 < g.residual e →
    st.visited.getD (ownerOf L e) false = true →
    ownerOf L e ∈ st.q ∨ e ∈ pending ∨ st.visited.getD (g.edge e).dst false = true
  notT : st.visited.getD t false = false

/-- Number of unmarked vertices plus queue length: drops by one per dequeue. -/
def bfsMeasure (st : BfsState) : Nat := st.visited.count false + st.q.length

/-- The state after the body of the `if` in `bfs` for edge `e`. -/
def visitEdge (g : Graph) (e : Nat) (st : BfsState) : BfsState :=
  { q := st.q ++ [(g.edge e).dst],
    visited := st.visited.set (g.edge e).dst true,
    path := st.path.set (g.edge e).dst (some e) }

/-- Capacities are values of `int16_t`. -/
def CapsInt16 (L : List Triple) : Prop := ∀ tr ∈ L, -32768 ≤ tr.2.2 ∧ tr.2.2 ≤ 32767

instance (L : List Triple) : Decidable (CapsInt16 L) := by
  unfold CapsInt16; infer_instance

/-- The flow on every direct edge lies between `0` and its capacity (and is `0`
when the capacity is negative); the reverse edge carries the negated flow. -/
structure FlowOK (L : List Triple) (g : Graph) : Prop where
  lo : ∀ i, i < L.length → 0 ≤ (g.edge (2 * i)).flow
  hi : ∀ i, i < L.length → (g.edge (2 * i)).flow ≤ max (tri L i).2.2 0
  skew : ∀ i, i < L.length → (g.edge (2 * i + 1)).flow = -(g.edge (2 * i)).flow

/-- Net flow leaving `v`: flow on the direct edges out of `v` minus flow on
the direct edges into `v`. -/
def netOut (L : List Triple) (g : Graph) (v : Nat) : Int :=
  ∑ i in Finset.range L.length,
    ((if (tri L i).1 = v then (g.edge (2 * i)).flow else 0) -
     (if (tri L i).2.1 = v then (g.edge (2 * i)).flow else 0))

/-- The state invariant of the `while (true)` loop for the input `L`. -/
structure FFInv (V : Nat) (L : List Triple) (s t : Nat) (st : FFState) : Prop where
  built : Built V L st.g
  flow : FlowOK L st.g
  cons : ∀ v, v ≠ s → v ≠ t → netOut L st.g v = 0
  total : st.maxFlow = wrap32 (netOut L st.g s)
  pathLen : st.path.length = V

/-- Capacity of the cut `S`: the capacities of the input edges leaving `S`. -/
def cutCapacity (L : List Triple) (S : Nat → Bool) : Int :=
  (L.map fun tr => if S tr.1 && !S tr.2.1 then tr.2.2 else 0).sum

/-- Capacity of the cut `S` when negative capacities count as zero. -/
def cutCapacityPos (L : List Triple) (S : Nat → Bool) : Int :=
  (L.map fun tr => if S tr.1 && !S tr.2.1 then max tr.2.2 0 else 0).sum

/-- Sum of the positive capacities: a bound on every flow value. -/
def capBound (L : List Triple) : Int := (L.map fun tr => max tr.2.2 0).sum

/-- Net flow leaving the vertex set `S`. -/
def netSet (L : List Triple) (g : Graph) (S : Nat → Bool) : Int :=
  ∑ i in Finset.range L.length,
    (g.edge (2 * i)).flow * ((if S (tri L i).1 then 1 else 0) - (if S (tri L i).2.1 then 1 else 0))

/-- The positive capacities of the input edges leaving `v`. -/
def outCapacity (L : List Triple) (v : Nat) : Int :=
  (L.map fun tr => if tr.1 = v then max tr.2.2 0 else 0).sum

/-- The final state: the invariant holds and the last search left a set of
marked vertices `b.visited` that contains the source, misses the sink and has
no residual edge leaving it. -/
structure FFFinal (V : Nat) (L : List Triple) (s t : Nat) (st : FFState) (b : BfsState) :
    Prop where
  inv : FFInv V L s t st
  search : BfsInv st.g L V s t [] b
  empty : b.q = []

/-- Fuel that suffices for every loop of a run on the input `(V, L)`. -/
def enoughFuel (V : Nat) (L : List Triple) : Nat := V + (capBound L).toNat + 1

/-- The states in which the `while (true)` loop of `fordFulkerson` is entered:
the initial one, and the one left by each augmentation. -/
inductive Reachable (fuel V s t : Nat) (g0 : Graph) : FFState → Prop
  | init : Reachable fuel V s t g0 (ffInit g0 V)
  | step {st st' : FFState} : Reachable fuel V s t g0 st →
      ffStep fuel V s t st = some (true, st') → Reachable fuel V s t g0 st'

/-- The first line written by `outputFlow`. -/
def headerLine (maxFlow src sink : Int) : String :=
  "Max Flow from " ++ toString src ++ " to " ++ toString sink ++ ": " ++ toString maxFlow ++ "\n"

/-- The line written for edge `e` of the chain of `u`. -/
def edgeLine (g : Graph) (u e : Nat) : String :=
  toString u ++ " -> " ++ toString (g.edge e).dst ++ " | Flow: " ++ toString (g.edge e).flow ++ "\n"

/-- Inner loop of `outputFlow` over the rest of the chain of `u`; `out` is the
text written so far. -/
def outputChain (g : Graph) (u : Nat) : List Nat → String → String
  | [], out => out
  | e :: rest, out =>
    if (g.edge e).flow > 0 then outputChain g u rest (out ++ edgeLine g u e)
    else outputChain g u rest out

/-- Outer loop of `outputFlow`; `us` are the vertices still to visit. -/
def outputVertices (g : Graph) : List Nat → String → String
  | [], out => out
  | u :: us, out => outputVertices g us (outputChain g u (g.adjOf u) out)

/-- Function `outputFlow`: the text written to the stream. -/
def outputFlow (g : Graph) (vertexCount : Nat) (maxFlow src sink : Int) : String :=
  outputVertices g (List.range vertexCount) (headerLine maxFlow src sink)

/-- What a run leaves: the exit status and the content of `output.txt`. -/
structure RunResult where
  exitCode : Nat
  output : String
deriving DecidableEq

/-- Function `main` once both files are open and the vertex count and the triples have
been decoded: construction, inference, flow computation, report. -/
def main (fuel : Nat) (vertexCount : Nat) (triples : List Triple) : Option RunResult :=
  let adjList := buildGraph vertexCount triples
  let ss := findSourceSink adjList vertexCount
  if ss.1 = -1 ∨ ss.2 = -1 then some ⟨1, ""⟩
  else
    match fordFulkerson fuel adjList vertexCount ss.1.toNat ss.2.toNat with
    | none => none
    | some (maxFlow, g) => some ⟨0, outputFlow g vertexCount maxFlow ss.1 ss.2⟩

/-- The report in the words of the specification: the pairs (vertex, edge of
its chain) by ascending vertex and chain order, those of positive flow kept. -/
def reportEdges (g : Graph) (V : Nat) : List (Nat × Nat) :=
  ((List.range V).flatMap fun u => (g.adjOf u).map fun e => (u, e)).filter
    fun p => 0 < (g.edge p.2).flow

/-- The report in the words of the specification: the header line followed by
one line per reported edge. -/
def reportText (g : Graph) (V : Nat) (maxFlow src sink : Int) : String :=
  (reportEdges g V).foldl (fun out p => out ++ edgeLine g p.1 p.2) (headerLine maxFlow src sink)

/-- Some input edge of positive capacity leaves `i`. -/
def HasOut (L : List Triple) (i : Nat) : Prop := ∃ tr ∈ L, tr.1 = i ∧ 0 < tr.2.2

/-- Some input edge of positive capacity enters `i`. -/
def HasIn (L : List Triple) (i : Nat) : Prop := ∃ tr ∈ L, tr.2.1 = i ∧ 0 < tr.2.2

/-- Sum of the `flow` fields of all edges of the chain of `v`. -/
def adjFlow (g : Graph) (v : Nat) : Int := ((g.adjOf v).map fun e => (g.edge e).flow).sum

/-- Flow on the direct edges leaving `v`. -/
def flowLeaving (L : List Triple) (g : Graph) (v : Nat) : Int :=
  ∑ i in Finset.range L.length, if (tri L i).1 = v then (g.edge (2 * i)).flow else 0

/-- Flow on the direct edges entering `v`. -/
def flowEntering (L : List Triple) (g : Graph) (v : Nat) : Int :=
  ∑ i in Finset.range L.length, if (tri L i).2.1 = v then (g.edge (2 * i)).flow else 0

/-- Vertex `i` qualifies as source: positive capacity leaves it, none enters. -/
def IsSource (L : List Triple) (i : Nat) : Prop := HasOut L i ∧ ¬ HasIn L i

/-- Vertex `i` qualifies as sink: positive capacity enters it, none leaves. -/
def IsSink (L : List Triple) (i : Nat) : Prop := HasIn L i ∧ ¬ HasOut L i

/-- No vertex qualifies as source, or no vertex qualifies as sink. -/
def InferenceFails (V : Nat) (L : List Triple) : Prop :=
  (∀ i, i < V → ¬ IsSource L i) ∨ (∀ i, i < V → ¬ IsSink L i)

/-- The diamond input of the specification, with common capacity `c`:
`S = 0`, `A = 1`, `B = 2`, `T = 3`. -/
def diamond (c : Int) : List Triple := [(0, 1, c), (0, 2, c), (1, 3, c), (2, 3, c)]

/-- The 3-cycle `0 -> 1 -> 2 -> 0`. -/
def cycle3 (c1 c2 c3 : Int) : List Triple := [(0, 1, c1), (1, 2, c2), (2, 0, c3)]

/-- The bottleneck input of the specification: `S -> A (10)`, `A -> T (1)`. -/
def bottleneckInput : List Triple := [(0, 1, 10), (1, 2, 1)]

/-- The trivial input of the specification: one edge `(0, 1, 5)`. -/
def trivialInput : List Triple := [(0, 1, 5)]

/-- The state left by the one augmentation of the run on `trivialInput`. -/
def trivialAfter : FFState :=
  ⟨⟨[⟨1, 5, 5, 1⟩, ⟨0, 0, -5, 0⟩], [[0], [1]]⟩, [none, some 0], 5⟩

/-- The edges `es`, in order, lead from `u` to `v`, each one lying in the chain
of the vertex reached so far and having `capacity - flow > 0`. -/
inductive ResPath (g : Graph) : Nat → List Nat → Nat → Prop
  | nil (u : Nat) : ResPath g u [] u
  | cons {u e : Nat} {es : List Nat} {v : Nat} : e ∈ g.adjOf u → 0 < g.residual e →
      ResPath g (g.edge e).dst es v → ResPath g u (e :: es) v

/-- An input of `n` parallel edges `0 -> 1` of capacity `c`. -/
def parallelInput (n : Nat) (c : Int) : List Triple := List.replicate n (0, 1, c)

/-- The configurations `(v, g)` in which the head of the second backward walk
of `fordFulkerson` is evaluated, for a walk started in `(v0, g0)`. -/
inductive AugReach (path : List (Option Nat)) (src : Nat) (flow : Int) (v0 : Nat) (g0 : Graph) :
    Nat → Graph → Prop
  | start : AugReach path src flow v0 g0 v0 g0
  | next {v : Nat} {g : Graph} {e : Nat} : AugReach path src flow v0 g0 v g → v ≠ src →
      path.getD v none = some e →
      AugReach path src flow v0 g0 ((pushEdge g e flow).origin e) (pushEdge g e flow)

/-- The graph states a run on `g0` passes through: at each entry of the
`while (true)` loop (`entry`), at each evaluation of the head of the second
backward walk (`walk`), and between the two stores of its body (`half`). -/
inductive RunPoint (fuel V s t : Nat) (g0 : Graph) : Graph → Prop
  | entry {st : FFState} : Reachable fuel V s t g0 st → RunPoint fuel V s t g0 st.g
  | walk {st : FFState} {b : BfsState} {flow : Int} {v : Nat} {g : Graph} :
      Reachable fuel V s t g0 st →
      bfs fuel st.g s t st.path (List.replicate V false) = some (true, b) →
      bottleneck st.g b.path s fuel t INT_MAX = some flow →
      AugReach b.path s flow t st.g v g → RunPoint fuel V s t g0 g
  | half {st : FFState} {b : BfsState} {flow : Int} {v : Nat} {g : Graph} {e : Nat} :
      Reachable fuel V s t g0 st →
      bfs fuel st.g s t st.path (List.replicate V false) = some (true, b) →
      bottleneck st.g b.path s fuel t INT_MAX = some flow →
      AugReach b.path s flow t st.g v g → v ≠ s → b.path.getD v none = some e →
      RunPoint fuel V s t g0 (g.setFlow e (wrap16 ((g.edge e).flow + flow)))

/-- An input with one edge of negative capacity. -/
def negativeInput : List Triple := [(0, 1, -1)]

/-- The triple with a negative capacity replaced by `0`. -/
def clampTriple (tr : Triple) : Triple := (tr.1, tr.2.1, max tr.2.2 0)

/-- The input with every negative capacity replaced by `0`. -/
def clampInput (L : List Triple) : List Triple := L.map clampTriple

/-- The edge with a negative capacity replaced by `0`. -/
def clampEdge (e : Edge) : Edge := { e with capacity := max e.capacity 0 }

/-- The graph with every negative capacity replaced by `0`. -/
def clampGraph (g : Graph) : Graph := { g with edges := g.edges.map clampEdge }

/-- The loop state with every negative capacity replaced by `0`. -/
def clampState (st : FFState) : FFState := { st with g := clampGraph st.g }

/-- There is a walk of exactly `k` residual edges from `s` to the vertex. -/
inductive Within (g : Graph) (s : Nat) : Nat → Nat → Prop
  | zero : Within g s 0 s
  | step {k u e : Nat} : Within g s k u → e ∈ g.adjOf u → 0 < g.residual e →
      Within g s (k + 1) (g.edge e).dst

/-- The level structure of the search: `d` gives the length of the backward
walk of every marked vertex, `D` is the level of the vertex being scanned (or
last scanned); queued vertices are on levels `D` and `D + 1`, in order, and a
marked vertex that is neither queued nor being scanned has all its residual
neighbours marked at most one level further. -/
structure BfsLevel (g : Graph) (L : List Triple) (s : Nat) (d : Nat → Nat) (D : Nat)
    (pending : List Nat) (st : BfsState) : Prop where
  visS : st.visited.getD s false = true
  depth : ∀ v, st.visited.getD v false = true →
    ∃ es, TreePath g (2 * L.length) s st.path st.visited v es ∧ es.length = d v
  upper : ∀ v, st.visited.getD v false = true → d v ≤ D + 1
  lower : ∀ v ∈ st.q, D ≤ d v
  sorted : st.q.Pairwise (fun v w => d v ≤ d w)
  cur : ∀ e ∈ pending, d (ownerOf L e) = D
  closed : ∀ e, e < 2 * L.length → 0 < g.residual e →
    st.visited.getD (ownerOf L e) false = true →
    ownerOf L e ∈ st.q ∨ e ∈ pending ∨
      (st.visited.getD (g.edge e).dst false = true ∧ d (g.edge e).dst ≤ d (ownerOf L e) + 1)

/-- The state in which the loop of `fordFulkerson` is entered after exactly `k`
augmentations. -/
inductive ReachableIn (fuel V s t : Nat) (g0 : Graph) : Nat → FFState → Prop
  | init : ReachableIn fuel V s t g0 0 (ffInit g0 V)
  | step {k : Nat} {st st' : FFState} : ReachableIn fuel V s t g0 k st →
      ffStep fuel V s t st = some (true, st') → ReachableIn fuel V s t g0 (k + 1) st'

/-- Half the number of levels left above level `k`. -/
def level (V k : Nat) : Nat := (V - k) / 2

/-- Weight of an edge: a residual edge weighs by the level of the vertex it
leaves, a saturated one by the level after the vertex it enters. -/
def edgePot (V : Nat) (L : List Triple) (g : Graph) (δ : Nat → Nat) (e : Nat) : Nat :=
  if 0 < g.residual e then level V (δ (ownerOf L e)) else level V (δ (g.edge e).dst + 1)

/-- Sum of the weights of all edges of the arena. -/
def potential (V : Nat) (L : List Triple) (g : Graph) (δ : Nat → Nat) : Nat :=
  ∑ e in Finset.range (2 * L.length), edgePot V L g δ e

/-- The function `δ` gives the least length of a residual walk from `s`, cut off
at `V`. -/
def IsDist (V : Nat) (g : Graph) (s : Nat) (δ : Nat → Nat) : Prop :=
  ∀ x, δ x ≤ V ∧ ∀ k, k < V → (δ x ≤ k ↔ ∃ j, j ≤ k ∧ Within g s j x)

/-! ## Theorems -/

theorem tri_append_left (L : List Triple) (x : Triple) (i : Nat) (h : i < L.length) :
    tri (L ++ [x]) i = tri L i := by
  unfold tri; exact List.getD_append _ _ _ _ h

theorem tri_append_last (L : List Triple) (x : Triple) : tri (L ++ [x]) L.length = x := by
  unfold tri; simp

theorem tri_mem (L : List Triple) (i : Nat) (h : i < L.length) : tri L i ∈ L := by
  unfold tri; rw [List.getD_eq_getElem _ _ h]; exact List.getElem_mem h

theorem ownerOf_append_left (L : List Triple) (x : Triple) (e : Nat) (h : e < 2 * L.length) :
    ownerOf (L ++ [x]) e = ownerOf L e := by
  unfold ownerOf
  rw [tri_append_left L x (e / 2) (by omega)]

theorem edge_addEdge_old (g : Graph) (a b : Nat) (c : Int) (e : Nat) (h : e < g.edges.length) :
    (addEdge g a b c).edge e = g.edge e := by
  unfold addEdge Graph.edge
  exact List.getD_append _ _ _ _ h

theorem edge_addEdge_direct (g : Graph) (a b : Nat) (c : Int) :
    (addEdge g a b c).edge g.edges.length = ⟨b, c, 0, g.edges.length + 1⟩ := by
  unfold addEdge Graph.edge
  rw [List.getD_append_right _ _ _ _ (le_refl _)]
  simp

theorem edge_addEdge_reverse (g : Graph) (a b : Nat) (c : Int) :
    (addEdge g a b c).edge (g.edges.length + 1) = ⟨a, 0, 0, g.edges.length⟩ := by
  unfold addEdge Graph.edge
  rw [List.getD_append_right _ _ _ _ (Nat.le_succ _)]
  simp

theorem getD_appendAdj (adj : List (List Nat)) (u e v : Nat) (hu : u < adj.length) :
    (appendAdj adj u e).getD v [] = if v = u then adj.getD u [] ++ [e] else adj.getD v [] := by
  unfold appendAdj
  by_cases h : v = u
  · subst h; simp [hu]
  · simp [h, List.getElem?_set_ne (Ne.symm h)]

theorem length_appendAdj (adj : List (List Nat)) (u e : Nat) :
    (appendAdj adj u e).length = adj.length := by
  unfold appendAdj; simp

theorem built_empty (V : Nat) : Built V [] (emptyGraph V) where
  len := rfl
  adjLen := by simp [emptyGraph]
  fwd := by intro i h; simp at h
  bwd := by intro i h; simp at h
  adj := by
    intro u hu
    simp [Graph.adjOf, emptyGraph, hu]

theorem built_addEdge {V : Nat} {L : List Triple} {g : Graph} (hb : Built V L g)
    (a b : Nat) (c : Int) (ha : a < V) (hbV : b < V) :
    Built V (L ++ [(a, b, c)]) (addEdge g a b c) where
  len := by simp [addEdge, hb.len]; omega
  adjLen := by simp [addEdge, length_appendAdj, hb.adjLen]
  fwd := by
    intro i hi
    simp only [List.length_append, List.length_singleton] at hi
    rcases Nat.lt_or_ge i L.length with h | h
    · rw [edge_addEdge_old g a b c (2 * i) (by rw [hb.len]; omega), tri_append_left L _ i h]
      exact hb.fwd i h
    · have hi' : i = L.length := by omega
      subst hi'
      have h2 : 2 * L.length = g.edges.length := hb.len.symm
      rw [h2, edge_addEdge_direct, tri_append_last]
      simp
  bwd := by
    intro i hi
    simp only [List.length_append, List.length_singleton] at hi
    rcases Nat.lt_or_ge i L.length with h | h
    · rw [edge_addEdge_old g a b c (2 * i + 1) (by rw [hb.len]; omega), tri_append_left L _ i h]
      exact hb.bwd i h
    · have hi' : i = L.length := by omega
      subst hi'
      have h2 : 2 * L.length = g.edges.length := hb.len.symm
      rw [h2, edge_addEdge_reverse, tri_append_last]
      simp
  adj := by
    intro u hu
    have hlen : 2 * (L ++ [(a, b, c)]).length = 2 * L.length + 1 + 1 := by simp; omega
    have hfil : (List.range (2 * L.length)).filter (fun e => ownerOf (L ++ [(a, b, c)]) e = u)
        = (List.range (2 * L.length)).filter (fun e => ownerOf L e = u) := by
      apply List.filter_congr
      intro e he
      rw [ownerOf_append_left L _ e (List.mem_range.mp he)]
    have ho1 : ownerOf (L ++ [(a, b, c)]) (2 * L.length) = a := by
      unfold ownerOf
      have : 2 * L.length / 2 = L.length := by omega
      rw [this, tri_append_last]; simp
    have ho2 : ownerOf (L ++ [(a, b, c)]) (2 * L.length + 1) = b := by
      unfold ownerOf
      have : (2 * L.length + 1) / 2 = L.length := by omega
      rw [this, tri_append_last]
      have : (2 * L.length + 1) % 2 = 1 := by omega
      simp [this]
    rw [hlen, List.range_succ, List.range_succ, List.filter_append, List.filter_append, hfil,
      ← hb.adj u hu]
    unfold Graph.adjOf addEdge
    simp only
    rw [getD_appendAdj _ _ _ _ (by rw [length_appendAdj, hb.adjLen]; exact hbV),
      getD_appendAdj _ _ _ _ (by rw [hb.adjLen]; exact ha),
      getD_appendAdj _ _ _ _ (by rw [hb.adjLen]; exact ha)]
    rw [hb.len]
    simp only [List.filter_cons, List.filter_nil, ho1, ho2, decide_eq_true_eq]
    by_cases h1 : u = a
    · subst h1
      by_cases h2 : u = b
      · subst h2; simp
      · have h2' : ¬ b = u := fun h => h2 h.symm
        simp [h2, h2']
    · have h1' : ¬ a = u := fun h => h1 h.symm
      by_cases h2 : u = b
      · subst h2; simp [h1, h1']
      · have h2' : ¬ b = u := fun h => h2 h.symm
        simp [h1, h1', h2, h2']

theorem built_foldl (V : Nat) (L' : List Triple) : ∀ (L : List Triple) (g : Graph),
    Built V L g → ValidTriples V L' →
    Built V (L ++ L') (L'.foldl (fun g tr => addEdge g tr.1 tr.2.1 tr.2.2) g) := by
  induction L' with
  | nil => intro L g hb _; simpa using hb
  | cons x xs ih =>
    intro L g hb hv
    have hx := hv x (List.mem_cons_self _ _)
    have := ih (L ++ [x]) (addEdge g x.1 x.2.1 x.2.2)
      (built_addEdge hb x.1 x.2.1 x.2.2 hx.1 hx.2)
      (fun tr htr => hv tr (List.mem_cons_of_mem _ htr))
    simpa using this

theorem built_buildGraph {V : Nat} {L : List Triple} (hv : ValidTriples V L) :
    Built V L (buildGraph V L) := by
  have := built_foldl V L [] (emptyGraph V) (built_empty V) hv
  simpa [buildGraph] using this

theorem zeroFlow_addEdge {g : Graph} (h : ZeroFlow g) (a b : Nat) (c : Int) :
    ZeroFlow (addEdge g a b c) := by
  intro e
  rcases Nat.lt_or_ge e g.edges.length with h1 | h1
  · rw [edge_addEdge_old _ _ _ _ _ h1]; exact h e
  · rcases Nat.eq_or_lt_of_le h1 with h2 | h2
    · rw [← h2, edge_addEdge_direct]
    · rcases Nat.eq_or_lt_of_le (Nat.succ_le_of_lt h2) with h3 | h3
      · rw [← h3]; exact congrArg Edge.flow (edge_addEdge_reverse g a b c)
      · unfold Graph.edge addEdge
        rw [List.getD_eq_default]
        simp; omega

theorem zeroFlow_buildGraph (V : Nat) (L : List Triple) : ZeroFlow (buildGraph V L) := by
  unfold buildGraph
  have h0 : ZeroFlow (emptyGraph V) := by intro e; simp [Graph.edge, emptyGraph]
  generalize emptyGraph V = g at h0
  induction L generalizing g with
  | nil => simpa using h0
  | cons x xs ih => exact ih _ (zeroFlow_addEdge h0 _ _ _)

theorem getD_set_bool (l : List Bool) (u i : Nat) :
    (l.set u true).getD i false = true ↔ l.getD i false = true ∨ (i = u ∧ u < l.length) := by
  by_cases h : u = i
  · subst h
    by_cases hu : u < l.length
    · simp [hu]
    · rw [List.set_eq_of_length_le (by omega)]
      simp [hu]
  · simp [List.getElem?_set_ne h]
    intro h'; exact absurd h'.symm h

theorem markEdges_spec (g : Graph) (u : Nat) : ∀ (es : List Nat) (ps : List Bool × List Bool),
    (markEdges g u es ps).1.length = ps.1.length ∧ (markEdges g u es ps).2.length = ps.2.length ∧
    (∀ i, (markEdges g u es ps).1.getD i false = true ↔
      ps.1.getD i false = true ∨ (i = u ∧ u < ps.1.length ∧ ∃ e ∈ es, 0 < (g.edge e).capacity)) ∧
    (∀ i, (markEdges g u es ps).2.getD i false = true ↔
      ps.2.getD i false = true ∨
        (i < ps.2.length ∧ ∃ e ∈ es, 0 < (g.edge e).capacity ∧ (g.edge e).dst = i)) := by
  intro es
  induction es with
  | nil => intro ps; simp [markEdges]
  | cons e rest ih =>
    intro ps
    unfold markEdges
    by_cases hc : (g.edge e).capacity > 0
    · rw [if_pos hc]
      obtain ⟨h1, h2, h3, h4⟩ := ih (ps.1.set u true, ps.2.set (g.edge e).dst true)
      refine ⟨by simpa using h1, by simpa using h2, ?_, ?_⟩
      · intro i
        rw [h3 i]
        simp only [getD_set_bool, List.length_set, List.mem_cons]
        constructor
        · rintro ((h | ⟨h, h'⟩) | ⟨h, h', e', he', hc'⟩)
          · exact Or.inl h
          · exact Or.inr ⟨h, h', e, Or.inl rfl, hc⟩
          · exact Or.inr ⟨h, h', e', Or.inr he', hc'⟩
        · rintro (h | ⟨h, h', e', he', hc'⟩)
          · exact Or.inl (Or.inl h)
          · exact Or.inl (Or.inr ⟨h, h'⟩)
      · intro i
        rw [h4 i]
        simp only [getD_set_bool, List.length_set, List.mem_cons]
        constructor
        · rintro ((h | ⟨h, h'⟩) | ⟨h, e', he', hc'⟩)
          · exact Or.inl h
          · exact Or.inr ⟨by omega, e, Or.inl rfl, hc, h.symm⟩
          · exact Or.inr ⟨h, e', Or.inr he', hc'⟩
        · rintro (h | ⟨h, e', he' | he', hc', hd⟩)
          · exact Or.inl (Or.inl h)
          · subst he'; exact Or.inl (Or.inr ⟨hd.symm, by omega⟩)
          · exact Or.inr ⟨h, e', he', hc', hd⟩
    · rw [if_neg hc]
      obtain ⟨h1, h2, h3, h4⟩ := ih ps
      refine ⟨h1, h2, ?_, ?_⟩
      · intro i
        rw [h3 i]
        simp only [List.mem_cons]
        constructor
        · rintro (h | ⟨h, h', e', he', hc'⟩)
          · exact Or.inl h
          · exact Or.inr ⟨h, h', e', Or.inr he', hc'⟩
        · rintro (h | ⟨h, h', e', he' | he', hc'⟩)
          · exact Or.inl h
          · subst he'; exact absurd hc' hc
          · exact Or.inr ⟨h, h', e', he', hc'⟩
      · intro i
        rw [h4 i]
        simp only [List.mem_cons]
        constructor
        · rintro (h | ⟨h, e', he', hc'⟩)
          · exact Or.inl h
          · exact Or.inr ⟨h, e', Or.inr he', hc'⟩
        · rintro (h | ⟨h, e', he' | he', hc', hd⟩)
          · exact Or.inl h
          · subst he'; exact absurd hc' hc
          · exact Or.inr ⟨h, e', he', hc', hd⟩

theorem markAll_spec (g : Graph) : ∀ (us : List Nat) (ps : List Bool × List Bool),
    (markAll g us ps).1.length = ps.1.length ∧ (markAll g us ps).2.length = ps.2.length ∧
    (∀ i, (markAll g us ps).1.getD i false = true ↔
      ps.1.getD i false = true ∨ (i ∈ us ∧ i < ps.1.length ∧ PotentialSource g i)) ∧
    (∀ i, (markAll g us ps).2.getD i false = true ↔
      ps.2.getD i false = true ∨ (i < ps.2.length ∧
        ∃ u ∈ us, ∃ e ∈ g.adjOf u, 0 < (g.edge e).capacity ∧ (g.edge e).dst = i)) := by
  intro us
  induction us with
  | nil => intro ps; simp [markAll]
  | cons u rest ih =>
    intro ps
    unfold markAll
    obtain ⟨h1, h2, h3, h4⟩ := ih (markEdges g u (g.adjOf u) ps)
    obtain ⟨k1, k2, k3, k4⟩ := markEdges_spec g u (g.adjOf u) ps
    refine ⟨h1.trans k1, h2.trans k2, ?_, ?_⟩
    · intro i
      rw [h3 i, k3 i, k1]
      simp only [List.mem_cons, PotentialSource]
      constructor
      · rintro ((h | ⟨h, h', hp⟩) | ⟨h, h', hp⟩)
        · exact Or.inl h
        · subst h; exact Or.inr ⟨Or.inl rfl, h', hp⟩
        · exact Or.inr ⟨Or.inr h, h', hp⟩
      · rintro (h | ⟨h | h, h', hp⟩)
        · exact Or.inl (Or.inl h)
        · subst h; exact Or.inl (Or.inr ⟨rfl, h', hp⟩)
        · exact Or.inr ⟨h, h', hp⟩
    · intro i
      rw [h4 i, k4 i, k2]
      simp only [List.mem_cons]
      constructor
      · rintro ((h | ⟨h, hp⟩) | ⟨h, u', hu', hp⟩)
        · exact Or.inl h
        · exact Or.inr ⟨h, u, Or.inl rfl, hp⟩
        · exact Or.inr ⟨h, u', Or.inr hu', hp⟩
      · rintro (h | ⟨h, u', hu' | hu', hp⟩)
        · exact Or.inl (Or.inl h)
        · subst hu'; exact Or.inl (Or.inr ⟨h, hp⟩)
        · exact Or.inr ⟨h, u', hu', hp⟩

theorem firstIndex_range' (p : Nat → Bool) : ∀ (n a : Nat),
    (firstIndex p (List.range' a n) = -1 ∧ ∀ i, a ≤ i → i < a + n → p i = false) ∨
    (∃ i, a ≤ i ∧ i < a + n ∧ firstIndex p (List.range' a n) = (i : Int) ∧ p i = true ∧
      ∀ j, a ≤ j → j < i → p j = false) := by
  intro n
  induction n with
  | zero => intro a; left; simp [firstIndex]; intro i h1 h2; omega
  | succ n ih =>
    intro a
    rw [List.range'_succ]
    unfold firstIndex
    by_cases hp : p a = true
    · right
      refine ⟨a, le_refl _, by omega, by simp [hp], hp, ?_⟩
      intro j h1 h2; omega
    · rw [if_neg hp]
      have hp' : p a = false := by simpa using hp
      rcases ih (a + 1) with ⟨h1, h2⟩ | ⟨i, h1, h2, h3, h4, h5⟩
      · left
        refine ⟨h1, ?_⟩
        intro i hi1 hi2
        rcases Nat.eq_or_lt_of_le hi1 with h | h
        · rw [← h]; exact hp'
        · exact h2 i h (by omega)
      · right
        refine ⟨i, by omega, by omega, h3, h4, ?_⟩
        intro j hj1 hj2
        rcases Nat.eq_or_lt_of_le hj1 with h | h
        · rw [← h]; exact hp'
        · exact h5 j h hj2

theorem firstIndex_range (p : Nat → Bool) (V : Nat) :
    LeastOrMinusOne (fun i => p i = true) V (firstIndex p (List.range V)) := by
  rw [List.range_eq_range']
  rcases firstIndex_range' p V 0 with ⟨h1, h2⟩ | ⟨i, _, h2, h3, h4, h5⟩
  · left
    refine ⟨h1, ?_⟩
    intro i hi
    simpa using h2 i (Nat.zero_le _) (by omega)
  · right
    refine ⟨i, by omega, h3, h4, ?_⟩
    intro j hj
    simpa using h5 j (Nat.zero_le _) hj

theorem LeastOrMinusOne.congr {p q : Nat → Prop} {V : Nat} {r : Int}
    (h : LeastOrMinusOne p V r) (hpq : ∀ i, i < V → (p i ↔ q i)) : LeastOrMinusOne q V r := by
  rcases h with ⟨h1, h2⟩ | ⟨i, h1, h2, h3, h4⟩
  · exact Or.inl ⟨h1, fun i hi hq => h2 i hi ((hpq i hi).mpr hq)⟩
  · exact Or.inr ⟨i, h1, h2, (hpq i h1).mp h3,
      fun j hj hq => h4 j hj ((hpq j (by omega)).mpr hq)⟩

theorem LeastOrMinusOne.unique {p : Nat → Prop} {V : Nat} {r r' : Int}
    (h : LeastOrMinusOne p V r) (h' : LeastOrMinusOne p V r') : r = r' := by
  rcases h with ⟨h1, h2⟩ | ⟨i, h1, h2, h3, h4⟩ <;> rcases h' with ⟨k1, k2⟩ | ⟨j, k1, k2, k3, k4⟩
  · rw [h1, k1]
  · exact absurd k3 (h2 j k1)
  · exact absurd h3 (k2 i h1)
  · rcases Nat.lt_trichotomy i j with h | h | h
    · exact absurd h3 (k4 i h)
    · rw [h2, k2, h]
    · exact absurd k3 (h4 j h)

/-- Specification of `findSourceSink` on any graph: both results are least
indices for the two predicates the classification pass computes. -/
theorem findSourceSink_spec (g : Graph) (V : Nat) :
    LeastOrMinusOne (fun i => PotentialSource g i ∧ ¬ PotentialSink g V i) V
      (findSourceSink g V).1 ∧
    LeastOrMinusOne (fun i => PotentialSink g V i ∧ ¬ PotentialSource g i) V
      (findSourceSink g V).2 := by
  obtain ⟨h1, h2, h3, h4⟩ := markAll_spec g (List.range V)
    (List.replicate V false, List.replicate V false)
  have hs : ∀ i, i < V → ((markAll g (List.range V)
      (List.replicate V false, List.replicate V false)).1.getD i false = true ↔
      PotentialSource g i) := by
    intro i hi
    rw [h3 i]
    simp [hi]
  have ht : ∀ i, i < V → ((markAll g (List.range V)
      (List.replicate V false, List.replicate V false)).2.getD i false = true ↔
      PotentialSink g V i) := by
    intro i hi
    rw [h4 i]
    simp [hi, PotentialSink]
  constructor
  · refine (firstIndex_range _ V).congr ?_
    intro i hi
    simp only [Bool.and_eq_true, Bool.not_eq_true', ← Bool.not_eq_true, hs i hi, ht i hi]
  · refine (firstIndex_range _ V).congr ?_
    intro i hi
    simp only [Bool.and_eq_true, Bool.not_eq_true', ← Bool.not_eq_true, hs i hi, ht i hi]
    exact And.comm

theorem edge_setFlow (g : Graph) (e : Nat) (x : Int) (e' : Nat) :
    (g.setFlow e x).edge e' =
      if e' = e ∧ e < g.edges.length then { g.edge e with flow := x } else g.edge e' := by
  unfold Graph.setFlow Graph.edge
  by_cases h : e' = e
  · subst h
    by_cases hl : e' < g.edges.length
    · simp [hl]
    · rw [List.set_eq_of_length_le (by omega)]
      simp [hl]
  · simp [h, List.getElem?_set_ne (Ne.symm h)]

theorem SameShape.refl (g : Graph) : SameShape g g :=
  ⟨rfl, rfl, fun _ => rfl, fun _ => rfl, fun _ => rfl⟩

theorem SameShape.trans {g g' g'' : Graph} (h : SameShape g g') (h' : SameShape g' g'') :
    SameShape g g'' :=
  ⟨h'.adj.trans h.adj, h'.len.trans h.len, fun e => (h'.dst e).trans (h.dst e),
    fun e => (h'.capacity e).trans (h.capacity e), fun e => (h'.reverse e).trans (h.reverse e)⟩

theorem sameShape_setFlow (g : Graph) (e : Nat) (x : Int) : SameShape g (g.setFlow e x) where
  adj := rfl
  len := by simp [Graph.setFlow]
  dst := by intro e'; rw [edge_setFlow]; split <;> simp_all
  capacity := by intro e'; rw [edge_setFlow]; split <;> simp_all
  reverse := by intro e'; rw [edge_setFlow]; split <;> simp_all

theorem sameShape_pushEdge (g : Graph) (e : Nat) (x : Int) : SameShape g (pushEdge g e x) := by
  unfold pushEdge
  exact (sameShape_setFlow g e _).trans (sameShape_setFlow _ _ _)

theorem SameShape.origin {g g' : Graph} (h : SameShape g g') (e : Nat) :
    g'.origin e = g.origin e := by
  unfold Graph.origin
  rw [h.reverse e, h.dst]

theorem SameShape.adjOf {g g' : Graph} (h : SameShape g g') (u : Nat) :
    g'.adjOf u = g.adjOf u := by
  unfold Graph.adjOf
  rw [h.adj]

theorem Built.sameShape {V : Nat} {L : List Triple} {g g' : Graph} (hb : Built V L g)
    (h : SameShape g g') : Built V L g' where
  len := h.len.trans hb.len
  adjLen := by rw [h.adj]; exact hb.adjLen
  fwd := by intro i hi; rw [h.dst, h.capacity, h.reverse]; exact hb.fwd i hi
  bwd := by intro i hi; rw [h.dst, h.capacity, h.reverse]; exact hb.bwd i hi
  adj := by intro u hu; rw [h.adjOf]; exact hb.adj u hu

theorem mate_ne (e : Nat) : mate e ≠ e := by unfold mate; split <;> omega

theorem mate_mate (e : Nat) : mate (mate e) = e := by unfold mate; split <;> split <;> omega

theorem mate_lt {e n : Nat} (h : e < 2 * n) : mate e < 2 * n := by
  unfold mate; split <;> omega

theorem mate_div (e : Nat) : mate e / 2 = e / 2 := by unfold mate; split <;> omega

theorem eq_or_mate_of_div {e e' : Nat} (h : e' / 2 = e / 2) : e' = e ∨ e' = mate e := by
  unfold mate; split <;> omega

theorem Built.reverse_eq {V : Nat} {L : List Triple} {g : Graph} (hb : Built V L g) {e : Nat}
    (he : e < 2 * L.length) : (g.edge e).reverse = mate e := by
  unfold mate
  rcases Nat.mod_two_eq_zero_or_one e with h | h
  · have := (hb.fwd (e / 2) (by omega)).2.2
    have h2 : 2 * (e / 2) = e := by omega
    rw [h2] at this
    rw [if_pos h, this]
  · have := (hb.bwd (e / 2) (by omega)).2.2
    have h2 : 2 * (e / 2) + 1 = e := by omega
    rw [h2] at this
    rw [if_neg (by omega), this]; omega

theorem ownerOf_mate (L : List Triple) (e : Nat) :
    ownerOf L (mate e) = if e % 2 = 0 then (tri L (e / 2)).2.1 else (tri L (e / 2)).1 := by
  unfold ownerOf
  rw [mate_div]
  unfold mate
  rcases Nat.mod_two_eq_zero_or_one e with h | h
  · have h3 : (e + 1) % 2 ≠ 0 := by omega
    simp [h, h3]
  · have h3 : (e - 1) % 2 = 0 := by omega
    simp [h, h3]

theorem Built.dst_eq {V : Nat} {L : List Triple} {g : Graph} (hb : Built V L g) {e : Nat}
    (he : e < 2 * L.length) : (g.edge e).dst = ownerOf L (mate e) := by
  rw [ownerOf_mate]
  rcases Nat.mod_two_eq_zero_or_one e with h | h
  · have := (hb.fwd (e / 2) (by omega)).1
    have h2 : 2 * (e / 2) = e := by omega
    rw [h2] at this
    rw [if_pos h, this]
  · have := (hb.bwd (e / 2) (by omega)).1
    have h2 : 2 * (e / 2) + 1 = e := by omega
    rw [h2] at this
    rw [if_neg (by omega), this]

theorem Built.origin_eq {V : Nat} {L : List Triple} {g : Graph} (hb : Built V L g) {e : Nat}
    (he : e < 2 * L.length) : g.origin e = ownerOf L e := by
  unfold Graph.origin
  rw [hb.reverse_eq he, hb.dst_eq (mate_lt he), mate_mate]

theorem Built.mem_adjOf {V : Nat} {L : List Triple} {g : Graph} (hb : Built V L g) {u : Nat}
    (hu : u < V) (e : Nat) : e ∈ g.adjOf u ↔ e < 2 * L.length ∧ ownerOf L e = u := by
  rw [hb.adj u hu]; simp

theorem ownerOf_lt {V : Nat} {L : List Triple} (hv : ValidTriples V L) {e : Nat}
    (he : e < 2 * L.length) : ownerOf L e < V := by
  unfold ownerOf
  have := hv _ (tri_mem L (e / 2) (by omega))
  split
  · exact this.1
  · exact this.2

theorem Built.dst_lt {V : Nat} {L : List Triple} {g : Graph} (hb : Built V L g)
    (hv : ValidTriples V L) {e : Nat} (he : e < 2 * L.length) : (g.edge e).dst < V := by
  rw [hb.dst_eq he]; exact ownerOf_lt hv (mate_lt he)

/-- Effect of `pushEdge` on the flow fields, before narrowing is discharged. -/
theorem flow_pushEdge {V : Nat} {L : List Triple} {g : Graph} (hb : Built V L g) {e : Nat}
    (he : e < 2 * L.length) (x : Int) (e' : Nat) :
    ((pushEdge g e x).edge e').flow =
      if e' = e then wrap16 ((g.edge e).flow + x)
      else if e' = mate e then wrap16 ((g.edge (mate e)).flow - x)
      else (g.edge e').flow := by
  have hlen := hb.len
  have hr : ((g.setFlow e (wrap16 ((g.edge e).flow + x))).edge e).reverse = mate e := by
    rw [(sameShape_setFlow g e _).reverse, hb.reverse_eq he]
  have hm := mate_ne e
  have hml := mate_lt he
  unfold pushEdge
  simp only [hr]
  rw [edge_setFlow]
  have hlen' : (g.setFlow e (wrap16 ((g.edge e).flow + x))).edges.length = 2 * L.length := by
    rw [(sameShape_setFlow g e _).len, hlen]
  by_cases h1 : e' = e
  · subst h1
    rw [if_neg (by intro h; exact hm h.1.symm), if_pos rfl, edge_setFlow, if_pos ⟨rfl, by omega⟩]
  · rw [if_neg h1]
    by_cases h2 : e' = mate e
    · subst h2
      rw [if_pos ⟨rfl, by omega⟩, if_pos rfl]
      simp only
      rw [edge_setFlow, if_neg (by intro h; exact hm h.1)]
    · rw [if_neg (by intro h; exact h2 h.1), if_neg h2, edge_setFlow,
        if_neg (by intro h; exact h1 h.1)]

theorem wrap16_id {x : Int} (h1 : -32768 ≤ x) (h2 : x ≤ 32767) : wrap16 x = x := by
  unfold wrap16; omega

theorem wrap32_id {x : Int} (h1 : -2147483648 ≤ x) (h2 : x ≤ 2147483647) : wrap32 x = x := by
  unfold wrap32; omega

theorem wrap32_add (a b : Int) : wrap32 (wrap32 a + b) = wrap32 (a + b) := by
  unfold wrap32; omega

theorem TreePath.vis_head {g : Graph} {m s : Nat} {path : List (Option Nat)} {vis : List Bool}
    {v : Nat} {es : List Nat} (h : TreePath g m s path vis v es) : vis.getD v false = true := by
  cases h with
  | root h => exact h
  | step _ _ _ _ _ h _ _ _ => exact h

theorem TreePath.vis_dst {g : Graph} {m s : Nat} {path : List (Option Nat)} {vis : List Bool}
    {v : Nat} {es : List Nat} (h : TreePath g m s path vis v es) :
    ∀ e ∈ es, vis.getD (g.edge e).dst false = true := by
  induction h with
  | root _ => intro e he; simp at he
  | step _ _ _ hd _ hv _ _ _ ih =>
    intro e' he'
    rcases List.mem_cons.mp he' with h | h
    · subst h; rw [hd]; exact hv
    · exact ih e' h

theorem TreePath.vis_origin {g : Graph} {m s : Nat} {path : List (Option Nat)} {vis : List Bool}
    {v : Nat} {es : List Nat} (h : TreePath g m s path vis v es) :
    ∀ e ∈ es, vis.getD (g.origin e) false = true := by
  induction h with
  | root _ => intro e he; simp at he
  | step _ _ _ _ _ _ ht _ _ ih =>
    intro e' he'
    rcases List.mem_cons.mp he' with h | h
    · subst h; exact ht.vis_head
    · exact ih e' h

theorem TreePath.lt {g : Graph} {m s : Nat} {path : List (Option Nat)} {vis : List Bool}
    {v : Nat} {es : List Nat} (h : TreePath g m s path vis v es) : ∀ e ∈ es, e < m := by
  induction h with
  | root _ => intro e he; simp at he
  | step _ _ hm _ _ _ _ _ _ ih =>
    intro e' he'
    rcases List.mem_cons.mp he' with h | h
    · subst h; exact hm
    · exact ih e' h

theorem TreePath.residual_pos {g : Graph} {m s : Nat} {path : List (Option Nat)}
    {vis : List Bool} {v : Nat} {es : List Nat} (h : TreePath g m s path vis v es) :
    ∀ e ∈ es, 0 < g.residual e := by
  induction h with
  | root _ => intro e he; simp at he
  | step _ _ _ _ hr _ _ _ _ ih =>
    intro e' he'
    rcases List.mem_cons.mp he' with h | h
    · subst h; exact hr
    · exact ih e' h

theorem TreePath.nodup_dst {g : Graph} {m s : Nat} {path : List (Option Nat)}
    {vis : List Bool} {v : Nat} {es : List Nat} (h : TreePath g m s path vis v es) :
    (es.map (fun e' => (g.edge e').dst)).Nodup := by
  induction h with
  | root _ => simp
  | step _ _ _ hd _ _ _ hn _ ih =>
    rw [List.map_cons, List.nodup_cons, hd]
    exact ⟨hn, ih⟩

theorem TreePath.dst_ne_root {g : Graph} {m s : Nat} {path : List (Option Nat)}
    {vis : List Bool} {v : Nat} {es : List Nat} (h : TreePath g m s path vis v es) :
    ∀ e ∈ es, (g.edge e).dst ≠ s := by
  induction h with
  | root _ => intro e he; simp at he
  | step hs _ _ hd _ _ _ _ _ ih =>
    intro e' he'
    rcases List.mem_cons.mp he' with h | h
    · subst h; rw [hd]; exact hs
    · exact ih e' h

theorem getD_set_ne_bool (l : List Bool) {w v : Nat} (b : Bool) (h : w ≠ v) :
    (l.set w b).getD v false = l.getD v false := by
  simp [List.getElem?_set_ne h]

theorem getD_set_ne_opt (l : List (Option Nat)) {w v : Nat} (x : Option Nat) (h : w ≠ v) :
    (l.set w x).getD v none = l.getD v none := by
  simp [List.getElem?_set_ne h]

theorem getD_set_self_bool (l : List Bool) {w : Nat} (b : Bool) (h : w < l.length) :
    (l.set w b).getD w false = b := by
  simp [h]

theorem getD_set_self_opt (l : List (Option Nat)) {w : Nat} (x : Option Nat)
    (h : w < l.length) : (l.set w x).getD w none = x := by
  simp [h]

theorem lt_length_of_getD_true {l : List Bool} {v : Nat} (h : l.getD v false = true) :
    v < l.length := by
  by_contra hn
  rw [List.getD_eq_default _ _ (by omega)] at h
  exact Bool.false_ne_true h

theorem getD_replicate_false (V v : Nat) : (List.replicate V false).getD v false = false := by
  by_cases h : v < V
  · simp [h]
  · rw [List.getD_eq_default _ _ (by simpa using h)]

/-- Marking a fresh vertex and storing its predecessor edge leaves the walks
from already marked vertices unchanged. -/
theorem TreePath.mono {g : Graph} {m s : Nat} {path : List (Option Nat)} {vis : List Bool}
    {v : Nat} {es : List Nat} (h : TreePath g m s path vis v es) (w : Nat) (x : Option Nat)
    (hw : vis.getD w false = false) :
    TreePath g m s (path.set w x) (vis.set w true) v es := by
  have key : ∀ u, vis.getD u false = true → w ≠ u := by
    intro u hu hwu; subst hwu; rw [hw] at hu; exact Bool.false_ne_true hu
  induction h with
  | root hs =>
    exact TreePath.root (by rw [getD_set_ne_bool _ _ (key _ hs)]; exact hs)
  | step hs hp hm hd hr hv _ hn hdis ih =>
    refine TreePath.step hs ?_ hm hd hr ?_ ih hn hdis
    · rw [getD_set_ne_opt _ _ (key _ hv)]; exact hp
    · rw [getD_set_ne_bool _ _ (key _ hv)]; exact hv

/-- Overwriting `path[s]` does not disturb any walk: the walk stops at `s`. -/
theorem TreePath.set_root {g : Graph} {m s : Nat} {path : List (Option Nat)} {vis : List Bool}
    {v : Nat} {es : List Nat} (h : TreePath g m s path vis v es) (x : Option Nat) :
    TreePath g m s (path.set s x) vis v es := by
  induction h with
  | root hs => exact TreePath.root hs
  | step hs hp hm hd hr hv _ hn hdis ih =>
    refine TreePath.step hs ?_ hm hd hr hv ih hn hdis
    rw [getD_set_ne_opt _ _ (Ne.symm hs)]; exact hp

theorem visitEdge_tree {g : Graph} {L : List Triple} {V s t : Nat} {rest : List Nat}
    {st : BfsState} {e : Nat} (hb : Built V L g) (hv : ValidTriples V L)
    (hinv : BfsInv g L V s t (e :: rest) st) (he : e < 2 * L.length)
    (hu : st.visited.getD (ownerOf L e) false = true)
    (hw : st.visited.getD (g.edge e).dst false = false) (hr : 0 < g.residual e) :
    ∃ es, TreePath g (2 * L.length) s (visitEdge g e st).path (visitEdge g e st).visited
      (g.edge e).dst es := by
  obtain ⟨es, hes⟩ := hinv.tree _ hu
  have hwV : (g.edge e).dst < V := hb.dst_lt hv he
  refine ⟨e :: es, TreePath.step ?_ ?_ he rfl hr ?_ ?_ ?_ ?_⟩
  · intro h; rw [h, hinv.visS] at hw; exact Bool.false_ne_true hw.symm
  · exact getD_set_self_opt _ _ (by rw [hinv.pathLen]; exact hwV)
  · exact getD_set_self_bool _ _ (by rw [hinv.visLen]; exact hwV)
  · rw [hb.origin_eq he]; exact hes.mono _ _ hw
  · intro hmem
    obtain ⟨e', he', hd'⟩ := List.mem_map.mp hmem
    have := hes.vis_dst e' he'
    rw [hd', hw] at this; exact Bool.false_ne_true this
  · intro e' he'
    constructor
    · intro h; subst h
      have := hes.vis_dst e' he'
      rw [hw] at this; exact Bool.false_ne_true this
    · intro h
      have h1 := hes.vis_origin e' he'
      have h2 : e' < 2 * L.length := hes.lt e' he'
      rw [hb.origin_eq h2, h, ← hb.dst_eq he, hw] at h1
      exact Bool.false_ne_true h1

theorem visitEdge_inv {g : Graph} {L : List Triple} {V s t : Nat} {rest : List Nat}
    {st : BfsState} {e : Nat} (hb : Built V L g) (hv : ValidTriples V L)
    (hinv : BfsInv g L V s t (e :: rest) st) (he : e < 2 * L.length)
    (hu : st.visited.getD (ownerOf L e) false = true)
    (hw : st.visited.getD (g.edge e).dst false = false) (hr : 0 < g.residual e)
    (hne : (g.edge e).dst ≠ t) :
    BfsInv g L V s t rest (visitEdge g e st) ∧ bfsMeasure (visitEdge g e st) = bfsMeasure st := by
  have hwV : (g.edge e).dst < V := hb.dst_lt hv he
  have key : ∀ u, st.visited.getD u false = true → (g.edge e).dst ≠ u := by
    intro u hu' hwu; rw [hwu] at hw; rw [hw] at hu'; exact Bool.false_ne_true hu'
  have keep : ∀ u, st.visited.getD u false = true →
      (visitEdge g e st).visited.getD u false = true := by
    intro u hu'
    show (st.visited.set _ true).getD u false = true
    rw [getD_set_ne_bool _ _ (key u hu')]; exact hu'
  have hnew : (visitEdge g e st).visited.getD (g.edge e).dst false = true :=
    getD_set_self_bool _ _ (by rw [hinv.visLen]; exact hwV)
  have split : ∀ u, (visitEdge g e st).visited.getD u false = true →
      u = (g.edge e).dst ∨ st.visited.getD u false = true := by
    intro u hu'
    by_cases h : (g.edge e).dst = u
    · exact Or.inl h.symm
    · right
      have : (st.visited.set (g.edge e).dst true).getD u false = true := hu'
      rwa [getD_set_ne_bool _ _ h] at this
  constructor
  · refine ⟨?_, ?_, keep _ hinv.visS, ?_, ?_, ?_, ?_⟩
    · simp [visitEdge, hinv.visLen]
    · simp [visitEdge, hinv.pathLen]
    · intro u hu'
      rcases List.mem_append.mp hu' with h | h
      · exact keep u (hinv.qVis u h)
      · rw [List.mem_singleton.mp h]; exact hnew
    · intro v hv'
      rcases split v hv' with h | h
      · rw [h]; exact visitEdge_tree hb hv hinv he hu hw hr
      · obtain ⟨es, hes⟩ := hinv.tree v h
        exact ⟨es, hes.mono _ _ hw⟩
    · intro e' he' hr' ho'
      rcases split _ ho' with h | h
      · left
        show ownerOf L e' ∈ st.q ++ [(g.edge e).dst]
        rw [h]; simp
      · rcases hinv.closed e' he' hr' h with h1 | h1 | h1
        · left
          show ownerOf L e' ∈ st.q ++ [(g.edge e).dst]
          exact List.mem_append_left _ h1
        · rcases List.mem_cons.mp h1 with h2 | h2
          · right; right; rw [h2]; exact hnew
          · right; left; exact h2
        · right; right; exact keep _ h1
    · show (st.visited.set _ true).getD t false = false
      rw [getD_set_ne_bool _ _ hne]; exact hinv.notT
  · unfold bfsMeasure visitEdge
    have hlt : (g.edge e).dst < st.visited.length := by rw [hinv.visLen]; exact hwV
    have hget : st.visited[(g.edge e).dst] = false := by
      rw [List.getD_eq_getElem _ _ hlt] at hw; exact hw
    have hpos : 0 < st.visited.count false := by
      rw [List.count_pos_iff]
      rw [← hget]; exact List.getElem_mem _
    simp only [List.length_append, List.length_singleton]
    rw [List.count_set _ _ _ _ hlt, hget]
    simp
    omega

theorem bfsScan_spec {g : Graph} {L : List Triple} {V s t : Nat} (hb : Built V L g)
    (hv : ValidTriples V L) (u : Nat) : ∀ (es : List Nat) (st : BfsState),
    (∀ e ∈ es, e < 2 * L.length ∧ ownerOf L e = u) → st.visited.getD u false = true →
    BfsInv g L V s t es st →
    (∃ st', bfsScan g t es st = (false, st') ∧ BfsInv g L V s t [] st' ∧
      bfsMeasure st' = bfsMeasure st) ∨
    (∃ st' chain, bfsScan g t es st = (true, st') ∧ st'.path.length = V ∧
      TreePath g (2 * L.length) s st'.path st'.visited t chain) := by
  intro es
  induction es with
  | nil => intro st _ _ hinv; exact Or.inl ⟨st, rfl, hinv, rfl⟩
  | cons e rest ih =>
    intro st hes hu hinv
    obtain ⟨he, ho⟩ := hes e (List.mem_cons_self _ _)
    have hrest : ∀ e' ∈ rest, e' < 2 * L.length ∧ ownerOf L e' = u :=
      fun e' he' => hes e' (List.mem_cons_of_mem _ he')
    unfold bfsScan
    by_cases hc : (!st.visited.getD (g.edge e).dst false && decide ((g.edge e).capacity > (g.edge e).flow)) = true
    · rw [if_pos hc]
      simp only [Bool.and_eq_true, Bool.not_eq_true', decide_eq_true_eq] at hc
      obtain ⟨hw, hcf⟩ := hc
      have hr : 0 < g.residual e := by unfold Graph.residual; omega
      have hu' : st.visited.getD (ownerOf L e) false = true := by rw [ho]; exact hu
      by_cases ht : (g.edge e).dst = t
      · right
        rw [if_pos ht]
        obtain ⟨chain, hchain⟩ := visitEdge_tree hb hv hinv he hu' hw hr
        refine ⟨visitEdge g e st, chain, rfl, ?_, ?_⟩
        · simp [visitEdge, hinv.pathLen]
        · rw [← ht]; exact hchain
      · rw [if_neg ht]
        obtain ⟨hinv', hm'⟩ := visitEdge_inv hb hv hinv he hu' hw hr ht
        have hu'' : (visitEdge g e st).visited.getD u false = true := by
          have : (g.edge e).dst ≠ u := by
            intro h; rw [h] at hw; rw [hw] at hu; exact Bool.false_ne_true hu
          show (st.visited.set _ true).getD u false = true
          rw [getD_set_ne_bool _ _ this]; exact hu
        rcases ih (visitEdge g e st) hrest hu'' hinv' with ⟨st', h1, h2, h3⟩ | ⟨st', chain, h1, h2⟩
        · exact Or.inl ⟨st', h1, h2, h3.trans hm'⟩
        · exact Or.inr ⟨st', chain, h1, h2⟩
    · rw [if_neg hc]
      have hinv' : BfsInv g L V s t rest st := by
        refine ⟨hinv.visLen, hinv.pathLen, hinv.visS, hinv.qVis, hinv.tree, ?_, hinv.notT⟩
        intro e' he' hr' ho'
        rcases hinv.closed e' he' hr' ho' with h1 | h1 | h1
        · exact Or.inl h1
        · rcases List.mem_cons.mp h1 with h2 | h2
          · right; right
            subst h2
            simp only [Bool.and_eq_true, Bool.not_eq_true', decide_eq_true_eq, not_and] at hc
            by_contra hn
            have hn' : st.visited.getD (g.edge e').dst false = false := by simpa using hn
            have := hc hn'
            unfold Graph.residual at hr'
            omega
          · exact Or.inr (Or.inl h2)
        · exact Or.inr (Or.inr h1)
      exact ih st hrest hu hinv'

theorem bfsLoop_spec {g : Graph} {L : List Triple} {V s t : Nat} (hb : Built V L g)
    (hv : ValidTriples V L) : ∀ (fuel : Nat) (st : BfsState),
    BfsInv g L V s t [] st → bfsMeasure st < fuel →
    (∃ st', bfsLoop g t fuel st = some (false, st') ∧ BfsInv g L V s t [] st' ∧ st'.q = []) ∨
    (∃ st' chain, bfsLoop g t fuel st = some (true, st') ∧ st'.path.length = V ∧
      TreePath g (2 * L.length) s st'.path st'.visited t chain) := by
  intro fuel
  induction fuel with
  | zero => intro st _ h; omega
  | succ fuel ih =>
    intro st hinv hm
    unfold bfsLoop
    rcases hq : st.q with _ | ⟨u, q'⟩
    · exact Or.inl ⟨st, rfl, hinv, hq⟩
    · simp only
      have huvis : st.visited.getD u false = true := hinv.qVis u (by rw [hq]; simp)
      have huV : u < V := by rw [← hinv.visLen]; exact lt_length_of_getD_true huvis
      have hinv0 : BfsInv g L V s t (g.adjOf u) { st with q := q' } := by
        refine ⟨hinv.visLen, hinv.pathLen, hinv.visS, ?_, hinv.tree, ?_, hinv.notT⟩
        · intro u' hu'; exact hinv.qVis u' (by rw [hq]; exact List.mem_cons_of_mem _ hu')
        · intro e he hr ho
          rcases hinv.closed e he hr ho with h1 | h1 | h1
          · rw [hq] at h1
            rcases List.mem_cons.mp h1 with h2 | h2
            · right; left
              exact (hb.mem_adjOf huV e).mpr ⟨he, h2⟩
            · exact Or.inl h2
          · simp at h1
          · exact Or.inr (Or.inr h1)
      have hm0 : bfsMeasure { st with q := q' } + 1 = bfsMeasure st := by
        unfold bfsMeasure; rw [hq]; simp; omega
      rcases bfsScan_spec hb hv u (g.adjOf u) { st with q := q' }
          (fun e he => (hb.mem_adjOf huV e).mp he) huvis hinv0 with
        ⟨st', h1, h2, h3⟩ | ⟨st', chain, h1, h2⟩
      · rw [h1]
        simp only
        exact ih st' h2 (by omega)
      · rw [h1]
        exact Or.inr ⟨st', chain, rfl, h2⟩

/-- Specification of `bfs` on a graph laid out by `addEdge`: with `V + 1` units
of fuel it returns; on `false` the marked set is closed under residual edges
and misses the sink, on `true` the backward walk from the sink is a path of
residual edges. -/
theorem bfs_spec {g : Graph} {L : List Triple} {V s t : Nat} (hb : Built V L g)
    (hv : ValidTriples V L) (hs : s < V) (hst : s ≠ t) (path : List (Option Nat))
    (hp : path.length = V) (fuel : Nat) (hf : V < fuel) :
    (∃ st', bfs fuel g s t path (List.replicate V false) = some (false, st') ∧
      BfsInv g L V s t [] st' ∧ st'.q = []) ∨
    (∃ st' chain, bfs fuel g s t path (List.replicate V false) = some (true, st') ∧
      st'.path.length = V ∧ TreePath g (2 * L.length) s st'.path st'.visited t chain) := by
  unfold bfs
  apply bfsLoop_spec hb hv
  · have hvs : ((List.replicate V false).set s true).getD s false = true :=
      getD_set_self_bool _ _ (by simpa using hs)
    have honly : ∀ v, ((List.replicate V false).set s true).getD v false = true → v = s := by
      intro v h
      by_contra hne
      rw [getD_set_ne_bool _ _ (Ne.symm hne), getD_replicate_false] at h
      exact Bool.false_ne_true h
    refine ⟨by simp, by simp [hp], hvs, ?_, ?_, ?_, ?_⟩
    · intro u hu; rw [List.mem_singleton.mp hu]; exact hvs
    · intro v h
      rw [honly v h]
      exact ⟨[], TreePath.root hvs⟩
    · intro e _ _ ho
      left; rw [honly _ ho]; simp
    · rw [getD_set_ne_bool _ _ hst]; exact getD_replicate_false _ _
  · unfold bfsMeasure
    simp only [List.length_singleton]
    rw [List.count_set _ _ _ _ (by simpa using hs)]
    simp
    omega

theorem sum_change_one (n i : Nat) (hi : i < n) (F F' : Nat → Int)
    (h : ∀ j, j ≠ i → F' j = F j) :
    ∑ j in Finset.range n, F' j = ∑ j in Finset.range n, F j + (F' i - F i) := by
  have hmem : i ∈ Finset.range n := Finset.mem_range.mpr hi
  rw [← Finset.add_sum_erase _ F' hmem, ← Finset.add_sum_erase _ F hmem]
  have : ∑ x in (Finset.range n).erase i, F' x = ∑ x in (Finset.range n).erase i, F x := by
    apply Finset.sum_congr rfl
    intro j hj
    exact h j (Finset.ne_of_mem_erase hj)
  rw [this]; ring

theorem flowOK_of_zero {L : List Triple} {g : Graph} (h : ZeroFlow g) : FlowOK L g where
  lo := by intro i _; rw [h]
  hi := by intro i _; rw [h]; exact le_max_right _ _
  skew := by intro i _; rw [h, h]; rfl

theorem netOut_of_zero {L : List Triple} {g : Graph} (h : ZeroFlow g) (v : Nat) :
    netOut L g v = 0 := by
  unfold netOut
  apply Finset.sum_eq_zero
  intro i _
  rw [h]; simp

theorem ite_delta (p q : Prop) [Decidable p] [Decidable q] (f d : Int) :
    ((if p then f + d else 0) - (if q then f + d else 0)) -
      ((if p then f else 0) - (if q then f else 0)) =
    d * ((if p then 1 else 0) - (if q then 1 else 0)) := by
  split_ifs <;> ring

/-- One `pushEdge` along a residual edge with an amount not above its residual
capacity: no narrowing occurs, the flow stays admissible, and the net flows of
the two end points move by the amount pushed. -/
theorem pushEdge_spec {V : Nat} {L : List Triple} {g : Graph} (hb : Built V L g)
    (hf : FlowOK L g) (hc : CapsInt16 L) {e : Nat} (he : e < 2 * L.length) {bn : Int}
    (hpos : 0 < bn) (hle : bn ≤ g.residual e) :
    FlowOK L (pushEdge g e bn) ∧
    (∀ e', e' ≠ e → e' ≠ mate e → ((pushEdge g e bn).edge e').flow = (g.edge e').flow) ∧
    ((pushEdge g e bn).edge e).flow = (g.edge e).flow + bn ∧
    (∀ x, netOut L (pushEdge g e bn) x = netOut L g x +
      bn * ((if ownerOf L e = x then 1 else 0) - (if (g.edge e).dst = x then 1 else 0))) := by
  have hi : e / 2 < L.length := by omega
  obtain ⟨hdst, hcap, _⟩ := hb.fwd (e / 2) hi
  obtain ⟨hdst', hcap', _⟩ := hb.bwd (e / 2) hi
  have hlo := hf.lo _ hi
  have hhi := hf.hi _ hi
  have hsk := hf.skew _ hi
  have hc16 := hc _ (tri_mem L _ hi)
  have hflow := flow_pushEdge hb he bn
  unfold Graph.residual at hle
  rcases Nat.mod_two_eq_zero_or_one e with hpar | hpar
  · -- a direct edge
    have h2 : 2 * (e / 2) = e := by omega
    have hm : mate e = e + 1 := by unfold mate; rw [if_pos hpar]
    rw [h2] at hdst hcap hlo hhi hsk
    rw [hcap] at hle
    have hmax : max (tri L (e / 2)).2.2 0 = (tri L (e / 2)).2.2 := max_eq_left (by omega)
    rw [hmax] at hhi
    have hw1 : wrap16 ((g.edge e).flow + bn) = (g.edge e).flow + bn :=
      wrap16_id (by omega) (by omega)
    have hw2 : wrap16 ((g.edge (mate e)).flow - bn) = (g.edge (mate e)).flow - bn := by
      rw [hm, hsk]; exact wrap16_id (by omega) (by omega)
    have hnew : ∀ j, j < L.length → ((pushEdge g e bn).edge (2 * j)).flow =
        (g.edge (2 * j)).flow + (if j = e / 2 then bn else 0) := by
      intro j _
      rw [hflow]
      by_cases hj : j = e / 2
      · rw [if_pos (by omega), if_pos hj, hw1]; subst hj; rw [h2]
      · rw [if_neg (by omega), if_neg (by rw [hm]; omega), if_neg hj]; simp
    have hnew' : ∀ j, j < L.length → ((pushEdge g e bn).edge (2 * j + 1)).flow =
        (g.edge (2 * j + 1)).flow - (if j = e / 2 then bn else 0) := by
      intro j _
      rw [hflow]
      by_cases hj : j = e / 2
      · rw [if_neg (by omega), if_pos (by rw [hm]; omega), if_pos hj, hw2, hm]
        subst hj; rw [h2]
      · rw [if_neg (by omega), if_neg (by rw [hm]; omega), if_neg hj]; simp
    refine ⟨⟨?_, ?_, ?_⟩, ?_, ?_, ?_⟩
    · intro j hj
      rw [hnew j hj]
      have := hf.lo j hj
      split <;> omega
    · intro j hj
      rw [hnew j hj]
      have := hf.hi j hj
      by_cases hje : j = e / 2
      · rw [if_pos hje, hje, h2, hmax]; omega
      · rw [if_neg hje]; simpa using this
    · intro j hj
      rw [hnew j hj, hnew' j hj, hf.skew j hj]; ring
    · intro e' h1 h2'
      rw [hflow, if_neg h1, if_neg h2']
    · rw [hflow, if_pos rfl, hw1]
    · intro x
      have key := sum_change_one L.length (e / 2) hi
        (fun j => (if (tri L j).1 = x then (g.edge (2 * j)).flow else 0) -
          (if (tri L j).2.1 = x then (g.edge (2 * j)).flow else 0))
        (fun j => (if (tri L j).1 = x then ((pushEdge g e bn).edge (2 * j)).flow else 0) -
          (if (tri L j).2.1 = x then ((pushEdge g e bn).edge (2 * j)).flow else 0))
        (by
          intro j hj
          have e1 : ((pushEdge g e bn).edge (2 * j)).flow = (g.edge (2 * j)).flow := by
            rw [hflow, if_neg (by omega), if_neg (by rw [hm]; omega)]
          simp only
          rw [e1])
      unfold netOut
      refine key.trans ?_
      congr 1
      simp only
      rw [hnew (e / 2) hi, if_pos rfl, ite_delta, hdst]
      have ho : ownerOf L e = (tri L (e / 2)).1 := by unfold ownerOf; rw [if_pos hpar]
      rw [ho]
  · -- a reverse edge
    have h2 : 2 * (e / 2) + 1 = e := by omega
    have hm : mate e = e - 1 := by unfold mate; rw [if_neg (by omega)]
    have hm' : mate e = 2 * (e / 2) := by omega
    rw [h2] at hdst' hcap' hsk
    rw [hcap', hsk] at hle
    have hmax : max (tri L (e / 2)).2.2 0 ≤ 32767 := max_le hc16.2 (by norm_num)
    have hw1 : wrap16 ((g.edge e).flow + bn) = (g.edge e).flow + bn := by
      rw [hsk]; exact wrap16_id (by omega) (by omega)
    have hw2 : wrap16 ((g.edge (mate e)).flow - bn) = (g.edge (mate e)).flow - bn := by
      rw [hm']; exact wrap16_id (by omega) (by omega)
    have hnew : ∀ j, j < L.length → ((pushEdge g e bn).edge (2 * j)).flow =
        (g.edge (2 * j)).flow - (if j = e / 2 then bn else 0) := by
      intro j _
      rw [hflow]
      by_cases hj : j = e / 2
      · rw [if_neg (by omega), if_pos (by omega), if_pos hj, hw2, hm']; subst hj; rfl
      · rw [if_neg (by omega), if_neg (by omega), if_neg hj]; simp
    have hnew' : ∀ j, j < L.length → ((pushEdge g e bn).edge (2 * j + 1)).flow =
        (g.edge (2 * j + 1)).flow + (if j = e / 2 then bn else 0) := by
      intro j _
      rw [hflow]
      by_cases hj : j = e / 2
      · rw [if_pos (by omega), if_pos hj, hw1]; subst hj; rw [h2]
      · rw [if_neg (by omega), if_neg (by omega), if_neg hj]; simp
    refine ⟨⟨?_, ?_, ?_⟩, ?_, ?_, ?_⟩
    · intro j hj
      rw [hnew j hj]
      have := hf.lo j hj
      by_cases hje : j = e / 2
      · rw [if_pos hje, hje]; omega
      · rw [if_neg hje]; simpa using this
    · intro j hj
      rw [hnew j hj]
      have := hf.hi j hj
      split <;> omega
    · intro j hj
      rw [hnew j hj, hnew' j hj, hf.skew j hj]; ring
    · intro e' h1 h2'
      rw [hflow, if_neg h1, if_neg h2']
    · rw [hflow, if_pos rfl, hw1]
    · intro x
      have key := sum_change_one L.length (e / 2) hi
        (fun j => (if (tri L j).1 = x then (g.edge (2 * j)).flow else 0) -
          (if (tri L j).2.1 = x then (g.edge (2 * j)).flow else 0))
        (fun j => (if (tri L j).1 = x then ((pushEdge g e bn).edge (2 * j)).flow else 0) -
          (if (tri L j).2.1 = x then ((pushEdge g e bn).edge (2 * j)).flow else 0))
        (by
          intro j hj
          have e1 : ((pushEdge g e bn).edge (2 * j)).flow = (g.edge (2 * j)).flow := by
            rw [hflow, if_neg (by omega), if_neg (by omega)]
          simp only
          rw [e1])
      unfold netOut
      refine key.trans ?_
      congr 1
      simp only
      rw [hnew (e / 2) hi, if_pos rfl, sub_eq_add_neg _ bn, ite_delta, hdst']
      have ho : ownerOf L e = (tri L (e / 2)).2.1 := by unfold ownerOf; rw [if_neg (by omega)]
      rw [ho]
      ring

theorem nodup_length_le (l : List Nat) (V : Nat) (h : l.Nodup) (hb : ∀ x ∈ l, x < V) :
    l.length ≤ V := by
  have h1 : l.toFinset ⊆ Finset.range V := by
    intro x hx
    exact Finset.mem_range.mpr (hb x (List.mem_toFinset.mp hx))
  have h2 := Finset.card_le_card h1
  rwa [List.toFinset_card_of_nodup h, Finset.card_range] at h2

theorem TreePath.length_le {V : Nat} {L : List Triple} {g : Graph} {s : Nat}
    {path : List (Option Nat)} {vis : List Bool} {v : Nat} {es : List Nat}
    (h : TreePath g (2 * L.length) s path vis v es) (hb : Built V L g)
    (hv : ValidTriples V L) : es.length ≤ V := by
  have := nodup_length_le _ V h.nodup_dst (by
    intro x hx
    obtain ⟨e, he, rfl⟩ := List.mem_map.mp hx
    exact hb.dst_lt hv (h.lt e he))
  simpa using this

theorem bottleneck_chain {g : Graph} {m s : Nat} {path : List (Option Nat)} {vis : List Bool}
    {v : Nat} {es : List Nat} (h : TreePath g m s path vis v es) :
    ∀ (fuel : Nat) (acc : Int), es.length ≤ fuel →
      bottleneck g path s fuel v acc = some (es.foldl (fun a e => min a (g.residual e)) acc) := by
  induction h with
  | root _ =>
    intro fuel acc _
    unfold bottleneck
    simp
  | step hs hp _ _ _ _ _ _ _ ih =>
    intro fuel acc hlen
    cases fuel with
    | zero => simp at hlen
    | succ k =>
      unfold bottleneck
      rw [if_neg hs]
      simp only [hp]
      exact ih k _ (by simpa using hlen)

theorem augment_chain {g0 : Graph} {m s : Nat} {path : List (Option Nat)} {vis : List Bool}
    {v : Nat} {es : List Nat} (h : TreePath g0 m s path vis v es) (bn : Int) :
    ∀ (fuel : Nat) (g : Graph), SameShape g0 g → es.length ≤ fuel →
      augment path s bn fuel v g = some (es.foldl (fun g e => pushEdge g e bn) g) := by
  induction h with
  | root _ =>
    intro fuel g _ _
    unfold augment
    simp
  | @step v e es hs hp _ _ _ _ _ _ _ ih =>
    intro fuel g hsh hlen
    cases fuel with
    | zero => simp at hlen
    | succ k =>
      unfold augment
      rw [if_neg hs]
      simp only [hp]
      have hsh' := hsh.trans (sameShape_pushEdge g e bn)
      rw [hsh'.origin]
      exact ih k _ hsh' (by simpa using hlen)

theorem foldl_min_le (res : Nat → Int) : ∀ (es : List Nat) (acc : Int),
    es.foldl (fun a e => min a (res e)) acc ≤ acc ∧
    ∀ e ∈ es, es.foldl (fun a e => min a (res e)) acc ≤ res e := by
  intro es
  induction es with
  | nil => intro acc; simp
  | cons e rest ih =>
    intro acc
    obtain ⟨h1, h2⟩ := ih (min acc (res e))
    simp only [List.foldl_cons]
    refine ⟨le_trans h1 (min_le_left _ _), ?_⟩
    intro e' he'
    rcases List.mem_cons.mp he' with h | h
    · subst h; exact le_trans h1 (min_le_right _ _)
    · exact h2 e' h

theorem foldl_min_pos (res : Nat → Int) : ∀ (es : List Nat) (acc : Int), 0 < acc →
    (∀ e ∈ es, 0 < res e) → 0 < es.foldl (fun a e => min a (res e)) acc := by
  intro es
  induction es with
  | nil => intro acc h _; simpa using h
  | cons e rest ih =>
    intro acc h hr
    simp only [List.foldl_cons]
    exact ih _ (lt_min h (hr e (List.mem_cons_self _ _)))
      (fun e' he' => hr e' (List.mem_cons_of_mem _ he'))

/-- Effect of the second walk along a tree path: the flow stays admissible
and only the net flows of the two ends of the path change. -/
theorem augment_fold {V : Nat} {L : List Triple} {g0 : Graph} {s : Nat}
    {path : List (Option Nat)} {vis : List Bool} {v : Nat} {es : List Nat}
    (h : TreePath g0 (2 * L.length) s path vis v es) (hb0 : Built V L g0)
    (hc : CapsInt16 L) (bn : Int) (hpos : 0 < bn) :
    ∀ g, SameShape g0 g → FlowOK L g → (∀ e ∈ es, bn ≤ g.residual e) →
      SameShape g0 (es.foldl (fun g e => pushEdge g e bn) g) ∧
      FlowOK L (es.foldl (fun g e => pushEdge g e bn) g) ∧
      ∀ x, netOut L (es.foldl (fun g e => pushEdge g e bn) g) x =
        netOut L g x + bn * ((if s = x then 1 else 0) - (if v = x then 1 else 0)) := by
  induction h with
  | root _ =>
    intro g hsh hf _
    refine ⟨hsh, hf, ?_⟩
    intro x; simp
  | @step v e es _ _ he hd _ _ _ _ hdis ih =>
    intro g hsh hf hres
    have hb : Built V L g := hb0.sameShape hsh
    obtain ⟨hf1, hkeep, _, hnet⟩ := pushEdge_spec hb hf hc he hpos
      (hres e (List.mem_cons_self _ _))
    have hsh1 := hsh.trans (sameShape_pushEdge g e bn)
    have hres1 : ∀ e' ∈ es, bn ≤ (pushEdge g e bn).residual e' := by
      intro e' he'
      obtain ⟨h1, h2⟩ := hdis e' he'
      have := hres e' (List.mem_cons_of_mem _ he')
      unfold Graph.residual at this ⊢
      rw [(sameShape_pushEdge g e bn).capacity, hkeep e' h1 h2]
      exact this
    obtain ⟨k1, k2, k3⟩ := ih (pushEdge g e bn) hsh1 hf1 hres1
    simp only [List.foldl_cons]
    refine ⟨k1, k2, ?_⟩
    intro x
    rw [k3 x, hnet x, hb0.origin_eq he, hsh.dst, hd]
    ring

/-- One iteration of the loop from a state satisfying the invariant, with more
than `V` units of fuel: either the search fails, leaving a set of marked
vertices closed under residual edges, or an augmentation by a positive amount
is carried out and the invariant holds again. -/
theorem ffStep_spec {V : Nat} {L : List Triple} {s t : Nat} {st : FFState}
    (hv : ValidTriples V L) (hc : CapsInt16 L) (hs : s < V) (hst : s ≠ t)
    (hinv : FFInv V L s t st) (fuel : Nat) (hfuel : V < fuel) :
    (∃ b, ffStep fuel V s t st = some (false, { st with path := b.path }) ∧
      BfsInv st.g L V s t [] b ∧ b.q = []) ∨
    (∃ st' bn, ffStep fuel V s t st = some (true, st') ∧ FFInv V L s t st' ∧ 0 < bn ∧
      netOut L st'.g s = netOut L st.g s + bn ∧ SameShape st.g st'.g ∧
      st'.maxFlow = wrap32 (st.maxFlow + bn)) := by
  unfold ffStep
  rcases bfs_spec hinv.built hv hs hst st.path hinv.pathLen fuel hfuel with
    ⟨b, h1, h2, h3⟩ | ⟨b, chain, h1, h2, h3⟩
  · left
    rw [h1]
    exact ⟨b, rfl, h2, h3⟩
  · right
    rw [h1]
    simp only
    have hlen : chain.length ≤ fuel := le_trans (h3.length_le hinv.built hv) (le_of_lt hfuel)
    rw [bottleneck_chain h3 fuel INT_MAX hlen]
    simp only
    set bn := chain.foldl (fun a e => min a (st.g.residual e)) INT_MAX with hbn
    rw [augment_chain h3 bn fuel st.g (SameShape.refl _) hlen]
    simp only
    have hpos : 0 < bn :=
      foldl_min_pos _ chain INT_MAX (by unfold INT_MAX; norm_num) h3.residual_pos
    have hle : ∀ e ∈ chain, bn ≤ st.g.residual e := (foldl_min_le _ chain INT_MAX).2
    obtain ⟨k1, k2, k3⟩ := augment_fold h3 hinv.built hc bn hpos st.g (SameShape.refl _)
      hinv.flow hle
    refine ⟨_, bn, rfl, ⟨hinv.built.sameShape k1, k2, ?_, ?_, h2⟩, hpos, ?_, k1, rfl⟩
    · intro v hvs hvt
      show netOut L (chain.foldl (fun g e => pushEdge g e bn) st.g) v = 0
      rw [k3 v, hinv.cons v hvs hvt, if_neg (Ne.symm hvs), if_neg (Ne.symm hvt)]
      ring
    · show wrap32 (st.maxFlow + bn) = wrap32 (netOut L (chain.foldl _ st.g) s)
      rw [k3 s, hinv.total, wrap32_add, if_pos rfl, if_neg (Ne.symm hst)]
      congr 1; ring
    · show netOut L (chain.foldl (fun g e => pushEdge g e bn) st.g) s = _
      rw [k3 s, if_pos rfl, if_neg (Ne.symm hst)]
      ring

theorem list_sum_eq_range (f : Triple → Int) : ∀ L : List Triple,
    (L.map f).sum = ∑ i in Finset.range L.length, f (tri L i) := by
  intro L
  induction L with
  | nil => simp
  | cons x xs ih =>
    rw [List.map_cons, List.sum_cons, List.length_cons, Finset.sum_range_succ', ih]
    unfold tri
    simp [add_comm]

theorem netSet_eq_sum {V : Nat} {L : List Triple} (hv : ValidTriples V L) (g : Graph)
    (S : Nat → Bool) :
    netSet L g S = ∑ v in Finset.range V, (if S v then 1 else 0) * netOut L g v := by
  unfold netOut
  simp only [Finset.mul_sum]
  rw [Finset.sum_comm]
  unfold netSet
  apply Finset.sum_congr rfl
  intro i hi
  obtain ⟨ha, hb⟩ := hv _ (tri_mem L i (Finset.mem_range.mp hi))
  simp only [mul_sub, mul_ite, mul_zero, Finset.sum_sub_distrib, Finset.sum_ite_eq,
    Finset.mem_range, ha, hb, if_true]
  split_ifs <;> simp

theorem netSet_eq_source {V : Nat} {L : List Triple} (hv : ValidTriples V L) (g : Graph)
    (S : Nat → Bool) {s t : Nat} (hs : s < V) (hS : S s = true) (hT : S t = false)
    (hcons : ∀ v, v ≠ s → v ≠ t → netOut L g v = 0) : netSet L g S = netOut L g s := by
  rw [netSet_eq_sum hv, Finset.sum_eq_single s]
  · simp [hS]
  · intro v _ hvs
    by_cases hvt : v = t
    · subst hvt; simp [hT]
    · rw [hcons v hvs hvt]; simp
  · intro h; exact absurd (Finset.mem_range.mpr hs) h

theorem netSet_le_cut {L : List Triple} {g : Graph} (hf : FlowOK L g) (S : Nat → Bool) :
    netSet L g S ≤ cutCapacityPos L S := by
  unfold cutCapacityPos
  rw [list_sum_eq_range]
  unfold netSet
  apply Finset.sum_le_sum
  intro i hi
  have hi' := Finset.mem_range.mp hi
  have h1 := hf.lo i hi'
  have h2 := hf.hi i hi'
  have h3 : (0 : Int) ≤ max (tri L i).2.2 0 := le_max_right _ _
  cases S (tri L i).1 <;> cases S (tri L i).2.1 <;> simp <;> omega

theorem netSet_eq_cut {V : Nat} {L : List Triple} {g : Graph} (hb : Built V L g)
    (hf : FlowOK L g) (S : Nat → Bool)
    (hcl : ∀ e, e < 2 * L.length → 0 < g.residual e → S (ownerOf L e) = true →
      S (g.edge e).dst = true) :
    netSet L g S = cutCapacityPos L S := by
  unfold cutCapacityPos
  rw [list_sum_eq_range]
  unfold netSet
  apply Finset.sum_congr rfl
  intro i hi
  have hi' := Finset.mem_range.mp hi
  have h1 := hf.lo i hi'
  have h2 := hf.hi i hi'
  have h3 := hf.skew i hi'
  obtain ⟨d1, c1, _⟩ := hb.fwd i hi'
  obtain ⟨d2, c2, _⟩ := hb.bwd i hi'
  have ho1 : ownerOf L (2 * i) = (tri L i).1 := by
    unfold ownerOf
    rw [if_pos (by omega), Nat.mul_div_cancel_left _ (by norm_num)]
  have ho2 : ownerOf L (2 * i + 1) = (tri L i).2.1 := by
    unfold ownerOf
    have : (2 * i + 1) / 2 = i := by omega
    rw [if_neg (by omega), this]
  have k1 := hcl (2 * i) (by omega)
  have k2 := hcl (2 * i + 1) (by omega)
  unfold Graph.residual at k1 k2
  rw [ho1, d1, c1] at k1
  rw [ho2, d2, c2, h3] at k2
  rcases hA : S (tri L i).1 <;> rcases hB : S (tri L i).2.1
  · simp
  · simp only [hA, hB, Bool.false_eq_true, if_false, if_true, Bool.false_and]
    have : ¬ (0 < 0 - -(g.edge (2 * i)).flow) := by
      intro h
      have := k2 h hB
      rw [hA] at this; exact Bool.false_ne_true this
    have : (g.edge (2 * i)).flow = 0 := by omega
    rw [this]; simp
  · simp only [hA, hB, Bool.false_eq_true, if_false, if_true, Bool.not_false, Bool.and_self]
    have : ¬ (0 < (tri L i).2.2 - (g.edge (2 * i)).flow) := by
      intro h
      have := k1 h hA
      rw [hB] at this; exact Bool.false_ne_true this
    rcases le_total (tri L i).2.2 0 with hc | hc
    · rw [max_eq_right hc] at h2 ⊢; omega
    · rw [max_eq_left hc] at h2 ⊢; omega
  · simp

theorem netOut_le_capBound {L : List Triple} {g : Graph} (hf : FlowOK L g) (v : Nat) :
    netOut L g v ≤ capBound L := by
  unfold capBound
  rw [list_sum_eq_range]
  unfold netOut
  apply Finset.sum_le_sum
  intro i hi
  have hi' := Finset.mem_range.mp hi
  have h1 := hf.lo i hi'
  have h2 := hf.hi i hi'
  split <;> split <;> omega

theorem netOut_le_outCapacity {L : List Triple} {g : Graph} (hf : FlowOK L g) (v : Nat) :
    netOut L g v ≤ outCapacity L v := by
  unfold outCapacity
  rw [list_sum_eq_range]
  unfold netOut
  apply Finset.sum_le_sum
  intro i hi
  have hi' := Finset.mem_range.mp hi
  have h1 := hf.lo i hi'
  have h2 := hf.hi i hi'
  have h3 : (0 : Int) ≤ max (tri L i).2.2 0 := le_max_right _ _
  split <;> split <;> omega

theorem FFFinal.closed {V : Nat} {L : List Triple} {s t : Nat} {st : FFState} {b : BfsState}
    (h : FFFinal V L s t st b) : ∀ e, e < 2 * L.length → 0 < st.g.residual e →
    b.visited.getD (ownerOf L e) false = true → b.visited.getD (st.g.edge e).dst false = true := by
  intro e he hr ho
  rcases h.search.closed e he hr ho with h1 | h1 | h1
  · rw [h.empty] at h1; simp at h1
  · simp at h1
  · exact h1

/-- Max-flow/min-cut for the final state. -/
theorem FFFinal.minCut {V : Nat} {L : List Triple} {s t : Nat} {st : FFState} {b : BfsState}
    (h : FFFinal V L s t st b) (hv : ValidTriples V L) (hs : s < V) :
    netOut L st.g s = cutCapacityPos L (fun v => b.visited.getD v false) ∧
    ∀ S : Nat → Bool, S s = true → S t = false → netOut L st.g s ≤ cutCapacityPos L S := by
  constructor
  · rw [← netSet_eq_source hv st.g (fun v => b.visited.getD v false) hs h.search.visS
      h.search.notT h.inv.cons]
    exact netSet_eq_cut h.inv.built h.inv.flow _ h.closed
  · intro S hS hT
    rw [← netSet_eq_source hv st.g S hs hS hT h.inv.cons]
    exact netSet_le_cut h.inv.flow S

theorem ffLoop_spec {V : Nat} {L : List Triple} {s t : Nat} (hv : ValidTriples V L)
    (hc : CapsInt16 L) (hs : s < V) (hst : s ≠ t) (fuel : Nat) (hfuel : V < fuel) :
    ∀ (k : Nat) (st : FFState) (n : Nat), FFInv V L s t st →
      capBound L - netOut L st.g s ≤ (k : Int) → k < n →
      ∃ st' b, ffLoop fuel V s t n st = some st' ∧ FFFinal V L s t st' b ∧
        SameShape st.g st'.g := by
  intro k
  induction k with
  | zero =>
    intro st n hinv hk hn
    cases n with
    | zero => omega
    | succ n =>
      unfold ffLoop
      rcases ffStep_spec hv hc hs hst hinv fuel hfuel with
        ⟨b, h1, h2, h3⟩ | ⟨st', bn, h1, h2, h3, h4, _, _⟩
      · rw [h1]
        exact ⟨_, b, rfl, ⟨⟨hinv.built, hinv.flow, hinv.cons, hinv.total, h2.pathLen⟩, h2, h3⟩,
          SameShape.refl _⟩
      · exfalso
        have := netOut_le_capBound h2.flow s
        rw [h4] at this
        simp at hk
        omega
  | succ k ih =>
    intro st n hinv hk hn
    cases n with
    | zero => omega
    | succ n =>
      unfold ffLoop
      rcases ffStep_spec hv hc hs hst hinv fuel hfuel with
        ⟨b, h1, h2, h3⟩ | ⟨st', bn, h1, h2, h3, h4, h5, _⟩
      · rw [h1]
        exact ⟨_, b, rfl, ⟨⟨hinv.built, hinv.flow, hinv.cons, hinv.total, h2.pathLen⟩, h2, h3⟩,
          SameShape.refl _⟩
      · rw [h1]
        simp only
        obtain ⟨st'', b, k1, k2, k3⟩ := ih st' n h2 (by rw [h4]; push_cast at hk; omega)
          (by omega)
        exact ⟨st'', b, k1, k2, h5.trans k3⟩

theorem capBound_nonneg (L : List Triple) : 0 ≤ capBound L := by
  unfold capBound
  apply List.sum_nonneg
  intro x hx
  obtain ⟨tr, _, rfl⟩ := List.mem_map.mp hx
  exact le_max_right _ _

theorem ffInv_init {V : Nat} {L : List Triple} (hv : ValidTriples V L) (s t : Nat) :
    FFInv V L s t (ffInit (buildGraph V L) V) where
  built := built_buildGraph hv
  flow := flowOK_of_zero (zeroFlow_buildGraph V L)
  cons := fun v _ _ => netOut_of_zero (zeroFlow_buildGraph V L) v
  total := by
    show (0 : Int) = wrap32 (netOut L (buildGraph V L) s)
    rw [netOut_of_zero (zeroFlow_buildGraph V L)]; rfl
  pathLen := by simp [ffInit]

/-- Total correctness of `fordFulkerson` on a graph laid out by `addEdge`:
with enough fuel it returns, and the state it returns satisfies `FFFinal`. -/
theorem fordFulkerson_spec {V : Nat} {L : List Triple} {s t : Nat} (hv : ValidTriples V L)
    (hc : CapsInt16 L) (hs : s < V) (hst : s ≠ t) (fuel : Nat)
    (hfuel : enoughFuel V L ≤ fuel) :
    ∃ st b, ffLoop fuel V s t fuel (ffInit (buildGraph V L) V) = some st ∧
      fordFulkerson fuel (buildGraph V L) V s t = some (st.maxFlow, st.g) ∧
      FFFinal V L s t st b ∧ SameShape (buildGraph V L) st.g := by
  unfold enoughFuel at hfuel
  have h0 := capBound_nonneg L
  obtain ⟨st, b, h1, h2, h3⟩ := ffLoop_spec hv hc hs hst fuel (by omega) (capBound L).toNat
    (ffInit (buildGraph V L) V) fuel (ffInv_init hv s t)
    (by
      have : netOut L (ffInit (buildGraph V L) V).g s = 0 :=
        netOut_of_zero (zeroFlow_buildGraph V L) s
      rw [this, Int.toNat_of_nonneg h0]; omega)
    (by omega)
  refine ⟨st, b, h1, ?_, h2, h3⟩
  unfold fordFulkerson
  rw [h1]; rfl

theorem bfsLoop_mono (g : Graph) (t : Nat) : ∀ (fuel : Nat) (st : BfsState) (r : Bool × BfsState),
    bfsLoop g t fuel st = some r → ∀ fuel', fuel ≤ fuel' → bfsLoop g t fuel' st = some r := by
  intro fuel
  induction fuel with
  | zero => intro st r h; simp [bfsLoop] at h
  | succ fuel ih =>
    intro st r h fuel' hle
    cases fuel' with
    | zero => omega
    | succ fuel' =>
      unfold bfsLoop at h ⊢
      rcases hq : st.q with _ | ⟨u, q'⟩
      · rw [hq] at h; exact h
      · rw [hq] at h
        simp only at h ⊢
        rcases hsc : bfsScan g t (g.adjOf u) { st with q := q' } with ⟨b, st'⟩
        rw [hsc] at h
        cases b with
        | true => exact h
        | false => exact ih st' r h fuel' (by omega)

theorem bottleneck_mono (g : Graph) (path : List (Option Nat)) (s : Nat) :
    ∀ (fuel v : Nat) (acc r : Int), bottleneck g path s fuel v acc = some r →
      ∀ fuel', fuel ≤ fuel' → bottleneck g path s fuel' v acc = some r := by
  intro fuel
  induction fuel with
  | zero =>
    intro v acc r h fuel' _
    unfold bottleneck at h ⊢
    by_cases hv : v = s
    · rw [if_pos hv] at h ⊢; exact h
    · rw [if_neg hv] at h; simp at h
  | succ fuel ih =>
    intro v acc r h fuel' hle
    cases fuel' with
    | zero => omega
    | succ fuel' =>
      unfold bottleneck at h ⊢
      by_cases hv : v = s
      · rw [if_pos hv] at h ⊢; exact h
      · rw [if_neg hv] at h ⊢
        simp only at h ⊢
        rcases hp : path.getD v none with _ | e
        · rw [hp] at h; simp at h
        · rw [hp] at h
          simp only at h ⊢
          exact ih _ _ r h fuel' (by omega)

theorem augment_mono (path : List (Option Nat)) (s : Nat) (bn : Int) :
    ∀ (fuel v : Nat) (g r : Graph), augment path s bn fuel v g = some r →
      ∀ fuel', fuel ≤ fuel' → augment path s bn fuel' v g = some r := by
  intro fuel
  induction fuel with
  | zero =>
    intro v g r h fuel' _
    unfold augment at h ⊢
    by_cases hv : v = s
    · rw [if_pos hv] at h ⊢; exact h
    · rw [if_neg hv] at h; simp at h
  | succ fuel ih =>
    intro v g r h fuel' hle
    cases fuel' with
    | zero => omega
    | succ fuel' =>
      unfold augment at h ⊢
      by_cases hv : v = s
      · rw [if_pos hv] at h ⊢; exact h
      · rw [if_neg hv] at h ⊢
        simp only at h ⊢
        rcases hp : path.getD v none with _ | e
        · rw [hp] at h; simp at h
        · rw [hp] at h
          simp only at h ⊢
          exact ih _ _ r h fuel' (by omega)

theorem ffStep_mono {fuel V s t : Nat} {st : FFState} {r : Bool × FFState}
    (h : ffStep fuel V s t st = some r) {fuel' : Nat} (hle : fuel ≤ fuel') :
    ffStep fuel' V s t st = some r := by
  unfold ffStep at h ⊢
  rcases hb : bfs fuel st.g s t st.path (List.replicate V false) with _ | ⟨b, bs⟩
  · rw [hb] at h; simp at h
  · have hb' : bfs fuel' st.g s t st.path (List.replicate V false) = some (b, bs) :=
      bfsLoop_mono _ _ _ _ _ hb fuel' hle
    rw [hb] at h; rw [hb']
    cases b with
    | false => exact h
    | true =>
      simp only at h ⊢
      rcases hbn : bottleneck st.g bs.path s fuel t INT_MAX with _ | bn
      · rw [hbn] at h; simp at h
      · rw [hbn] at h; rw [bottleneck_mono _ _ _ _ _ _ _ hbn fuel' hle]
        simp only at h ⊢
        rcases ha : augment bs.path s bn fuel t st.g with _ | g'
        · rw [ha] at h; simp at h
        · rw [ha] at h; rw [augment_mono _ _ _ _ _ _ _ ha fuel' hle]; exact h

theorem bfsScan_sink_marked (g : Graph) (t : Nat) : ∀ (es : List Nat) (st : BfsState),
    st.visited.getD t false = true →
    (bfsScan g t es st).1 = false ∧ (bfsScan g t es st).2.visited.getD t false = true := by
  intro es
  induction es with
  | nil => intro st h; exact ⟨rfl, h⟩
  | cons e rest ih =>
    intro st h
    unfold bfsScan
    by_cases hc : (!st.visited.getD (g.edge e).dst false &&
        decide ((g.edge e).capacity > (g.edge e).flow)) = true
    · rw [if_pos hc]
      simp only [Bool.and_eq_true, Bool.not_eq_true', decide_eq_true_eq] at hc
      have hne : (g.edge e).dst ≠ t := by
        intro heq; rw [heq, h] at hc; exact Bool.false_ne_true hc.1.symm
      rw [if_neg hne]
      apply ih
      show (st.visited.set _ true).getD t false = true
      rw [getD_set_ne_bool _ _ hne]; exact h
    · rw [if_neg hc]
      exact ih st h

theorem bfsLoop_sink_marked (g : Graph) (t : Nat) : ∀ (fuel : Nat) (st : BfsState)
    (r : Bool × BfsState), st.visited.getD t false = true →
    bfsLoop g t fuel st = some r → r.1 = false := by
  intro fuel
  induction fuel with
  | zero => intro st r _ h; simp [bfsLoop] at h
  | succ fuel ih =>
    intro st r hvis h
    unfold bfsLoop at h
    rcases hq : st.q with _ | ⟨u, q'⟩
    · rw [hq] at h
      simp only [Option.some.injEq] at h
      rw [← h]
    · rw [hq] at h
      simp only at h
      obtain ⟨h1, h2⟩ := bfsScan_sink_marked g t (g.adjOf u) { st with q := q' } hvis
      rcases hsc : bfsScan g t (g.adjOf u) { st with q := q' } with ⟨b, st'⟩
      rw [hsc] at h h1 h2
      simp only at h1 h2
      subst h1
      exact ih st' r h2 h

theorem ffStep_same_endpoints {fuel V s : Nat} (hs : s < V) {st : FFState}
    {r : Bool × FFState} (h : ffStep fuel V s s st = some r) : r.1 = false := by
  unfold ffStep at h
  rcases hb : bfs fuel st.g s s st.path (List.replicate V false) with _ | ⟨b, bs⟩
  · rw [hb] at h; simp at h
  · have := bfsLoop_sink_marked _ _ _ _ _
      (getD_set_self_bool (List.replicate V false) true (by simpa using hs)) hb
    simp only at this
    subst this
    rw [hb] at h
    simp only [Option.some.injEq] at h
    rw [← h]

theorem ffStep_inv {V : Nat} {L : List Triple} {s t : Nat} {st st' : FFState}
    (hv : ValidTriples V L) (hc : CapsInt16 L) (hs : s < V) (hinv : FFInv V L s t st)
    {fuel : Nat} (h : ffStep fuel V s t st = some (true, st')) :
    FFInv V L s t st' ∧ SameShape st.g st'.g ∧
      ∃ bn, 0 < bn ∧ netOut L st'.g s = netOut L st.g s + bn ∧
        st'.maxFlow = wrap32 (st.maxFlow + bn) := by
  by_cases hst : s = t
  · subst hst
    have := ffStep_same_endpoints hs h
    simp at this
  · have h' := ffStep_mono h (le_max_left fuel (V + 1))
    rcases ffStep_spec hv hc hs hst hinv (max fuel (V + 1))
        (lt_of_lt_of_le (Nat.lt_succ_self V) (le_max_right _ _)) with
      ⟨b, h1, _⟩ | ⟨st'', bn, h1, h2, h3, h4, h5, h6⟩
    · rw [h1] at h'; simp at h'
    · rw [h1] at h'
      simp only [Option.some.injEq, Prod.mk.injEq, true_and] at h'
      subst h'
      exact ⟨h2, h5, bn, h3, h4, h6⟩

theorem reachable_inv {V : Nat} {L : List Triple} {s t : Nat} (hv : ValidTriples V L)
    (hc : CapsInt16 L) (hs : s < V) {fuel : Nat} {st : FFState}
    (h : Reachable fuel V s t (buildGraph V L) st) :
    FFInv V L s t st ∧ SameShape (buildGraph V L) st.g := by
  induction h with
  | init => exact ⟨ffInv_init hv s t, SameShape.refl _⟩
  | step _ hstep ih =>
    obtain ⟨k1, k2, _⟩ := ffStep_inv hv hc hs ih.1 hstep
    exact ⟨k1, ih.2.trans k2⟩

theorem outputChain_eq (g : Graph) (u : Nat) : ∀ (es : List Nat) (out : String),
    outputChain g u es out =
      ((es.map fun e => (u, e)).filter fun p => 0 < (g.edge p.2).flow).foldl
        (fun out p => out ++ edgeLine g p.1 p.2) out := by
  intro es
  induction es with
  | nil => intro out; rfl
  | cons e rest ih =>
    intro out
    unfold outputChain
    by_cases h : (g.edge e).flow > 0
    · rw [if_pos h, ih]
      simp [List.filter_cons, h]
    · rw [if_neg h, ih]
      simp [List.filter_cons, h]

theorem outputVertices_eq (g : Graph) : ∀ (us : List Nat) (out : String),
    outputVertices g us out =
      ((us.flatMap fun u => (g.adjOf u).map fun e => (u, e)).filter
        fun p => 0 < (g.edge p.2).flow).foldl (fun out p => out ++ edgeLine g p.1 p.2) out := by
  intro us
  induction us with
  | nil => intro out; rfl
  | cons u rest ih =>
    intro out
    unfold outputVertices
    rw [ih, outputChain_eq, List.flatMap_cons, List.filter_append, List.foldl_append]

theorem outputFlow_eq_reportText (g : Graph) (V : Nat) (maxFlow src sink : Int) :
    outputFlow g V maxFlow src sink = reportText g V maxFlow src sink :=
  outputVertices_eq g (List.range V) _

theorem mem_iff_tri (L : List Triple) (tr : Triple) :
    tr ∈ L ↔ ∃ k, k < L.length ∧ tri L k = tr := by
  constructor
  · intro h
    obtain ⟨k, hk, rfl⟩ := List.mem_iff_getElem.mp h
    exact ⟨k, hk, by unfold tri; exact List.getD_eq_getElem _ _ hk⟩
  · rintro ⟨k, hk, rfl⟩
    exact tri_mem L k hk

theorem potentialSource_iff {V : Nat} {L : List Triple} {g : Graph} (hb : Built V L g)
    {i : Nat} (hi : i < V) : PotentialSource g i ↔ HasOut L i := by
  unfold PotentialSource HasOut
  constructor
  · rintro ⟨e, he, hc⟩
    obtain ⟨hlt, ho⟩ := (hb.mem_adjOf hi e).mp he
    rcases Nat.mod_two_eq_zero_or_one e with hpar | hpar
    · have h2 : 2 * (e / 2) = e := by omega
      have := (hb.fwd (e / 2) (by omega)).2.1
      rw [h2] at this
      refine ⟨tri L (e / 2), tri_mem L _ (by omega), ?_, by rw [← this]; exact hc⟩
      unfold ownerOf at ho; rw [if_pos hpar] at ho; exact ho
    · have h2 : 2 * (e / 2) + 1 = e := by omega
      have := (hb.bwd (e / 2) (by omega)).2.1
      rw [h2] at this
      rw [this] at hc; exact absurd hc (lt_irrefl _)
  · rintro ⟨tr, htr, h1, h2⟩
    obtain ⟨k, hk, rfl⟩ := (mem_iff_tri L tr).mp htr
    refine ⟨2 * k, (hb.mem_adjOf hi _).mpr ⟨by omega, ?_⟩, ?_⟩
    · unfold ownerOf
      rw [if_pos (by omega), Nat.mul_div_cancel_left _ (by norm_num)]; exact h1
    · rw [(hb.fwd k hk).2.1]; exact h2

theorem potentialSink_iff {V : Nat} {L : List Triple} {g : Graph} (hb : Built V L g)
    (hv : ValidTriples V L) (i : Nat) : PotentialSink g V i ↔ HasIn L i := by
  unfold PotentialSink HasIn
  constructor
  · rintro ⟨u, hu, e, he, hc, hd⟩
    obtain ⟨hlt, _⟩ := (hb.mem_adjOf hu e).mp he
    rcases Nat.mod_two_eq_zero_or_one e with hpar | hpar
    · have h2 : 2 * (e / 2) = e := by omega
      obtain ⟨k1, k2, _⟩ := hb.fwd (e / 2) (by omega)
      rw [h2] at k1 k2
      exact ⟨tri L (e / 2), tri_mem L _ (by omega), by rw [← k1]; exact hd,
        by rw [← k2]; exact hc⟩
    · have h2 : 2 * (e / 2) + 1 = e := by omega
      have := (hb.bwd (e / 2) (by omega)).2.1
      rw [h2] at this
      rw [this] at hc; exact absurd hc (lt_irrefl _)
  · rintro ⟨tr, htr, h1, h2⟩
    obtain ⟨k, hk, rfl⟩ := (mem_iff_tri L tr).mp htr
    have hfrom := (hv _ (tri_mem L k hk)).1
    obtain ⟨k1, k2, _⟩ := hb.fwd k hk
    refine ⟨(tri L k).1, hfrom, 2 * k, (hb.mem_adjOf hfrom _).mpr ⟨by omega, ?_⟩, ?_, ?_⟩
    · unfold ownerOf
      rw [if_pos (by omega), Nat.mul_div_cancel_left _ (by norm_num)]
    · rw [k2]; exact h2
    · rw [k1]; exact h1

/-- Result of `findSourceSink` on a graph laid out by `addEdge`, in terms of the input. -/
theorem findSourceSink_built {V : Nat} {L : List Triple} (hv : ValidTriples V L) :
    LeastOrMinusOne (fun i => HasOut L i ∧ ¬ HasIn L i) V (findSourceSink (buildGraph V L) V).1 ∧
    LeastOrMinusOne (fun i => HasIn L i ∧ ¬ HasOut L i) V (findSourceSink (buildGraph V L) V).2 := by
  have hb := built_buildGraph hv
  obtain ⟨h1, h2⟩ := findSourceSink_spec (buildGraph V L) V
  constructor
  · refine h1.congr ?_
    intro i hi
    rw [potentialSource_iff hb hi, potentialSink_iff hb hv]
  · refine h2.congr ?_
    intro i hi
    rw [potentialSource_iff hb hi, potentialSink_iff hb hv]

/-- When both end points are inferred they are distinct vertices. -/
theorem findSourceSink_valid {V : Nat} {L : List Triple} (hv : ValidTriples V L)
    (h1 : (findSourceSink (buildGraph V L) V).1 ≠ -1)
    (h2 : (findSourceSink (buildGraph V L) V).2 ≠ -1) :
    ∃ s t, s < V ∧ t < V ∧ s ≠ t ∧ (findSourceSink (buildGraph V L) V).1 = (s : Int) ∧
      (findSourceSink (buildGraph V L) V).2 = (t : Int) ∧
      (HasOut L s ∧ ¬ HasIn L s) ∧ (HasIn L t ∧ ¬ HasOut L t) := by
  obtain ⟨k1, k2⟩ := findSourceSink_built hv
  rcases k1 with ⟨e1, _⟩ | ⟨s, hs, e1, p1, _⟩
  · exact absurd e1 h1
  rcases k2 with ⟨e2, _⟩ | ⟨t, ht, e2, p2, _⟩
  · exact absurd e2 h2
  refine ⟨s, t, hs, ht, ?_, e1, e2, p1, p2⟩
  intro h; subst h
  exact p2.2 p1.1

theorem netOut_eq_sub (L : List Triple) (g : Graph) (v : Nat) :
    netOut L g v = flowLeaving L g v - flowEntering L g v := by
  unfold netOut flowLeaving flowEntering
  rw [Finset.sum_sub_distrib]

theorem sum_map_filter (p : Nat → Bool) (F : Nat → Int) : ∀ l : List Nat,
    ((l.filter p).map F).sum = (l.map fun x => if p x then F x else 0).sum := by
  intro l
  induction l with
  | nil => rfl
  | cons x xs ih =>
    by_cases h : p x = true
    · simp [List.filter_cons, h, ih]
    · simp [List.filter_cons, h, ih]

theorem sum_range_pairs (F : Nat → Int) : ∀ m : Nat,
    ((List.range (2 * m)).map F).sum = ∑ i in Finset.range m, (F (2 * i) + F (2 * i + 1)) := by
  intro m
  induction m with
  | zero => simp
  | succ m ih =>
    have : 2 * (m + 1) = 2 * m + 1 + 1 := by ring
    rw [this, List.range_succ, List.range_succ, Finset.sum_range_succ, ← ih]
    simp [add_assoc]

theorem adjFlow_eq_netOut {V : Nat} {L : List Triple} {g : Graph} (hb : Built V L g)
    (hf : FlowOK L g) {v : Nat} (hv : v < V) : adjFlow g v = netOut L g v := by
  unfold adjFlow
  rw [hb.adj v hv, sum_map_filter, sum_range_pairs]
  unfold netOut
  apply Finset.sum_congr rfl
  intro i hi
  have hi' := Finset.mem_range.mp hi
  have ho1 : ownerOf L (2 * i) = (tri L i).1 := by
    unfold ownerOf
    rw [if_pos (by omega), Nat.mul_div_cancel_left _ (by norm_num)]
  have ho2 : ownerOf L (2 * i + 1) = (tri L i).2.1 := by
    unfold ownerOf
    have : (2 * i + 1) / 2 = i := by omega
    rw [if_neg (by omega), this]
  simp only [ho1, ho2, decide_eq_true_eq, hf.skew i hi']
  split <;> split <;> ring

theorem cutCapacityPos_eq {L : List Triple} (h : ∀ tr ∈ L, 0 ≤ tr.2.2) (S : Nat → Bool) :
    cutCapacityPos L S = cutCapacity L S := by
  unfold cutCapacityPos cutCapacity
  congr 1
  apply List.map_congr_left
  intro tr htr
  rw [max_eq_left (h tr htr)]

theorem cutCapacityPos_nonneg (L : List Triple) (S : Nat → Bool) : 0 ≤ cutCapacityPos L S := by
  unfold cutCapacityPos
  apply List.sum_nonneg
  intro x hx
  obtain ⟨tr, _, rfl⟩ := List.mem_map.mp hx
  split
  · exact le_max_right _ _
  · exact le_refl _

theorem capsInt16_of_range {L : List Triple} (h : ∀ tr ∈ L, 0 ≤ tr.2.2 ∧ tr.2.2 ≤ 32767) :
    CapsInt16 L := by
  intro tr htr
  have := h tr htr
  exact ⟨by omega, this.2⟩

/-- The value returned in the final state, before and after reduction to 32 bits. -/
theorem FFFinal.value {V : Nat} {L : List Triple} {s t : Nat} {st : FFState} {b : BfsState}
    (h : FFFinal V L s t st b) (hv : ValidTriples V L) (hs : s < V) :
    st.maxFlow = wrap32 (cutCapacityPos L (fun v => b.visited.getD v false)) := by
  rw [h.inv.total, (h.minCut hv hs).1]

/-- From a reachable state, a loop that returns was left from a reachable state
in which the search failed. -/
theorem ffLoop_reach {fuel V s t : Nat} {g0 : Graph} : ∀ (n : Nat) (st st' : FFState),
    Reachable fuel V s t g0 st → ffLoop fuel V s t n st = some st' →
    ∃ st0, Reachable fuel V s t g0 st0 ∧ ffStep fuel V s t st0 = some (false, st') := by
  intro n
  induction n with
  | zero => intro st st' _ h; simp [ffLoop] at h
  | succ n ih =>
    intro st st' hr h
    unfold ffLoop at h
    rcases hstep : ffStep fuel V s t st with _ | ⟨b, st1⟩
    · rw [hstep] at h; simp at h
    · rw [hstep] at h
      cases b with
      | false =>
        simp only [Option.some.injEq] at h
        subst h
        exact ⟨st, hr, hstep⟩
      | true =>
        simp only at h
        exact ih st1 st' (Reachable.step hr hstep) h

/-- C1 (optimality).  For every vertex count `V`, every list `L` of triples with
end points below `V` and capacities in `[0, 32767]`, and every source `s < V`
and sink `t ≠ s`: if arithmetic does not overflow, in the sense that some set
separating `s` from `t` has cut capacity at most `INT_MAX`, then with enough
fuel `fordFulkerson` returns on the graph built by `addEdge`, and the value it
returns is the minimum of the cut capacity over all vertex sets `S` with
`s ∈ S` and `t ∉ S`: some such set attains it and no such set has less. -/
theorem c1_max_flow_eq_min_cut (V : Nat) (L : List Triple) (s t : Nat)
    (hv : ValidTriples V L) (hcap : ∀ tr ∈ L, 0 ≤ tr.2.2 ∧ tr.2.2 ≤ 32767)
    (hs : s < V) (hst : s ≠ t)
    (hno : ∃ S : Nat → Bool, S s = true ∧ S t = false ∧ cutCapacity L S ≤ INT_MAX) :
    ∃ N, ∀ fuel, N ≤ fuel → ∃ total g,
      fordFulkerson fuel (buildGraph V L) V s t = some (total, g) ∧
      (∃ S : Nat → Bool, S s = true ∧ S t = false ∧ cutCapacity L S = total) ∧
      ∀ S : Nat → Bool, S s = true → S t = false → total ≤ cutCapacity L S := by
  refine ⟨enoughFuel V L, ?_⟩
  intro fuel hfuel
  obtain ⟨st, b, _, hff, hfin, _⟩ :=
    fordFulkerson_spec hv (capsInt16_of_range hcap) hs hst fuel hfuel
  have hnn : ∀ tr ∈ L, 0 ≤ tr.2.2 := fun tr htr => (hcap tr htr).1
  obtain ⟨hmin, hle⟩ := hfin.minCut hv hs
  obtain ⟨S0, hS0, hT0, hcut0⟩ := hno
  have hval : st.maxFlow = netOut L st.g s := by
    rw [hfin.inv.total]
    apply wrap32_id
    · have := cutCapacityPos_nonneg L (fun v => b.visited.getD v false)
      rw [← hmin] at this; omega
    · have := hle S0 hS0 hT0
      rw [cutCapacityPos_eq hnn] at this
      unfold INT_MAX at hcut0; omega
  refine ⟨st.maxFlow, st.g, hff, ⟨fun v => b.visited.getD v false, hfin.search.visS,
    hfin.search.notT, ?_⟩, ?_⟩
  · rw [hval, hmin, cutCapacityPos_eq hnn]
  · intro S hS hT
    rw [hval, ← cutCapacityPos_eq hnn]
    exact hle S hS hT

/-- C2 (capacity constraint and skew symmetry as a state invariant).  On the
graph built by `addEdge` from triples with end points below `V` and capacities
in `[0, 32767]`, in the state right after construction and in the state left by
each augmentation of `fordFulkerson` (every `Reachable` state), the arena holds
exactly the two edges of each triple; the direct edge `2 i` of triple `i` keeps
its destination and capacity and has `0 ≤ flow ≤ capacity`; the reverse edge
`2 i + 1` is paired with it, has capacity `0` and carries the negated flow of
its paired direct edge. -/
theorem c2_capacity_and_skew_invariant (V : Nat) (L : List Triple) (s t fuel : Nat)
    (st : FFState) (hv : ValidTriples V L) (hcap : ∀ tr ∈ L, 0 ≤ tr.2.2 ∧ tr.2.2 ≤ 32767)
    (hs : s < V) (hreach : Reachable fuel V s t (buildGraph V L) st) :
    st.g.edges.length = 2 * L.length ∧
    ∀ i, i < L.length →
      ((st.g.edge (2 * i)).dst = (tri L i).2.1 ∧ (st.g.edge (2 * i)).capacity = (tri L i).2.2 ∧
        0 ≤ (st.g.edge (2 * i)).flow ∧ (st.g.edge (2 * i)).flow ≤ (st.g.edge (2 * i)).capacity) ∧
      ((st.g.edge (2 * i)).reverse = 2 * i + 1 ∧ (st.g.edge (2 * i + 1)).reverse = 2 * i ∧
        (st.g.edge (2 * i + 1)).dst = (tri L i).1 ∧
        (st.g.edge (2 * i + 1)).capacity = 0 ∧
        (st.g.edge (2 * i + 1)).flow = -(st.g.edge (st.g.edge (2 * i + 1)).reverse).flow) := by
  obtain ⟨hinv, _⟩ := reachable_inv hv (capsInt16_of_range hcap) hs hreach
  refine ⟨hinv.built.len, ?_⟩
  intro i hi
  obtain ⟨f1, f2, f3⟩ := hinv.built.fwd i hi
  obtain ⟨b1, b2, b3⟩ := hinv.built.bwd i hi
  have hhi := hinv.flow.hi i hi
  rw [max_eq_left (hcap _ (tri_mem L i hi)).1, ← f2] at hhi
  refine ⟨⟨f1, f2, hinv.flow.lo i hi, hhi⟩, f3, b3, b1, b2, ?_⟩
  rw [b3]; exact hinv.flow.skew i hi

/-- C3 (conservation).  On the graph built from triples with end points below
`V` (capacities being `int16_t` values) and for `s < V`, `s ≠ t`, with enough
fuel `fordFulkerson` returns, and in the graph it leaves every vertex `v < V`
other than `s` and `t` has equal flow on the direct edges leaving it and on the
direct edges entering it; equivalently the `flow` fields of all edges of its
chain sum to `0`. -/
theorem c3_conservation (V : Nat) (L : List Triple) (s t : Nat) (hv : ValidTriples V L)
    (hc : CapsInt16 L) (hs : s < V) (hst : s ≠ t) :
    ∃ N, ∀ fuel, N ≤ fuel → ∃ total g,
      fordFulkerson fuel (buildGraph V L) V s t = some (total, g) ∧
      ∀ v, v < V → v ≠ s → v ≠ t →
        flowLeaving L g v = flowEntering L g v ∧ adjFlow g v = 0 := by
  refine ⟨enoughFuel V L, ?_⟩
  intro fuel hfuel
  obtain ⟨st, b, _, hff, hfin, _⟩ := fordFulkerson_spec hv hc hs hst fuel hfuel
  refine ⟨st.maxFlow, st.g, hff, ?_⟩
  intro v hvV hvs hvt
  have h0 := hfin.inv.cons v hvs hvt
  constructor
  · rw [netOut_eq_sub] at h0; omega
  · rw [adjFlow_eq_netOut hfin.inv.built hfin.inv.flow hvV, h0]

/-- C4 (termination).  On the graph built from triples with end points below
`V` and any `int16_t` capacities, for `s < V` and `s ≠ t`, there is an amount
of fuel from which on: `fordFulkerson` returns a result; the loop is left from
a state, reached by finitely many augmentations, in which `bfs` answers
`false`; and from every state the loop reaches `bfs` returns, and whenever it
answers `true` both backward walks (`bottleneck`, and `augment` for whatever
amount) reach `src` and return. -/
theorem c4_termination (V : Nat) (L : List Triple) (s t : Nat) (hv : ValidTriples V L)
    (hc : CapsInt16 L) (hs : s < V) (hst : s ≠ t) :
    ∃ N, ∀ fuel, N ≤ fuel →
      (∃ total g, fordFulkerson fuel (buildGraph V L) V s t = some (total, g) ∧
        ∃ st0 b, Reachable fuel V s t (buildGraph V L) st0 ∧ st0.g = g ∧
          bfs fuel st0.g s t st0.path (List.replicate V false) = some (false, b)) ∧
      ∀ st, Reachable fuel V s t (buildGraph V L) st →
        ∃ found b, bfs fuel st.g s t st.path (List.replicate V false) = some (found, b) ∧
          (found = true →
            (∃ flow, bottleneck st.g b.path s fuel t INT_MAX = some flow) ∧
            ∀ flow, ∃ g', augment b.path s flow fuel t st.g = some g') := by
  refine ⟨enoughFuel V L, ?_⟩
  intro fuel hfuel
  have hV : V < fuel := by unfold enoughFuel at hfuel; omega
  constructor
  · obtain ⟨st, b, hloop, hff, _, _⟩ := fordFulkerson_spec hv hc hs hst fuel hfuel
    obtain ⟨st0, hr0, hstep0⟩ := ffLoop_reach fuel _ _ Reachable.init hloop
    obtain ⟨hinv0, _⟩ := reachable_inv hv hc hs hr0
    refine ⟨st.maxFlow, st.g, hff, st0, ?_⟩
    rcases bfs_spec hinv0.built hv hs hst st0.path hinv0.pathLen fuel hV with
      ⟨b', h1, _, _⟩ | ⟨b', chain, h1, _, h3⟩
    · refine ⟨b', hr0, ?_, h1⟩
      unfold ffStep at hstep0
      rw [h1] at hstep0
      simp only [Option.some.injEq, Prod.mk.injEq, true_and] at hstep0
      rw [← hstep0]
    · exfalso
      have hlen : chain.length ≤ fuel := le_trans (h3.length_le hinv0.built hv) (le_of_lt hV)
      unfold ffStep at hstep0
      rw [h1] at hstep0
      simp only at hstep0
      rw [bottleneck_chain h3 fuel INT_MAX hlen] at hstep0
      simp only at hstep0
      rw [augment_chain h3 _ fuel st0.g (SameShape.refl _) hlen] at hstep0
      simp at hstep0
  · intro st hr
    obtain ⟨hinv, _⟩ := reachable_inv hv hc hs hr
    rcases bfs_spec hinv.built hv hs hst st.path hinv.pathLen fuel hV with
      ⟨b', h1, _, _⟩ | ⟨b', chain, h1, _, h3⟩
    · exact ⟨false, b', h1, by intro h; exact absurd h Bool.false_ne_true⟩
    · have hlen : chain.length ≤ fuel := le_trans (h3.length_le hinv.built hv) (le_of_lt hV)
      refine ⟨true, b', h1, fun _ => ⟨⟨_, bottleneck_chain h3 fuel INT_MAX hlen⟩, ?_⟩⟩
      intro flow
      exact ⟨_, augment_chain h3 flow fuel st.g (SameShape.refl _) hlen⟩

/-- C5 (source/sink selection).  On the graph built by `addEdge` from triples
with end points below `V`, `findSourceSink` sets `src` to the least `i < V`
that owns an edge of capacity `> 0` and is the destination of no edge of
capacity `> 0`, or to `-1` if there is none, and `sink` to the least `i < V`
that is the destination of an edge of capacity `> 0` and owns none, or to `-1`
if there is none; owning (being the destination of) such an edge is the same
as some input triple of positive capacity leaving (entering) the vertex. -/
theorem c5_find_source_sink (V : Nat) (L : List Triple) (hv : ValidTriples V L) :
    LeastOrMinusOne
      (fun i => PotentialSource (buildGraph V L) i ∧ ¬ PotentialSink (buildGraph V L) V i) V
      (findSourceSink (buildGraph V L) V).1 ∧
    LeastOrMinusOne
      (fun i => PotentialSink (buildGraph V L) V i ∧ ¬ PotentialSource (buildGraph V L) i) V
      (findSourceSink (buildGraph V L) V).2 ∧
    ∀ i, i < V → (PotentialSource (buildGraph V L) i ↔ HasOut L i) ∧
      (PotentialSink (buildGraph V L) V i ↔ HasIn L i) := by
  obtain ⟨h1, h2⟩ := findSourceSink_spec (buildGraph V L) V
  refine ⟨h1, h2, ?_⟩
  intro i hi
  exact ⟨potentialSource_iff (built_buildGraph hv) hi,
    potentialSink_iff (built_buildGraph hv) hv i⟩

theorem ffLoop_mono {fuel fuel' V s t : Nat} (hle : fuel ≤ fuel') : ∀ (n : Nat) (st r : FFState),
    ffLoop fuel V s t n st = some r → ∀ n', n ≤ n' → ffLoop fuel' V s t n' st = some r := by
  intro n
  induction n with
  | zero => intro st r h; simp [ffLoop] at h
  | succ n ih =>
    intro st r h n' hn
    cases n' with
    | zero => omega
    | succ n' =>
      unfold ffLoop at h ⊢
      rcases hstep : ffStep fuel V s t st with _ | ⟨b, st1⟩
      · rw [hstep] at h; simp at h
      · rw [hstep] at h
        rw [ffStep_mono hstep hle]
        cases b with
        | false => exact h
        | true => exact ih st1 r h n' (by omega)

/-- More fuel does not change what `fordFulkerson` returns. -/
theorem fordFulkerson_mono {fuel fuel' : Nat} {g : Graph} {V s t : Nat} {r : Int × Graph}
    (h : fordFulkerson fuel g V s t = some r) (hle : fuel ≤ fuel') :
    fordFulkerson fuel' g V s t = some r := by
  unfold fordFulkerson at h ⊢
  rcases hl : ffLoop fuel V s t fuel (ffInit g V) with _ | st
  · rw [hl] at h; simp at h
  · rw [hl] at h
    rw [ffLoop_mono hle fuel _ _ hl fuel' hle]
    exact h

theorem inference_fails_iff {V : Nat} {L : List Triple} (hv : ValidTriples V L) :
    InferenceFails V L ↔ ((findSourceSink (buildGraph V L) V).1 = -1 ∨
      (findSourceSink (buildGraph V L) V).2 = -1) := by
  obtain ⟨k1, k2⟩ := findSourceSink_built hv
  unfold InferenceFails IsSource IsSink
  constructor
  · rintro (h | h)
    · left
      rcases k1 with ⟨e, _⟩ | ⟨i, hi, _, p, _⟩
      · exact e
      · exact absurd p (h i hi)
    · right
      rcases k2 with ⟨e, _⟩ | ⟨i, hi, _, p, _⟩
      · exact e
      · exact absurd p (h i hi)
  · rintro (h | h)
    · left
      rcases k1 with ⟨_, p⟩ | ⟨i, _, e, _, _⟩
      · exact p
      · rw [e] at h; omega
    · right
      rcases k2 with ⟨_, p⟩ | ⟨i, _, e, _, _⟩
      · exact p
      · rw [e] at h; omega

theorem main_fail {V : Nat} {L : List Triple} (hv : ValidTriples V L)
    (h : InferenceFails V L) (fuel : Nat) : main fuel V L = some ⟨1, ""⟩ := by
  unfold main
  simp only
  rw [if_pos ((inference_fails_iff hv).mp h)]

theorem outputChain_length (g : Graph) (u : Nat) : ∀ (es : List Nat) (out : String),
    out.length ≤ (outputChain g u es out).length := by
  intro es
  induction es with
  | nil => intro out; exact le_refl _
  | cons e rest ih =>
    intro out
    unfold outputChain
    split
    · refine le_trans ?_ (ih _)
      rw [String.length_append]; omega
    · exact ih out

theorem outputVertices_length (g : Graph) : ∀ (us : List Nat) (out : String),
    out.length ≤ (outputVertices g us out).length := by
  intro us
  induction us with
  | nil => intro out; exact le_refl _
  | cons u rest ih =>
    intro out
    unfold outputVertices
    exact le_trans (outputChain_length g u _ out) (ih _)

theorem outputFlow_ne_empty (g : Graph) (V : Nat) (maxFlow src sink : Int) :
    outputFlow g V maxFlow src sink ≠ "" := by
  intro h
  have h1 := outputVertices_length g (List.range V) (headerLine maxFlow src sink)
  unfold outputFlow at h
  rw [h] at h1
  unfold headerLine at h1
  simp only [String.length_append] at h1
  have : "Max Flow from ".length = 14 := by decide
  have h0 : "".length = 0 := by decide
  omega

theorem main_success {V : Nat} {L : List Triple} (hv : ValidTriples V L) (hc : CapsInt16 L)
    (h : ¬ InferenceFails V L) (fuel : Nat) (hfuel : enoughFuel V L ≤ fuel) :
    ∃ s t total g, s < V ∧ t < V ∧ IsSource L s ∧ IsSink L t ∧
      findSourceSink (buildGraph V L) V = ((s : Int), (t : Int)) ∧
      fordFulkerson fuel (buildGraph V L) V s t = some (total, g) ∧
      main fuel V L = some ⟨0, outputFlow g V total s t⟩ := by
  have hne := (not_congr (inference_fails_iff hv)).mp h
  rw [not_or] at hne
  obtain ⟨s, t, hs, ht, hst, e1, e2, p1, p2⟩ := findSourceSink_valid hv hne.1 hne.2
  obtain ⟨st, b, _, hff, _, _⟩ := fordFulkerson_spec hv hc hs hst fuel hfuel
  refine ⟨s, t, st.maxFlow, st.g, hs, ht, p1, p2, Prod.ext e1 e2, hff, ?_⟩
  unfold main
  simp only
  rw [if_neg (by rw [not_or]; exact hne), e1, e2]
  simp only [Int.toNat_ofNat]
  rw [hff]

theorem cutCapacityPos_perm {L L' : List Triple} (hp : L.Perm L') (S : Nat → Bool) :
    cutCapacityPos L S = cutCapacityPos L' S := by
  unfold cutCapacityPos
  exact (hp.map _).sum_eq

theorem validTriples_perm {V : Nat} {L L' : List Triple} (hp : L.Perm L')
    (hv : ValidTriples V L) : ValidTriples V L' :=
  fun tr htr => hv tr (hp.mem_iff.mpr htr)

theorem capsInt16_perm {L L' : List Triple} (hp : L.Perm L') (hc : CapsInt16 L) :
    CapsInt16 L' :=
  fun tr htr => hc tr (hp.mem_iff.mpr htr)

theorem hasOut_perm {L L' : List Triple} (hp : L.Perm L') (i : Nat) :
    HasOut L i ↔ HasOut L' i := by
  unfold HasOut
  constructor
  · rintro ⟨tr, h, p⟩; exact ⟨tr, hp.mem_iff.mp h, p⟩
  · rintro ⟨tr, h, p⟩; exact ⟨tr, hp.mem_iff.mpr h, p⟩

theorem hasIn_perm {L L' : List Triple} (hp : L.Perm L') (i : Nat) :
    HasIn L i ↔ HasIn L' i := by
  unfold HasIn
  constructor
  · rintro ⟨tr, h, p⟩; exact ⟨tr, hp.mem_iff.mp h, p⟩
  · rintro ⟨tr, h, p⟩; exact ⟨tr, hp.mem_iff.mpr h, p⟩

theorem findSourceSink_perm {V : Nat} {L L' : List Triple} (hp : L.Perm L')
    (hv : ValidTriples V L) :
    findSourceSink (buildGraph V L) V = findSourceSink (buildGraph V L') V := by
  obtain ⟨h1, h2⟩ := findSourceSink_built hv
  obtain ⟨k1, k2⟩ := findSourceSink_built (validTriples_perm hp hv)
  apply Prod.ext
  · refine h1.unique (k1.congr ?_)
    intro i _
    rw [hasOut_perm hp, hasIn_perm hp]
  · refine h2.unique (k2.congr ?_)
    intro i _
    rw [hasOut_perm hp, hasIn_perm hp]

theorem value_perm {V : Nat} {L L' : List Triple} {s t : Nat} (hp : L.Perm L')
    (hv : ValidTriples V L) (hs : s < V) {st st' : FFState} {b b' : BfsState}
    (h : FFFinal V L s t st b) (h' : FFFinal V L' s t st' b') : st.maxFlow = st'.maxFlow := by
  have hv' := validTriples_perm hp hv
  obtain ⟨m1, l1⟩ := h.minCut hv hs
  obtain ⟨m2, l2⟩ := h'.minCut hv' hs
  have e1 := l1 (fun v => b'.visited.getD v false) h'.search.visS h'.search.notT
  have e2 := l2 (fun v => b.visited.getD v false) h.search.visS h.search.notT
  rw [cutCapacityPos_perm hp, ← m2] at e1
  rw [← cutCapacityPos_perm hp, ← m1] at e2
  rw [h.inv.total, h'.inv.total, le_antisymm e1 e2]

theorem diamond_graph (c : Int) : buildGraph 4 (diamond c) =
    ⟨[⟨1, c, 0, 1⟩, ⟨0, 0, 0, 0⟩, ⟨2, c, 0, 3⟩, ⟨0, 0, 0, 2⟩, ⟨3, c, 0, 5⟩, ⟨1, 0, 0, 4⟩,
      ⟨3, c, 0, 7⟩, ⟨2, 0, 0, 6⟩], [[0, 2], [1, 4], [3, 6], [5, 7]]⟩ := rfl

theorem chain2_graph (c : Int) : buildGraph 2 [(0, 1, c)] =
    ⟨[⟨1, c, 0, 1⟩, ⟨0, 0, 0, 0⟩], [[0], [1]]⟩ := rfl

theorem chain3_graph (a b : Int) : buildGraph 3 [(0, 1, a), (1, 2, b)] =
    ⟨[⟨1, a, 0, 1⟩, ⟨0, 0, 0, 0⟩, ⟨2, b, 0, 3⟩, ⟨1, 0, 0, 2⟩], [[0], [1, 2], [3]]⟩ := rfl

set_option maxHeartbeats 1000000 in
theorem diamond_run (c : Int) (h1 : 1 ≤ c) (h2 : c ≤ 32767) :
    fordFulkerson 3 (buildGraph 4 (diamond c)) 4 0 3 = some (2 * c,
      ⟨[⟨1, c, c, 1⟩, ⟨0, 0, -c, 0⟩, ⟨2, c, c, 3⟩, ⟨0, 0, -c, 2⟩, ⟨3, c, c, 5⟩, ⟨1, 0, -c, 4⟩,
        ⟨3, c, c, 7⟩, ⟨2, 0, -c, 6⟩], [[0, 2], [1, 4], [3, 6], [5, 7]]⟩) := by
  rw [diamond_graph]
  have h : 0 < c := by omega
  have w1 : wrap16 c = c := wrap16_id (by omega) (by omega)
  have w2 : wrap16 (-c) = -c := wrap16_id (by omega) (by omega)
  have w3 : wrap32 c = c := wrap32_id (by omega) (by omega)
  have w4 : wrap32 (c + c) = 2 * c := by rw [wrap32_id (by omega) (by omega)]; ring
  have m1 : min INT_MAX c = c := min_eq_right (by unfold INT_MAX; omega)
  have hn : ¬ (c < c) := lt_irrefl c
  have hn' : ¬ (c ≤ 0) := by omega
  simp [fordFulkerson, ffLoop, ffStep, ffInit, bfs, bfsLoop, bfsScan, bottleneck, augment,
    pushEdge, Graph.setFlow, Graph.edge, Graph.adjOf, Graph.origin, Graph.residual,
    List.replicate, w1, w2, w3, w4, m1, h, hn, hn']

set_option maxHeartbeats 1000000 in
theorem chain2_run (c : Int) (h1 : 1 ≤ c) (h2 : c ≤ 32767) :
    fordFulkerson 2 (buildGraph 2 [(0, 1, c)]) 2 0 1 =
      some (c, ⟨[⟨1, c, c, 1⟩, ⟨0, 0, -c, 0⟩], [[0], [1]]⟩) := by
  rw [chain2_graph]
  have h : 0 < c := by omega
  have w1 : wrap16 c = c := wrap16_id (by omega) (by omega)
  have w2 : wrap16 (-c) = -c := wrap16_id (by omega) (by omega)
  have w3 : wrap32 c = c := wrap32_id (by omega) (by omega)
  have m1 : min INT_MAX c = c := min_eq_right (by unfold INT_MAX; omega)
  have hn : ¬ (c < c) := lt_irrefl c
  have hn' : ¬ (c ≤ 0) := by omega
  simp [fordFulkerson, ffLoop, ffStep, ffInit, bfs, bfsLoop, bfsScan, bottleneck, augment,
    pushEdge, Graph.setFlow, Graph.edge, Graph.adjOf, Graph.origin, Graph.residual,
    List.replicate, w1, w2, w3, m1, h, hn, hn']

set_option maxHeartbeats 1000000 in
theorem chain3_run (a b : Int) (ha1 : 1 ≤ a) (ha2 : a ≤ 32767) (hb1 : 1 ≤ b) (hb2 : b ≤ 32767) :
    ∃ g, fordFulkerson 3 (buildGraph 3 [(0, 1, a), (1, 2, b)]) 3 0 2 = some (min a b, g) := by
  rw [chain3_graph]
  have hA : 0 < a := by omega
  have hB : 0 < b := by omega
  have hna : ¬ (a < a) := lt_irrefl a
  have hnb : ¬ (b < b) := lt_irrefl b
  have m0 : min INT_MAX b = b := min_eq_right (by unfold INT_MAX; omega)
  rcases le_or_lt a b with hab | hab
  · have m2 : min a b = a := min_eq_left hab
    have m1 : min (min INT_MAX b) a = a := by rw [m0]; exact min_eq_right hab
    have w1 : wrap16 a = a := wrap16_id (by omega) (by omega)
    have w2 : wrap16 (-a) = -a := wrap16_id (by omega) (by omega)
    have w3 : wrap32 a = a := wrap32_id (by omega) (by omega)
    refine ⟨⟨[⟨1, a, a, 1⟩, ⟨0, 0, -a, 0⟩, ⟨2, b, a, 3⟩, ⟨1, 0, -a, 2⟩], [[0], [1, 2], [3]]⟩, ?_⟩
    simp [fordFulkerson, ffLoop, ffStep, ffInit, bfs, bfsLoop, bfsScan, bottleneck, augment,
      pushEdge, Graph.setFlow, Graph.edge, Graph.adjOf, Graph.origin, Graph.residual,
      List.replicate, w1, w2, w3, m1, m2, hA, hB, hna, hnb]
  · have m2 : min a b = b := min_eq_right (le_of_lt hab)
    have m1 : min (min INT_MAX b) a = b := by rw [m0]; exact min_eq_left (le_of_lt hab)
    have w1 : wrap16 b = b := wrap16_id (by omega) (by omega)
    have w2 : wrap16 (-b) = -b := wrap16_id (by omega) (by omega)
    have w3 : wrap32 b = b := wrap32_id (by omega) (by omega)
    refine ⟨⟨[⟨1, a, b, 1⟩, ⟨0, 0, -b, 0⟩, ⟨2, b, b, 3⟩, ⟨1, 0, -b, 2⟩], [[0], [1, 2], [3]]⟩, ?_⟩
    simp [fordFulkerson, ffLoop, ffStep, ffInit, bfs, bfsLoop, bfsScan, bottleneck, augment,
      pushEdge, Graph.setFlow, Graph.edge, Graph.adjOf, Graph.origin, Graph.residual,
      List.replicate, w1, w2, w3, m1, m2, hA, hB, hna, hnb, hab]

theorem diamond_endpoints (c : Int) (h : 0 < c) :
    findSourceSink (buildGraph 4 (diamond c)) 4 = (0, 3) := by
  rw [diamond_graph]
  simp [findSourceSink, markAll, markEdges, Graph.edge, Graph.adjOf, firstIndex, List.range,
    List.range.loop, List.replicate, h]

theorem chain2_endpoints (c : Int) (h : 0 < c) :
    findSourceSink (buildGraph 2 [(0, 1, c)]) 2 = (0, 1) := by
  rw [chain2_graph]
  simp [findSourceSink, markAll, markEdges, Graph.edge, Graph.adjOf, firstIndex, List.range,
    List.range.loop, List.replicate, h]

theorem chain3_endpoints (a b : Int) (ha : 0 < a) (hb : 0 < b) :
    findSourceSink (buildGraph 3 [(0, 1, a), (1, 2, b)]) 3 = (0, 2) := by
  rw [chain3_graph]
  simp [findSourceSink, markAll, markEdges, Graph.edge, Graph.adjOf, firstIndex, List.range,
    List.range.loop, List.replicate, ha, hb]

theorem chain2_report (c : Int) (h : 0 < c) :
    outputFlow ⟨[⟨1, c, c, 1⟩, ⟨0, 0, -c, 0⟩], [[0], [1]]⟩ 2 c 0 1 =
      "Max Flow from 0 to 1: " ++ toString c ++ "\n" ++
        ("0 -> 1 | Flow: " ++ toString c ++ "\n") := by
  have e1 : "Max Flow from " ++ toString (0 : Int) ++ " to " ++ toString (1 : Int) ++ ": " =
      "Max Flow from 0 to 1: " := by decide
  have e2 : toString (0 : Nat) ++ " -> " ++ toString (1 : Nat) ++ " | Flow: " =
      "0 -> 1 | Flow: " := by decide
  have hn : ¬ (0 < -c) := by omega
  simp only [outputFlow, outputVertices, outputChain, headerLine, edgeLine, Graph.edge,
    Graph.adjOf, List.range, List.range.loop, List.getD_cons_zero, List.getD_cons_succ,
    gt_iff_lt, h, hn, if_true, if_false, e1, e2]

/-- C6 (inference failure).  For triples with end points below `V` and
`int16_t` capacities: if no vertex qualifies as source or no vertex qualifies
as sink, the run ends with exit code `1` and nothing written to the report,
whatever the fuel (no flow is computed); otherwise, with enough fuel, both end
points are inferred, `fordFulkerson` is run on them and the run ends with exit
code `0` and the non-empty report of `outputFlow`.  In particular the run
fails when every vertex has both an incoming and an outgoing edge of positive
capacity, as in the 3-cycle `0 -> 1 -> 2 -> 0` with positive capacities. -/
theorem c6_inference_failure (V : Nat) (L : List Triple) (hv : ValidTriples V L)
    (hc : CapsInt16 L) :
    (InferenceFails V L → ∀ fuel, main fuel V L = some ⟨1, ""⟩) ∧
    (¬ InferenceFails V L → ∃ N, ∀ fuel, N ≤ fuel → ∃ s t total g,
      s < V ∧ t < V ∧ IsSource L s ∧ IsSink L t ∧
      findSourceSink (buildGraph V L) V = ((s : Int), (t : Int)) ∧
      fordFulkerson fuel (buildGraph V L) V s t = some (total, g) ∧
      main fuel V L = some ⟨0, outputFlow g V total s t⟩ ∧
      outputFlow g V total s t ≠ "") ∧
    ((∀ i, i < V → HasOut L i ∧ HasIn L i) → ∀ fuel, main fuel V L = some ⟨1, ""⟩) ∧
    (∀ c1 c2 c3 : Int, 0 < c1 → 0 < c2 → 0 < c3 →
      ∀ fuel, main fuel 3 (cycle3 c1 c2 c3) = some ⟨1, ""⟩) := by
  refine ⟨main_fail hv, ?_, ?_, ?_⟩
  · intro h
    refine ⟨enoughFuel V L, ?_⟩
    intro fuel hfuel
    obtain ⟨s, t, total, g, h1, h2, h3, h4, h5, h6, h7⟩ := main_success hv hc h fuel hfuel
    exact ⟨s, t, total, g, h1, h2, h3, h4, h5, h6, h7, outputFlow_ne_empty _ _ _ _ _⟩
  · intro h
    apply main_fail hv
    left
    intro i hi hsrc
    exact hsrc.2 (h i hi).2
  · intro c1 c2 c3 h1 h2 h3
    have hv3 : ValidTriples 3 (cycle3 c1 c2 c3) := by
      intro tr htr
      simp only [cycle3, List.mem_cons, List.mem_singleton, List.not_mem_nil, or_false] at htr
      rcases htr with rfl | rfl | rfl <;> simp
    apply main_fail hv3
    left
    intro i hi hsrc
    apply hsrc.2
    unfold HasIn cycle3
    have : i = 0 ∨ i = 1 ∨ i = 2 := by omega
    rcases this with rfl | rfl | rfl
    · exact ⟨(2, 0, c3), by simp, rfl, h3⟩
    · exact ⟨(0, 1, c1), by simp, rfl, h1⟩
    · exact ⟨(1, 2, c2), by simp, rfl, h2⟩

/-- C7 (report projection).  For every graph state, vertex count, total, `src`
and `sink`, the text written by `outputFlow` is the header line
`Max Flow from <src> to <sink>: <total>` followed by exactly one line
`<u> -> <to> | Flow: <flow>` for each edge of strictly positive flow and no
line for any other edge, `u` being the vertex whose chain holds the edge, by
ascending `u` and, within one `u`, in chain order (`reportText`); on the final
state of the diamond with capacity `10` this is the five-line text shown. -/
theorem c7_report_projection :
    (∀ (g : Graph) (V : Nat) (total src sink : Int),
      outputFlow g V total src sink = reportText g V total src sink) ∧
    outputFlow
      ⟨[⟨1, 10, 10, 1⟩, ⟨0, 0, -10, 0⟩, ⟨2, 10, 10, 3⟩, ⟨0, 0, -10, 2⟩, ⟨3, 10, 10, 5⟩,
        ⟨1, 0, -10, 4⟩, ⟨3, 10, 10, 7⟩, ⟨2, 0, -10, 6⟩], [[0, 2], [1, 4], [3, 6], [5, 7]]⟩
      4 20 0 3 =
      "Max Flow from 0 to 3: 20\n0 -> 1 | Flow: 10\n0 -> 2 | Flow: 10\n1 -> 3 | Flow: 10\n2 -> 3 | Flow: 10\n" :=
  ⟨outputFlow_eq_reportText, by decide⟩

/-- C8 (diamond graph).  For `V = 4` and the edges `S->A`, `S->B`, `A->T`,
`B->T` added in that order with a common capacity `c` in `[1, 32767]`
(`c = 10` in the specification), `findSourceSink` picks `S = 0` as source and
`T = 3` as sink, `fordFulkerson` returns `2 c` from three units of fuel on, and
in the graph it leaves each of the four direct edges has capacity `c` and flow
equal to its capacity. -/
theorem c8_diamond (c : Int) (h1 : 1 ≤ c) (h2 : c ≤ 32767) :
    findSourceSink (buildGraph 4 (diamond c)) 4 = (0, 3) ∧
    ∀ fuel, 3 ≤ fuel → ∃ g,
      fordFulkerson fuel (buildGraph 4 (diamond c)) 4 0 3 = some (2 * c, g) ∧
      ∀ i, i < 4 → (g.edge (2 * i)).capacity = c ∧
        (g.edge (2 * i)).flow = (g.edge (2 * i)).capacity := by
  refine ⟨diamond_endpoints c (by omega), ?_⟩
  intro fuel hfuel
  refine ⟨_, fordFulkerson_mono (diamond_run c h1 h2) hfuel, ?_⟩
  intro i hi
  have : i = 0 ∨ i = 1 ∨ i = 2 ∨ i = 3 := by omega
  rcases this with rfl | rfl | rfl | rfl <;> simp [Graph.edge]

/-- C9 (chain graphs).  For every capacity `c` in `[1, 32767]` the input
`V = 2` with the single edge `(0, 1, c)` yields source `0`, sink `1`, total
flow `c`, and a run ending with exit code `0` whose report is the header line
followed by exactly the line `0 -> 1 | Flow: c`; and for all `a`, `b` in
`[1, 32767]` the input `V = 3` with the edges `(0, 1, a)`, `(1, 2, b)` yields
source `0`, sink `2` and total flow `min a b`. -/
theorem c9_chain (c a b : Int) (hc1 : 1 ≤ c) (hc2 : c ≤ 32767) (ha1 : 1 ≤ a)
    (ha2 : a ≤ 32767) (hb1 : 1 ≤ b) (hb2 : b ≤ 32767) :
    (findSourceSink (buildGraph 2 [(0, 1, c)]) 2 = (0, 1) ∧
      ∀ fuel, 2 ≤ fuel →
        (∃ g, fordFulkerson fuel (buildGraph 2 [(0, 1, c)]) 2 0 1 = some (c, g)) ∧
        main fuel 2 [(0, 1, c)] = some ⟨0, "Max Flow from 0 to 1: " ++ toString c ++ "\n" ++
          ("0 -> 1 | Flow: " ++ toString c ++ "\n")⟩) ∧
    (findSourceSink (buildGraph 3 [(0, 1, a), (1, 2, b)]) 3 = (0, 2) ∧
      ∀ fuel, 3 ≤ fuel → ∃ g,
        fordFulkerson fuel (buildGraph 3 [(0, 1, a), (1, 2, b)]) 3 0 2 = some (min a b, g)) := by
  refine ⟨⟨chain2_endpoints c (by omega), ?_⟩, chain3_endpoints a b (by omega) (by omega), ?_⟩
  · intro fuel hfuel
    have hrun := fordFulkerson_mono (chain2_run c hc1 hc2) hfuel
    refine ⟨⟨_, hrun⟩, ?_⟩
    unfold main
    simp only [chain2_endpoints c (by omega)]
    rw [if_neg (by decide)]
    have e0 : (0 : Int).toNat = 0 := rfl
    have e1 : (1 : Int).toNat = 1 := rfl
    rw [e0, e1, hrun]
    simp only
    rw [chain2_report c (by omega)]
  · intro fuel hfuel
    obtain ⟨g, hg⟩ := chain3_run a b ha1 ha2 hb1 hb2
    exact ⟨g, fordFulkerson_mono hg hfuel⟩

/-- C10 (insertion-order independence of the total).  For every `V`, every
list `L` of triples with end points below `V` (capacities being `int16_t`
values) and every permutation `L'` of `L`, the graphs built from `L` and from
`L'` give the same result of `findSourceSink` (the same source and sink, or
the same `-1`), and for every source `s < V` and sink `t ≠ s`, with enough
fuel, `fordFulkerson` returns the same value on both (the flow on the
individual edges may differ). -/
theorem c10_insertion_order (V : Nat) (L L' : List Triple) (hp : L.Perm L')
    (hv : ValidTriples V L) (hc : CapsInt16 L) :
    findSourceSink (buildGraph V L) V = findSourceSink (buildGraph V L') V ∧
    ∀ s t, s < V → s ≠ t → ∃ N, ∀ fuel, N ≤ fuel → ∃ total g g',
      fordFulkerson fuel (buildGraph V L) V s t = some (total, g) ∧
      fordFulkerson fuel (buildGraph V L') V s t = some (total, g') := by
  refine ⟨findSourceSink_perm hp hv, ?_⟩
  intro s t hs hst
  refine ⟨max (enoughFuel V L) (enoughFuel V L'), ?_⟩
  intro fuel hfuel
  obtain ⟨st, b, _, hff, hfin, _⟩ := fordFulkerson_spec hv hc hs hst fuel
    (le_trans (le_max_left _ _) hfuel)
  obtain ⟨st', b', _, hff', hfin', _⟩ := fordFulkerson_spec (validTriples_perm hp hv)
    (capsInt16_perm hp hc) hs hst fuel (le_trans (le_max_right _ _) hfuel)
  refine ⟨st.maxFlow, st.g, st'.g, hff, ?_⟩
  rw [value_perm hp hv hs hfin hfin']
  exact hff'

theorem c1_max_flow_eq_min_cut_witness :
    (ValidTriples 4 (diamond 10) ∧ (∀ tr ∈ diamond 10, 0 ≤ tr.2.2 ∧ tr.2.2 ≤ 32767) ∧
      0 < 4 ∧ 0 ≠ 3 ∧
      ∃ S : Nat → Bool, S 0 = true ∧ S 3 = false ∧ cutCapacity (diamond 10) S ≤ INT_MAX) ∧
    ∃ N, ∀ fuel, N ≤ fuel → ∃ total g,
      fordFulkerson fuel (buildGraph 4 (diamond 10)) 4 0 3 = some (total, g) ∧
      (∃ S : Nat → Bool, S 0 = true ∧ S 3 = false ∧ cutCapacity (diamond 10) S = total) ∧
      ∀ S : Nat → Bool, S 0 = true → S 3 = false → total ≤ cutCapacity (diamond 10) S :=
  ⟨⟨by decide, by decide, by decide, by decide, fun v => v == 0, by decide, by decide, by decide⟩,
    c1_max_flow_eq_min_cut 4 (diamond 10) 0 3 (by decide) (by decide) (by decide) (by decide)
      ⟨fun v => v == 0, by decide, by decide, by decide⟩⟩

theorem c2_capacity_and_skew_invariant_witness :
    (ValidTriples 2 trivialInput ∧ (∀ tr ∈ trivialInput, 0 ≤ tr.2.2 ∧ tr.2.2 ≤ 32767) ∧
      0 < 2 ∧ Reachable 3 2 0 1 (buildGraph 2 trivialInput) trivialAfter) ∧
    (trivialAfter.g.edges.length = 2 * trivialInput.length ∧
    ∀ i, i < trivialInput.length →
      ((trivialAfter.g.edge (2 * i)).dst = (tri trivialInput i).2.1 ∧
        (trivialAfter.g.edge (2 * i)).capacity = (tri trivialInput i).2.2 ∧
        0 ≤ (trivialAfter.g.edge (2 * i)).flow ∧
        (trivialAfter.g.edge (2 * i)).flow ≤ (trivialAfter.g.edge (2 * i)).capacity) ∧
      ((trivialAfter.g.edge (2 * i)).reverse = 2 * i + 1 ∧
        (trivialAfter.g.edge (2 * i + 1)).reverse = 2 * i ∧
        (trivialAfter.g.edge (2 * i + 1)).dst = (tri trivialInput i).1 ∧
        (trivialAfter.g.edge (2 * i + 1)).capacity = 0 ∧
        (trivialAfter.g.edge (2 * i + 1)).flow =
          -(trivialAfter.g.edge (trivialAfter.g.edge (2 * i + 1)).reverse).flow)) :=
  ⟨⟨by decide, by decide, by decide, Reachable.step Reachable.init (by decide)⟩,
    c2_capacity_and_skew_invariant 2 trivialInput 0 1 3 trivialAfter (by decide) (by decide)
      (by decide) (Reachable.step Reachable.init (by decide))⟩

theorem c3_conservation_witness :
    (ValidTriples 4 (diamond 10) ∧ CapsInt16 (diamond 10) ∧ 0 < 4 ∧ 0 ≠ 3) ∧
    ∃ N, ∀ fuel, N ≤ fuel → ∃ total g,
      fordFulkerson fuel (buildGraph 4 (diamond 10)) 4 0 3 = some (total, g) ∧
      ∀ v, v < 4 → v ≠ 0 → v ≠ 3 →
        flowLeaving (diamond 10) g v = flowEntering (diamond 10) g v ∧ adjFlow g v = 0 :=
  ⟨⟨by decide, by decide, by decide, by decide⟩,
    c3_conservation 4 (diamond 10) 0 3 (by decide) (by decide) (by decide) (by decide)⟩

theorem c4_termination_witness :
    (ValidTriples 4 (diamond 10) ∧ CapsInt16 (diamond 10) ∧ 0 < 4 ∧ 0 ≠ 3) ∧
    ∃ N, ∀ fuel, N ≤ fuel →
      (∃ total g, fordFulkerson fuel (buildGraph 4 (diamond 10)) 4 0 3 = some (total, g) ∧
        ∃ st0 b, Reachable fuel 4 0 3 (buildGraph 4 (diamond 10)) st0 ∧ st0.g = g ∧
          bfs fuel st0.g 0 3 st0.path (List.replicate 4 false) = some (false, b)) ∧
      ∀ st, Reachable fuel 4 0 3 (buildGraph 4 (diamond 10)) st →
        ∃ found b, bfs fuel st.g 0 3 st.path (List.replicate 4 false) = some (found, b) ∧
          (found = true →
            (∃ flow, bottleneck st.g b.path 0 fuel 3 INT_MAX = some flow) ∧
            ∀ flow, ∃ g', augment b.path 0 flow fuel 3 st.g = some g') :=
  ⟨⟨by decide, by decide, by decide, by decide⟩,
    c4_termination 4 (diamond 10) 0 3 (by decide) (by decide) (by decide) (by decide)⟩

theorem c5_find_source_sink_witness :
    ValidTriples 4 (diamond 10) ∧
    (LeastOrMinusOne
      (fun i => PotentialSource (buildGraph 4 (diamond 10)) i ∧
        ¬ PotentialSink (buildGraph 4 (diamond 10)) 4 i) 4
      (findSourceSink (buildGraph 4 (diamond 10)) 4).1 ∧
    LeastOrMinusOne
      (fun i => PotentialSink (buildGraph 4 (diamond 10)) 4 i ∧
        ¬ PotentialSource (buildGraph 4 (diamond 10)) i) 4
      (findSourceSink (buildGraph 4 (diamond 10)) 4).2 ∧
    ∀ i, i < 4 → (PotentialSource (buildGraph 4 (diamond 10)) i ↔ HasOut (diamond 10) i) ∧
      (PotentialSink (buildGraph 4 (diamond 10)) 4 i ↔ HasIn (diamond 10) i)) :=
  ⟨by decide, c5_find_source_sink 4 (diamond 10) (by decide)⟩

theorem c6_inference_failure_witness :
    (ValidTriples 3 (cycle3 1 1 1) ∧ CapsInt16 (cycle3 1 1 1)) ∧
    ∀ fuel, main fuel 3 (cycle3 1 1 1) = some ⟨1, ""⟩ :=
  ⟨⟨by decide, by decide⟩,
    (c6_inference_failure 3 (cycle3 1 1 1) (by decide) (by decide)).2.2.2 1 1 1
      (by decide) (by decide) (by decide)⟩

theorem c8_diamond_witness :
    ((1 : Int) ≤ 10 ∧ (10 : Int) ≤ 32767) ∧
    (findSourceSink (buildGraph 4 (diamond 10)) 4 = (0, 3) ∧
    ∀ fuel, 3 ≤ fuel → ∃ g,
      fordFulkerson fuel (buildGraph 4 (diamond 10)) 4 0 3 = some (2 * 10, g) ∧
      ∀ i, i < 4 → (g.edge (2 * i)).capacity = 10 ∧
        (g.edge (2 * i)).flow = (g.edge (2 * i)).capacity) :=
  ⟨⟨by decide, by decide⟩, c8_diamond 10 (by decide) (by decide)⟩

theorem c9_chain_witness :
    ((1 : Int) ≤ 5 ∧ (5 : Int) ≤ 32767 ∧ (1 : Int) ≤ 10 ∧ (10 : Int) ≤ 32767 ∧
      (1 : Int) ≤ 1 ∧ (1 : Int) ≤ 32767) ∧
    ((findSourceSink (buildGraph 2 [(0, 1, 5)]) 2 = (0, 1) ∧
      ∀ fuel, 2 ≤ fuel →
        (∃ g, fordFulkerson fuel (buildGraph 2 [(0, 1, 5)]) 2 0 1 = some (5, g)) ∧
        main fuel 2 [(0, 1, 5)] = some ⟨0, "Max Flow from 0 to 1: " ++ toString (5 : Int) ++ "\n" ++
          ("0 -> 1 | Flow: " ++ toString (5 : Int) ++ "\n")⟩) ∧
    (findSourceSink (buildGraph 3 [(0, 1, 10), (1, 2, 1)]) 3 = (0, 2) ∧
      ∀ fuel, 3 ≤ fuel → ∃ g,
        fordFulkerson fuel (buildGraph 3 [(0, 1, 10), (1, 2, 1)]) 3 0 2 =
          some (min 10 1, g))) :=
  ⟨⟨by decide, by decide, by decide, by decide, by decide, by decide⟩,
    c9_chain 5 10 1 (by decide) (by decide) (by decide) (by decide) (by decide) (by decide)⟩

theorem c10_insertion_order_witness :
    (bottleneckInput.Perm bottleneckInput.reverse ∧ ValidTriples 3 bottleneckInput ∧
      CapsInt16 bottleneckInput) ∧
    (findSourceSink (buildGraph 3 bottleneckInput) 3 =
      findSourceSink (buildGraph 3 bottleneckInput.reverse) 3 ∧
    ∀ s t, s < 3 → s ≠ t → ∃ N, ∀ fuel, N ≤ fuel → ∃ total g g',
      fordFulkerson fuel (buildGraph 3 bottleneckInput) 3 s t = some (total, g) ∧
      fordFulkerson fuel (buildGraph 3 bottleneckInput.reverse) 3 s t = some (total, g')) :=
  ⟨⟨(List.reverse_perm bottleneckInput).symm, by decide, by decide⟩,
    c10_insertion_order 3 bottleneckInput bottleneckInput.reverse
      (List.reverse_perm bottleneckInput).symm (by decide) (by decide)⟩

theorem Built.of_mem_adjOf {V : Nat} {L : List Triple} {g : Graph} (hb : Built V L g)
    {u e : Nat} (h : e ∈ g.adjOf u) : u < V ∧ e < 2 * L.length ∧ ownerOf L e = u := by
  by_cases hu : u < V
  · exact ⟨hu, (hb.mem_adjOf hu e).mp h⟩
  · exfalso
    unfold Graph.adjOf at h
    rw [List.getD_eq_default _ _ (by rw [hb.adjLen]; omega)] at h
    simp at h

/-- A set of vertices without residual edge leaving it keeps every residual
path that starts inside it. -/
theorem ResPath.stays {V : Nat} {L : List Triple} {g : Graph} (hb : Built V L g)
    (S : Nat → Bool)
    (hcl : ∀ e, e < 2 * L.length → 0 < g.residual e → S (ownerOf L e) = true →
      S (g.edge e).dst = true)
    {u v : Nat} {es : List Nat} (h : ResPath g u es v) : S u = true → S v = true := by
  induction h with
  | nil u => exact id
  | cons hmem hr _ ih =>
    intro hu
    obtain ⟨_, he, ho⟩ := hb.of_mem_adjOf hmem
    exact ih (hcl _ he hr (by rw [ho]; exact hu))

theorem FFFinal.no_path {V : Nat} {L : List Triple} {s t : Nat} {st : FFState} {b : BfsState}
    (h : FFFinal V L s t st b) : ¬ ∃ es, ResPath st.g s es t := by
  rintro ⟨es, hp⟩
  have := hp.stays h.inv.built (fun v => b.visited.getD v false) h.closed h.search.visS
  simp only at this
  rw [h.search.notT] at this
  exact Bool.false_ne_true this

/-- The net flows of all vertices cancel. -/
theorem netOut_sum_zero {V : Nat} {L : List Triple} (hv : ValidTriples V L) (g : Graph) :
    ∑ v in Finset.range V, netOut L g v = 0 := by
  have h := netSet_eq_sum hv g (fun _ => true)
  simp only [if_true, one_mul] at h
  rw [← h]
  unfold netSet
  apply Finset.sum_eq_zero
  intro i _
  simp

theorem netOut_sink {V : Nat} {L : List Triple} (hv : ValidTriples V L) (g : Graph)
    {s t : Nat} (hs : s < V) (ht : t < V) (hst : s ≠ t)
    (hcons : ∀ v, v ≠ s → v ≠ t → netOut L g v = 0) :
    netOut L g t = -netOut L g s := by
  have h := netOut_sum_zero hv g
  rw [Finset.sum_eq_add s t hst (fun c _ hc => hcons c hc.1 hc.2)
    (fun h' => absurd (Finset.mem_range.mpr hs) h')
    (fun h' => absurd (Finset.mem_range.mpr ht) h')] at h
  omega

theorem FFFinal.netOut_nonneg {V : Nat} {L : List Triple} {s t : Nat} {st : FFState}
    {b : BfsState} (h : FFFinal V L s t st b) (hv : ValidTriples V L) (hs : s < V) :
    0 ≤ netOut L st.g s := by
  rw [(h.minCut hv hs).1]
  exact cutCapacityPos_nonneg _ _

/-- C13 (postcondition and frame of `addEdge`).  For every graph state with `V`
chains, all `from, to < V` (equal or not) and every capacity, `addEdge` leaves
every existing edge at its index with its fields and pairing, allocates two new
edges after them, the direct one with the given destination and capacity and
flow `0`, the reverse one with destination `from`, capacity `0` and flow `0`,
each the `reverse` of the other; it appends the direct edge at the end of the
chain of `from` and then the reverse edge at the end of the chain of `to`, and
leaves all other chains unchanged; so adding the same triple again yields two
more edges, distinct from the earlier ones. -/
theorem c13_addEdge_frame (g : Graph) (V a b : Nat) (c : Int) (hlen : g.adj.length = V)
    (ha : a < V) (hb : b < V) :
    (addEdge g a b c).edges =
      g.edges ++ [⟨b, c, 0, g.edges.length + 1⟩, ⟨a, 0, 0, g.edges.length⟩] ∧
    (∀ e, e < g.edges.length → (addEdge g a b c).edge e = g.edge e) ∧
    (addEdge g a b c).edge g.edges.length = ⟨b, c, 0, g.edges.length + 1⟩ ∧
    (addEdge g a b c).edge (g.edges.length + 1) = ⟨a, 0, 0, g.edges.length⟩ ∧
    (addEdge g a b c).edge ((addEdge g a b c).edge g.edges.length).reverse =
      ⟨a, 0, 0, g.edges.length⟩ ∧
    (addEdge g a b c).edge ((addEdge g a b c).edge (g.edges.length + 1)).reverse =
      ⟨b, c, 0, g.edges.length + 1⟩ ∧
    (addEdge g a b c).adj.length = V ∧
    (a ≠ b → (addEdge g a b c).adjOf a = g.adjOf a ++ [g.edges.length] ∧
      (addEdge g a b c).adjOf b = g.adjOf b ++ [g.edges.length + 1]) ∧
    (a = b → (addEdge g a b c).adjOf a = g.adjOf a ++ [g.edges.length, g.edges.length + 1]) ∧
    (∀ u, u ≠ a → u ≠ b → (addEdge g a b c).adjOf u = g.adjOf u) ∧
    (∀ c' : Int, (addEdge (addEdge g a b c) a b c').edges.length = g.edges.length + 4 ∧
      (addEdge (addEdge g a b c) a b c').edge g.edges.length = ⟨b, c, 0, g.edges.length + 1⟩ ∧
      (addEdge (addEdge g a b c) a b c').edge (g.edges.length + 2) =
        ⟨b, c', 0, g.edges.length + 3⟩) := by
  have hadj : ∀ u, (addEdge g a b c).adjOf u =
      if u = b then (if b = a then g.adjOf a ++ [g.edges.length] else g.adjOf b) ++
        [g.edges.length + 1]
      else if u = a then g.adjOf a ++ [g.edges.length] else g.adjOf u := by
    intro u
    unfold Graph.adjOf addEdge
    simp only
    rw [getD_appendAdj _ _ _ _ (by rw [length_appendAdj, hlen]; exact hb),
      getD_appendAdj _ _ _ _ (by rw [hlen]; exact ha),
      getD_appendAdj _ _ _ _ (by rw [hlen]; exact ha)]
  have hl : (addEdge g a b c).edges.length = g.edges.length + 2 := by simp [addEdge]
  refine ⟨rfl, fun e he => edge_addEdge_old g a b c e he, edge_addEdge_direct g a b c,
    edge_addEdge_reverse g a b c, ?_, ?_, ?_, ?_, ?_, ?_, ?_⟩
  · rw [edge_addEdge_direct]; exact edge_addEdge_reverse g a b c
  · rw [edge_addEdge_reverse]; exact edge_addEdge_direct g a b c
  · simp [addEdge, length_appendAdj, hlen]
  · intro hab
    constructor
    · rw [hadj, if_neg hab, if_pos rfl]
    · rw [hadj, if_pos rfl, if_neg (Ne.symm hab)]
  · intro hab
    subst hab
    rw [hadj, if_pos rfl, if_pos rfl]
    simp
  · intro u hua hub
    rw [hadj, if_neg hub, if_neg hua]
  · intro c'
    refine ⟨by simp [addEdge], ?_, ?_⟩
    · rw [edge_addEdge_old _ _ _ _ _ (by rw [hl]; omega)]
      exact edge_addEdge_direct g a b c
    · have := edge_addEdge_direct (addEdge g a b c) a b c'
      rw [hl] at this
      exact this

theorem c13_addEdge_frame_witness :
    ((emptyGraph 2).adj.length = 2 ∧ 0 < 2 ∧ 1 < 2) ∧
    (addEdge (emptyGraph 2) 0 1 5).edges =
      (emptyGraph 2).edges ++ [⟨1, 5, 0, (emptyGraph 2).edges.length + 1⟩,
        ⟨0, 0, 0, (emptyGraph 2).edges.length⟩] :=
  ⟨⟨by decide, by decide, by decide⟩,
    (c13_addEdge_frame (emptyGraph 2) 2 0 1 5 (by decide) (by decide) (by decide)).1⟩

/-- The pieces of an iteration that leaves the loop. -/
theorem ffStep_false {fuel V s t : Nat} {st st' : FFState}
    (h : ffStep fuel V s t st = some (false, st')) :
    st'.g = st.g ∧ st'.maxFlow = st.maxFlow ∧
      ∃ b, bfs fuel st.g s t st.path (List.replicate V false) = some (false, b) := by
  unfold ffStep at h
  rcases hb : bfs fuel st.g s t st.path (List.replicate V false) with _ | ⟨found, b⟩
  · rw [hb] at h; simp at h
  · rw [hb] at h
    cases found with
    | false =>
      simp only [Option.some.injEq, Prod.mk.injEq, true_and] at h
      subst h
      exact ⟨rfl, rfl, b, rfl⟩
    | true =>
      simp only at h
      rcases hbn : bottleneck st.g b.path s fuel t INT_MAX with _ | bn
      · rw [hbn] at h; simp at h
      · rw [hbn] at h
        simp only at h
        rcases ha : augment b.path s bn fuel t st.g with _ | g'
        · rw [ha] at h; simp at h
        · rw [ha] at h; simp at h

/-- C16 (no augmenting path remains).  On the graph built from triples with end
points below `V` (capacities being `int16_t` values), for `s < V` and `s ≠ t`,
with enough fuel `fordFulkerson` returns a total and a graph `g`; `g` is the
graph built from the input up to its `flow` fields (same arena, chains,
destinations, capacities and pairing), its flows respect the capacities, it
is the graph of the state, reached from the built graph by the augmentations
of the run, in which the loop was entered for the last time and `bfs` answered
`false`, the total is the running total of that state, and in `g` there is
no path from `s` to `t` all of whose edges, direct or reverse, have
`capacity - flow > 0`. -/
theorem c16_no_augmenting_path (V : Nat) (L : List Triple) (s t : Nat)
    (hv : ValidTriples V L) (hc : CapsInt16 L) (hs : s < V) (hst : s ≠ t) :
    ∃ N, ∀ fuel, N ≤ fuel → ∃ total g,
      fordFulkerson fuel (buildGraph V L) V s t = some (total, g) ∧
      SameShape (buildGraph V L) g ∧ FlowOK L g ∧
      (∃ st0 b, Reachable fuel V s t (buildGraph V L) st0 ∧ st0.g = g ∧ st0.maxFlow = total ∧
        bfs fuel g s t st0.path (List.replicate V false) = some (false, b)) ∧
      ¬ ∃ es, ResPath g s es t := by
  refine ⟨enoughFuel V L, ?_⟩
  intro fuel hfuel
  obtain ⟨st, b, hloop, hff, hfin, hsh⟩ := fordFulkerson_spec hv hc hs hst fuel hfuel
  obtain ⟨st0, hr0, hstep0⟩ := ffLoop_reach fuel _ _ Reachable.init hloop
  obtain ⟨e1, e2, b0, hb0⟩ := ffStep_false hstep0
  refine ⟨st.maxFlow, st.g, hff, hsh, hfin.inv.flow, ⟨st0, b0, hr0, e1.symm, e2.symm, ?_⟩,
    hfin.no_path⟩
  rw [e1]; exact hb0

theorem c16_no_augmenting_path_witness :
    (ValidTriples 4 (diamond 10) ∧ CapsInt16 (diamond 10) ∧ 0 < 4 ∧ 0 ≠ 3) ∧
    ∃ N, ∀ fuel, N ≤ fuel → ∃ total g,
      fordFulkerson fuel (buildGraph 4 (diamond 10)) 4 0 3 = some (total, g) ∧
      SameShape (buildGraph 4 (diamond 10)) g ∧ FlowOK (diamond 10) g ∧
      (∃ st0 b, Reachable fuel 4 0 3 (buildGraph 4 (diamond 10)) st0 ∧ st0.g = g ∧
        st0.maxFlow = total ∧
        bfs fuel g 0 3 st0.path (List.replicate 4 false) = some (false, b)) ∧
      ¬ ∃ es, ResPath g 0 es 3 :=
  ⟨⟨by decide, by decide, by decide, by decide⟩,
    c16_no_augmenting_path 4 (diamond 10) 0 3 (by decide) (by decide) (by decide) (by decide)⟩

/-- C17 (inferred end points are valid and distinct).  On the graph built from
triples with end points below `V`, if `findSourceSink` yields `src ≠ -1` and
`sink ≠ -1` then `0 ≤ src < V`, `0 ≤ sink < V` and `src ≠ sink`; so the indices
`main` hands to `fordFulkerson` (and so to `bfs`) are below `V` and distinct. -/
theorem c17_endpoints_valid (V : Nat) (L : List Triple) (hv : ValidTriples V L)
    (h1 : (findSourceSink (buildGraph V L) V).1 ≠ -1)
    (h2 : (findSourceSink (buildGraph V L) V).2 ≠ -1) :
    0 ≤ (findSourceSink (buildGraph V L) V).1 ∧ (findSourceSink (buildGraph V L) V).1 < V ∧
    0 ≤ (findSourceSink (buildGraph V L) V).2 ∧ (findSourceSink (buildGraph V L) V).2 < V ∧
    (findSourceSink (buildGraph V L) V).1 ≠ (findSourceSink (buildGraph V L) V).2 ∧
    (findSourceSink (buildGraph V L) V).1.toNat < V ∧
    (findSourceSink (buildGraph V L) V).2.toNat < V ∧
    (findSourceSink (buildGraph V L) V).1.toNat ≠ (findSourceSink (buildGraph V L) V).2.toNat := by
  obtain ⟨s, t, hs, ht, hst, e1, e2, _, _⟩ := findSourceSink_valid hv h1 h2
  rw [e1, e2]
  simp only [Int.toNat_ofNat]
  refine ⟨by omega, by omega, by omega, by omega, ?_, hs, ht, hst⟩
  intro h; exact hst (by omega)

theorem c17_endpoints_valid_witness :
    (ValidTriples 4 (diamond 10) ∧ (findSourceSink (buildGraph 4 (diamond 10)) 4).1 ≠ -1 ∧
      (findSourceSink (buildGraph 4 (diamond 10)) 4).2 ≠ -1) ∧
    (findSourceSink (buildGraph 4 (diamond 10)) 4).1 ≠
      (findSourceSink (buildGraph 4 (diamond 10)) 4).2 :=
  ⟨⟨by decide, by decide, by decide⟩,
    (c17_endpoints_valid 4 (diamond 10) (by decide) (by decide) (by decide)).2.2.2.2.1⟩

theorem parallel_valid (n : Nat) (c : Int) : ValidTriples 2 (parallelInput n c) := by
  intro tr htr
  rw [List.eq_of_mem_replicate htr]
  exact ⟨Nat.zero_lt_two, Nat.one_lt_two⟩

theorem parallel_caps (n : Nat) (c : Int) (h1 : -32768 ≤ c) (h2 : c ≤ 32767) :
    CapsInt16 (parallelInput n c) := by
  intro tr htr
  rw [List.eq_of_mem_replicate htr]
  exact ⟨h1, h2⟩

theorem parallel_cut (n : Nat) (c : Int) (hc : 0 ≤ c) (S : Nat → Bool) (h0 : S 0 = true)
    (h1 : S 1 = false) : cutCapacityPos (parallelInput n c) S = n * c := by
  unfold cutCapacityPos parallelInput
  rw [List.map_replicate, List.sum_replicate]
  simp [h0, h1, max_eq_left hc]

/-- The run on `n` parallel edges of capacity `c ≥ 0`: it returns, the net flow
out of the source is `n * c`, and the value returned is its 32-bit reduction. -/
theorem parallel_run (n : Nat) (c : Int) (h1 : 0 ≤ c) (h2 : c ≤ 32767) (fuel : Nat)
    (hfuel : enoughFuel 2 (parallelInput n c) ≤ fuel) :
    ∃ st st0 : FFState, fordFulkerson fuel (buildGraph 2 (parallelInput n c)) 2 0 1 =
        some (st.maxFlow, st.g) ∧
      Reachable fuel 2 0 1 (buildGraph 2 (parallelInput n c)) st0 ∧
      st0.maxFlow = st.maxFlow ∧
      st.maxFlow = wrap32 (n * c) ∧ adjFlow st.g 0 = n * c := by
  obtain ⟨st, b, hloop, hff, hfin, _⟩ := fordFulkerson_spec (parallel_valid n c)
    (parallel_caps n c (by omega) h2) (by decide : 0 < 2) (by decide : 0 ≠ 1) fuel hfuel
  obtain ⟨st0, hr0, hstep0⟩ := ffLoop_reach fuel _ _ Reachable.init hloop
  have hnet : netOut (parallelInput n c) st.g 0 = n * c := by
    rw [(hfin.minCut (parallel_valid n c) (by decide)).1]
    exact parallel_cut n c h1 _ hfin.search.visS hfin.search.notT
  refine ⟨st, st0, hff, hr0, ?_, ?_, ?_⟩
  · unfold ffStep at hstep0
    rcases hb : bfs fuel st0.g 0 1 st0.path (List.replicate 2 false) with _ | ⟨found, b'⟩
    · rw [hb] at hstep0; simp at hstep0
    · rw [hb] at hstep0
      cases found with
      | false =>
        simp only [Option.some.injEq, Prod.mk.injEq, true_and] at hstep0
        rw [← hstep0]
      | true =>
        simp only at hstep0
        rcases hbn : bottleneck st0.g b'.path 0 fuel 1 INT_MAX with _ | bn
        · rw [hbn] at hstep0; simp at hstep0
        · rw [hbn] at hstep0
          simp only at hstep0
          rcases ha : augment b'.path 0 bn fuel 1 st0.g with _ | g'
          · rw [ha] at hstep0; simp at hstep0
          · rw [ha] at hstep0; simp at hstep0
  · rw [hfin.inv.total, hnet]
  · rw [adjFlow_eq_netOut hfin.inv.built hfin.inv.flow (by decide : 0 < 2), hnet]

/-- C18, as stated, fails on the input of 65539 parallel edges `0 -> 1` of
capacity 32767: the flow fields of the chain of the source sum to
`2147516413`, which is above `INT_MAX`, and the value returned is its 32-bit
reduction `-2147450883`. -/
theorem c18_counterexample :
    ∃ N, ∀ fuel, N ≤ fuel → ∃ total g,
      fordFulkerson fuel (buildGraph 2 (parallelInput 65539 32767)) 2 0 1 = some (total, g) ∧
      adjFlow g 0 = 2147516413 ∧ total = -2147450883 ∧ total ≠ adjFlow g 0 := by
  refine ⟨enoughFuel 2 (parallelInput 65539 32767), ?_⟩
  intro fuel hfuel
  obtain ⟨st, _, hff, _, _, htot, hadj⟩ :=
    parallel_run 65539 32767 (by decide) (by decide) fuel hfuel
  have h1 : ((65539 : Nat) : Int) * 32767 = 2147516413 := by norm_num
  rw [h1] at htot hadj
  have h2 : wrap32 2147516413 = -2147450883 := by unfold wrap32; norm_num
  rw [h2] at htot
  refine ⟨st.maxFlow, st.g, hff, hadj, htot, ?_⟩
  rw [htot, hadj]
  norm_num

/-- C18 (amended).  On the graph built from triples with end points below `V`
and `int16_t` capacities, for `s, t < V` with `s ≠ t`, with enough fuel
`fordFulkerson` returns; in the final state the `flow` fields of the chain of
`s` sum to the flow on direct edges leaving `s` minus the flow on direct edges
entering `s`, which is also the flow on direct edges entering `t` minus the
flow on direct edges leaving `t`; the value returned is the 32-bit reduction
of that sum, and equals it whenever the positive capacities of the input edges
leaving `s` sum to at most `INT_MAX`. -/
theorem c18_total_is_net_flow (V : Nat) (L : List Triple) (s t : Nat)
    (hv : ValidTriples V L) (hc : CapsInt16 L) (hs : s < V) (ht : t < V) (hst : s ≠ t) :
    ∃ N, ∀ fuel, N ≤ fuel → ∃ total g,
      fordFulkerson fuel (buildGraph V L) V s t = some (total, g) ∧
      adjFlow g s = flowLeaving L g s - flowEntering L g s ∧
      adjFlow g s = flowEntering L g t - flowLeaving L g t ∧
      total = wrap32 (adjFlow g s) ∧
      (outCapacity L s ≤ INT_MAX → total = adjFlow g s) := by
  refine ⟨enoughFuel V L, ?_⟩
  intro fuel hfuel
  obtain ⟨st, b, _, hff, hfin, _⟩ := fordFulkerson_spec hv hc hs hst fuel hfuel
  have hadj := adjFlow_eq_netOut hfin.inv.built hfin.inv.flow hs
  have hsink := netOut_sink hv st.g hs ht hst hfin.inv.cons
  refine ⟨st.maxFlow, st.g, hff, ?_, ?_, ?_, ?_⟩
  · rw [hadj, netOut_eq_sub]
  · rw [hadj]
    rw [netOut_eq_sub L st.g t] at hsink
    omega
  · rw [hadj]; exact hfin.inv.total
  · intro hout
    rw [hadj, hfin.inv.total]
    apply wrap32_id
    · have := hfin.netOut_nonneg hv hs; omega
    · have := netOut_le_outCapacity hfin.inv.flow s
      unfold INT_MAX at hout; omega

theorem c18_total_is_net_flow_witness :
    (ValidTriples 4 (diamond 10) ∧ CapsInt16 (diamond 10) ∧ 0 < 4 ∧ 3 < 4 ∧ 0 ≠ 3) ∧
    ∃ N, ∀ fuel, N ≤ fuel → ∃ total g,
      fordFulkerson fuel (buildGraph 4 (diamond 10)) 4 0 3 = some (total, g) ∧
      adjFlow g 0 = flowLeaving (diamond 10) g 0 - flowEntering (diamond 10) g 0 ∧
      adjFlow g 0 = flowEntering (diamond 10) g 3 - flowLeaving (diamond 10) g 3 ∧
      total = wrap32 (adjFlow g 0) ∧
      (outCapacity (diamond 10) 0 ≤ INT_MAX → total = adjFlow g 0) :=
  ⟨⟨by decide, by decide, by decide, by decide, by decide⟩,
    c18_total_is_net_flow 4 (diamond 10) 0 3 (by decide) (by decide) (by decide) (by decide)
      (by decide)⟩

theorem AugReach.prepend {path : List (Option Nat)} {src : Nat} {flow : Int} {v0 : Nat}
    {g0 : Graph} {e0 : Nat} (h0 : v0 ≠ src) (hp : path.getD v0 none = some e0) {v : Nat}
    {g : Graph}
    (h : AugReach path src flow ((pushEdge g0 e0 flow).origin e0) (pushEdge g0 e0 flow) v g) :
    AugReach path src flow v0 g0 v g := by
  induction h with
  | start => exact AugReach.next AugReach.start h0 hp
  | next _ hv he ih => exact AugReach.next ih hv he

/-- The graph returned by `augment` is the last configuration of the walk. -/
theorem augment_reach (path : List (Option Nat)) (src : Nat) (flow : Int) :
    ∀ (fuel v : Nat) (g g' : Graph), augment path src flow fuel v g = some g' →
      AugReach path src flow v g src g' := by
  intro fuel
  induction fuel with
  | zero =>
    intro v g g' h
    unfold augment at h
    by_cases hv : v = src
    · rw [if_pos hv] at h
      simp only [Option.some.injEq] at h
      subst h; subst hv
      exact AugReach.start
    · rw [if_neg hv] at h; simp at h
  | succ fuel ih =>
    intro v g g' h
    unfold augment at h
    by_cases hv : v = src
    · rw [if_pos hv] at h
      simp only [Option.some.injEq] at h
      subst h; subst hv
      exact AugReach.start
    · rw [if_neg hv] at h
      simp only at h
      rcases hp : path.getD v none with _ | e
      · rw [hp] at h; simp at h
      · rw [hp] at h
        simp only at h
        exact AugReach.prepend hv hp (ih _ _ _ h)

theorem TreePath.head_edge {g : Graph} {m s : Nat} {path : List (Option Nat)} {vis : List Bool}
    {v : Nat} {es : List Nat} (h : TreePath g m s path vis v es) (hv : v ≠ s) {e : Nat}
    (hp : path.getD v none = some e) :
    ∃ es', es = e :: es' ∧ e < m ∧ (g.edge e).dst = v ∧ 0 < g.residual e ∧
      TreePath g m s path vis (g.origin e) es' ∧ (∀ e' ∈ es', e' ≠ e ∧ e' ≠ mate e) := by
  cases h with
  | root _ => exact absurd rfl hv
  | step _ hp' hm hd hr _ ht _ hdis =>
    rw [hp] at hp'
    simp only [Option.some.injEq] at hp'
    subst hp'
    exact ⟨_, rfl, hm, hd, hr, ht, hdis⟩

/-- The walk read off `path` is unique. -/
theorem TreePath.chain_unique {g : Graph} {m s : Nat} {path : List (Option Nat)} {vis : List Bool}
    {v : Nat} {es es' : List Nat} (h : TreePath g m s path vis v es)
    (h' : TreePath g m s path vis v es') : es = es' := by
  induction h generalizing es' with
  | root _ =>
    cases h' with
    | root _ => rfl
    | step hs _ _ _ _ _ _ _ _ => exact absurd rfl hs
  | step hs hp _ _ _ _ _ _ _ ih =>
    obtain ⟨es'', rfl, _, _, _, ht, _⟩ := h'.head_edge hs hp
    rw [ih ht]

/-- When `bfs` answers `true`, whatever the fuel, the backward walk from the
sink is a tree path. -/
theorem bfs_true_tree {V : Nat} {L : List Triple} {g : Graph} {s t : Nat} (hb : Built V L g)
    (hv : ValidTriples V L) (hs : s < V) {path : List (Option Nat)} (hp : path.length = V)
    {fuel : Nat} {b : BfsState}
    (h : bfs fuel g s t path (List.replicate V false) = some (true, b)) :
    s ≠ t ∧ b.path.length = V ∧
      ∃ chain, TreePath g (2 * L.length) s b.path b.visited t chain := by
  have hst : s ≠ t := by
    intro hst; subst hst
    have := bfsLoop_sink_marked _ _ _ _ _
      (getD_set_self_bool (List.replicate V false) true (by simpa using hs)) h
    simp at this
  have h' : bfs (max fuel (V + 1)) g s t path (List.replicate V false) = some (true, b) :=
    bfsLoop_mono _ _ _ _ _ h _ (le_max_left _ _)
  rcases bfs_spec hb hv hs hst path hp (max fuel (V + 1))
      (lt_of_lt_of_le (Nat.lt_succ_self V) (le_max_right _ _)) with
    ⟨b', h1, _, _⟩ | ⟨b', chain, h1, h2, h3⟩
  · rw [h1] at h'; simp at h'
  · rw [h1] at h'
    simp only [Option.some.injEq, Prod.mk.injEq, true_and] at h'
    subst h'
    exact ⟨hst, h2, chain, h3⟩

theorem bottleneck_value {g : Graph} {m s : Nat} {path : List (Option Nat)} {vis : List Bool}
    {v : Nat} {es : List Nat} (h : TreePath g m s path vis v es) {fuel : Nat} {acc flow : Int}
    (hbn : bottleneck g path s fuel v acc = some flow) :
    flow = es.foldl (fun a e => min a (g.residual e)) acc := by
  have h1 := bottleneck_mono _ _ _ _ _ _ _ hbn (max fuel es.length) (le_max_left _ _)
  rw [bottleneck_chain h _ acc (le_max_right _ _)] at h1
  simp only [Option.some.injEq] at h1
  exact h1.symm

theorem foldl_min_attained (res : Nat → Int) : ∀ (es : List Nat) (acc : Int),
    es.foldl (fun a e => min a (res e)) acc = acc ∨
    ∃ e ∈ es, es.foldl (fun a e => min a (res e)) acc = res e := by
  intro es
  induction es with
  | nil => intro acc; left; rfl
  | cons e rest ih =>
    intro acc
    simp only [List.foldl_cons]
    rcases ih (min acc (res e)) with h | ⟨e', he', h⟩
    · rcases min_choice acc (res e) with h' | h'
      · left; rw [h, h']
      · right; exact ⟨e, List.mem_cons_self _ _, by rw [h, h']⟩
    · right; exact ⟨e', List.mem_cons_of_mem _ he', h⟩

theorem FlowOK.flow_mate {V : Nat} {L : List Triple} {g : Graph} (hf : FlowOK L g) {e : Nat}
    (he : e < 2 * L.length) (_hb : Built V L g) : (g.edge (mate e)).flow = -(g.edge e).flow := by
  unfold mate
  rcases Nat.mod_two_eq_zero_or_one e with h | h
  · have := hf.skew (e / 2) (by omega)
    have h2 : 2 * (e / 2) = e := by omega
    rw [h2] at this
    rw [if_pos h, this]
  · have := hf.skew (e / 2) (by omega)
    have h2 : 2 * (e / 2) + 1 = e := by omega
    have h3 : e - 1 = 2 * (e / 2) := by omega
    rw [h2] at this
    rw [if_neg (by omega), h3, this]; ring

theorem FlowOK.residual_le {V : Nat} {L : List Triple} {g : Graph} (hf : FlowOK L g)
    (hb : Built V L g) (hc : CapsInt16 L) {e : Nat} (he : e < 2 * L.length) :
    g.residual e ≤ 32767 := by
  have hi : e / 2 < L.length := by omega
  have h1 := hf.lo _ hi
  have h2 := hf.hi _ hi
  have h3 := hf.skew _ hi
  have h4 := (hc _ (tri_mem L _ hi)).2
  have h5 : max (tri L (e / 2)).2.2 0 ≤ 32767 := max_le h4 (by norm_num)
  unfold Graph.residual
  rcases Nat.mod_two_eq_zero_or_one e with h | h
  · have e2 : 2 * (e / 2) = e := by omega
    have := (hb.fwd _ hi).2.1
    rw [e2] at this h1
    rw [this]; omega
  · have e2 : 2 * (e / 2) + 1 = e := by omega
    have := (hb.bwd _ hi).2.1
    rw [e2] at this h3
    rw [this, h3]; omega

theorem FlowOK.residual_nonneg {V : Nat} {L : List Triple} {g : Graph} (hf : FlowOK L g)
    (hb : Built V L g) {e : Nat} (he : e < 2 * L.length) (hcap : 0 ≤ (g.edge e).capacity) :
    0 ≤ g.residual e := by
  have hi : e / 2 < L.length := by omega
  have h1 := hf.lo _ hi
  have h2 := hf.hi _ hi
  have h3 := hf.skew _ hi
  unfold Graph.residual
  rcases Nat.mod_two_eq_zero_or_one e with h | h
  · have e2 : 2 * (e / 2) = e := by omega
    have := (hb.fwd _ hi).2.1
    rw [e2] at this h2
    rw [this] at hcap ⊢
    rw [max_eq_left hcap] at h2
    omega
  · have e2 : 2 * (e / 2) + 1 = e := by omega
    have := (hb.bwd _ hi).2.1
    rw [e2] at this h3
    rw [this, h3]; omega

theorem edge_default {V : Nat} {L : List Triple} {g : Graph} (hb : Built V L g) {e : Nat}
    (he : 2 * L.length ≤ e) : g.edge e = ⟨0, 0, 0, 0⟩ := by
  unfold Graph.edge
  exact List.getD_eq_default _ _ (by rw [hb.len]; exact he)

theorem FlowOK.flow_bounds {V : Nat} {L : List Triple} {g : Graph} (hf : FlowOK L g)
    (hb : Built V L g) (hc : CapsInt16 L) (e : Nat) :
    -32767 ≤ (g.edge e).flow ∧ (g.edge e).flow ≤ 32767 := by
  rcases Nat.lt_or_ge e (2 * L.length) with he | he
  · have hi : e / 2 < L.length := by omega
    have h1 := hf.lo _ hi
    have h2 := hf.hi _ hi
    have h3 := hf.skew _ hi
    have h4 := (hc _ (tri_mem L _ hi)).2
    have h5 : max (tri L (e / 2)).2.2 0 ≤ 32767 := max_le h4 (by norm_num)
    rcases Nat.mod_two_eq_zero_or_one e with h | h
    · have e2 : 2 * (e / 2) = e := by omega
      rw [e2] at h1 h2
      omega
    · have e2 : 2 * (e / 2) + 1 = e := by omega
      rw [e2] at h3
      omega
  · rw [edge_default hb he]
    exact ⟨by norm_num, by norm_num⟩

/-- Flow is `0` on both edges of a triple of capacity `≤ 0`. -/
theorem FlowOK.flow_zero {L : List Triple} {g : Graph} (hf : FlowOK L g) {i : Nat}
    (hi : i < L.length) (hcap : (tri L i).2.2 ≤ 0) :
    (g.edge (2 * i)).flow = 0 ∧ (g.edge (2 * i + 1)).flow = 0 := by
  have h1 := hf.lo _ hi
  have h2 := hf.hi _ hi
  have h3 := hf.skew _ hi
  rw [max_eq_right hcap] at h2
  have : (g.edge (2 * i)).flow = 0 := by omega
  exact ⟨this, by rw [h3, this]; rfl⟩

/-- What is known when the first backward walk has returned `flow`. -/
theorem step_setup {V : Nat} {L : List Triple} {s t : Nat} {st : FFState}
    (hv : ValidTriples V L) (hc : CapsInt16 L) (hs : s < V) (hinv : FFInv V L s t st)
    {fuel : Nat} {b : BfsState} {flow : Int}
    (hbfs : bfs fuel st.g s t st.path (List.replicate V false) = some (true, b))
    (hbn : bottleneck st.g b.path s fuel t INT_MAX = some flow) :
    s ≠ t ∧ b.path.length = V ∧ ∃ chain, TreePath st.g (2 * L.length) s b.path b.visited t chain ∧
      flow = chain.foldl (fun a e => min a (st.g.residual e)) INT_MAX ∧
      (∀ e ∈ chain, flow ≤ st.g.residual e) ∧ (∃ e ∈ chain, flow = st.g.residual e) ∧
      1 ≤ flow ∧ flow ≤ 32767 := by
  obtain ⟨hst, hlen, chain, hchain⟩ := bfs_true_tree hinv.built hv hs hinv.pathLen hbfs
  have hval := bottleneck_value hchain hbn
  have hle : ∀ e ∈ chain, flow ≤ st.g.residual e := by
    rw [hval]; exact (foldl_min_le _ chain INT_MAX).2
  have hpos : 0 < flow := by
    rw [hval]
    exact foldl_min_pos _ chain INT_MAX (by unfold INT_MAX; norm_num) hchain.residual_pos
  have hne : ∃ e, e ∈ chain := by
    cases hchain with
    | root _ => exact absurd rfl hst
    | step _ _ _ _ _ _ _ _ _ => exact ⟨_, List.mem_cons_self _ _⟩
  obtain ⟨e0, he0⟩ := hne
  have hup : flow ≤ 32767 :=
    le_trans (hle e0 he0) (hinv.flow.residual_le hinv.built hc (hchain.lt e0 he0))
  refine ⟨hst, hlen, chain, hchain, hval, hle, ?_, by omega, hup⟩
  rcases foldl_min_attained (fun e => st.g.residual e) chain INT_MAX with h | ⟨e, he, h⟩
  · exfalso
    rw [← hval] at h
    unfold INT_MAX at h; omega
  · exact ⟨e, he, by rw [hval]; exact h⟩

/-- Invariant of the second backward walk: at every configuration the flow is
admissible, and the rest of the tree path still has residual capacity at least
the amount being pushed. -/
theorem walk_inv {V : Nat} {L : List Triple} {s t : Nat} {st : FFState}
    (hv : ValidTriples V L) (hc : CapsInt16 L) (hs : s < V) (hinv : FFInv V L s t st)
    {fuel : Nat} {b : BfsState} {flow : Int}
    (hbfs : bfs fuel st.g s t st.path (List.replicate V false) = some (true, b))
    (hbn : bottleneck st.g b.path s fuel t INT_MAX = some flow) {v : Nat} {g : Graph}
    (hw : AugReach b.path s flow t st.g v g) :
    SameShape st.g g ∧ FlowOK L g ∧
      ∃ es, TreePath st.g (2 * L.length) s b.path b.visited v es ∧
        ∀ e ∈ es, flow ≤ g.residual e := by
  obtain ⟨_, _, chain, hchain, _, hle, _, hpos, _⟩ := step_setup hv hc hs hinv hbfs hbn
  induction hw with
  | start => exact ⟨SameShape.refl _, hinv.flow, chain, hchain, hle⟩
  | @next v g e _ hvs hpe ih =>
    obtain ⟨hsh, hf, es, hes, hres⟩ := ih
    obtain ⟨es', rfl, he, _, _, ht, hdis⟩ := hes.head_edge hvs hpe
    have hb := hinv.built.sameShape hsh
    obtain ⟨hf1, hkeep, _, _⟩ := pushEdge_spec hb hf hc he (by omega : 0 < flow)
      (hres e (List.mem_cons_self _ _))
    have hsh1 := hsh.trans (sameShape_pushEdge g e flow)
    refine ⟨hsh1, hf1, es', ?_, ?_⟩
    · rw [hsh1.origin]; exact ht
    · intro e' he'
      obtain ⟨h1, h2⟩ := hdis e' he'
      have := hres e' (List.mem_cons_of_mem _ he')
      unfold Graph.residual at this ⊢
      rw [(sameShape_pushEdge g e flow).capacity, hkeep e' h1 h2]
      exact this

theorem mate_inj {a b : Nat} (h : mate a = mate b) : a = b := by
  have := congrArg mate h
  rwa [mate_mate, mate_mate] at this

/-- Flow on each edge after the second walk along a tree path. -/
theorem augment_fold_flow {V : Nat} {L : List Triple} {g0 : Graph} {s : Nat}
    {path : List (Option Nat)} {vis : List Bool} {v : Nat} {es : List Nat}
    (h : TreePath g0 (2 * L.length) s path vis v es) (hb0 : Built V L g0)
    (hc : CapsInt16 L) (bn : Int) (hpos : 0 < bn) :
    ∀ g, SameShape g0 g → FlowOK L g → (∀ e ∈ es, bn ≤ g.residual e) →
      (∀ e ∈ es, ((es.foldl (fun g e => pushEdge g e bn) g).edge e).flow = (g.edge e).flow + bn ∧
        ((es.foldl (fun g e => pushEdge g e bn) g).edge (mate e)).flow =
          (g.edge (mate e)).flow - bn) ∧
      (∀ e', e' ∉ es → (∀ e ∈ es, e' ≠ mate e) →
        ((es.foldl (fun g e => pushEdge g e bn) g).edge e').flow = (g.edge e').flow) := by
  induction h with
  | root _ =>
    intro g _ _ _
    exact ⟨fun e he => by simp at he, fun e' _ _ => rfl⟩
  | @step v e es _ _ he _ _ _ _ _ hdis ih =>
    intro g hsh hf hres
    have hb : Built V L g := hb0.sameShape hsh
    obtain ⟨hf1, hkeep, hflow, _⟩ := pushEdge_spec hb hf hc he hpos
      (hres e (List.mem_cons_self _ _))
    have hsh1 := hsh.trans (sameShape_pushEdge g e bn)
    have hb1 : Built V L (pushEdge g e bn) := hb0.sameShape hsh1
    have hres1 : ∀ e' ∈ es, bn ≤ (pushEdge g e bn).residual e' := by
      intro e' he'
      obtain ⟨h1, h2⟩ := hdis e' he'
      have := hres e' (List.mem_cons_of_mem _ he')
      unfold Graph.residual at this ⊢
      rw [(sameShape_pushEdge g e bn).capacity, hkeep e' h1 h2]
      exact this
    obtain ⟨k1, k2⟩ := ih (pushEdge g e bn) hsh1 hf1 hres1
    have hmate1 : ((pushEdge g e bn).edge (mate e)).flow = (g.edge (mate e)).flow - bn := by
      rw [hf1.flow_mate he hb1, hflow, hf.flow_mate he hb]; ring
    have hnot : e ∉ es := fun hmem => (hdis e hmem).1 rfl
    have hnotm : mate e ∉ es := fun hmem => (hdis _ hmem).2 rfl
    simp only [List.foldl_cons]
    constructor
    · intro e'' he''
      rcases List.mem_cons.mp he'' with h1 | h1
      · subst h1
        constructor
        · rw [k2 e'' hnot (fun e2 he2 hh => (hdis e2 he2).2 (by rw [hh, mate_mate])), hflow]
        · rw [k2 _ hnotm (fun e2 he2 hh => (hdis e2 he2).1 (mate_inj hh).symm), hmate1]
      · obtain ⟨d1, d2⟩ := hdis e'' h1
        obtain ⟨k1a, k1b⟩ := k1 e'' h1
        constructor
        · rw [k1a, hkeep e'' d1 d2]
        · rw [k1b, hkeep (mate e'') (fun hh => d2 (by rw [← hh, mate_mate]))
            (fun hh => d1 (mate_inj hh))]
    · intro e' hn hm
      have hne : e' ≠ e := fun hh => hn (by rw [hh]; exact List.mem_cons_self _ _)
      have hnm : e' ≠ mate e := hm e (List.mem_cons_self _ _)
      rw [k2 e' (fun hh => hn (List.mem_cons_of_mem _ hh))
        (fun e2 he2 => hm e2 (List.mem_cons_of_mem _ he2)), hkeep e' hne hnm]

/-- The pieces of a completed iteration. -/
theorem ffStep_true {fuel V s t : Nat} {st st' : FFState}
    (h : ffStep fuel V s t st = some (true, st')) :
    ∃ b flow, bfs fuel st.g s t st.path (List.replicate V false) = some (true, b) ∧
      bottleneck st.g b.path s fuel t INT_MAX = some flow ∧
      augment b.path s flow fuel t st.g = some st'.g ∧ st'.path = b.path ∧
      st'.maxFlow = wrap32 (st.maxFlow + flow) := by
  unfold ffStep at h
  rcases hb : bfs fuel st.g s t st.path (List.replicate V false) with _ | ⟨found, b⟩
  · rw [hb] at h; simp at h
  · rw [hb] at h
    cases found with
    | false => simp at h
    | true =>
      simp only at h
      rcases hbn : bottleneck st.g b.path s fuel t INT_MAX with _ | bn
      · rw [hbn] at h; simp at h
      · rw [hbn] at h
        simp only at h
        rcases ha : augment b.path s bn fuel t st.g with _ | g'
        · rw [ha] at h; simp at h
        · rw [ha] at h
          simp only [Option.some.injEq, Prod.mk.injEq, true_and] at h
          subst h
          exact ⟨b, bn, rfl, hbn, ha, rfl, rfl⟩

theorem reachable_netOut_nonneg {V : Nat} {L : List Triple} {s t : Nat}
    (hv : ValidTriples V L) (hc : CapsInt16 L) (hs : s < V) {fuel : Nat} {st : FFState}
    (h : Reachable fuel V s t (buildGraph V L) st) : 0 ≤ netOut L st.g s := by
  induction h with
  | init =>
    have : netOut L (ffInit (buildGraph V L) V).g s = 0 :=
      netOut_of_zero (zeroFlow_buildGraph V L) s
    rw [this]
  | step hr hstep ih =>
    obtain ⟨hinv, _⟩ := reachable_inv hv hc hs hr
    obtain ⟨_, _, bn, hpos, hnet, _⟩ := ffStep_inv hv hc hs hinv hstep
    rw [hnet]; omega

theorem Built.capacity_le {V : Nat} {L : List Triple} {g : Graph} (hb : Built V L g)
    (hc : CapsInt16 L) (e : Nat) : (g.edge e).capacity ≤ 32767 := by
  rcases Nat.lt_or_ge e (2 * L.length) with he | he
  · have hi : e / 2 < L.length := by omega
    have h4 := (hc _ (tri_mem L _ hi)).2
    rcases Nat.mod_two_eq_zero_or_one e with h | h
    · have e2 : 2 * (e / 2) = e := by omega
      have := (hb.fwd _ hi).2.1
      rw [e2] at this
      rw [this]; exact h4
    · have e2 : 2 * (e / 2) + 1 = e := by omega
      have := (hb.bwd _ hi).2.1
      rw [e2] at this
      rw [this]; norm_num
  · rw [edge_default hb he]; norm_num

/-- The two narrowing stores of one `pushEdge` along a residual edge are exact. -/
theorem push_in_range {V : Nat} {L : List Triple} {g : Graph} (hb : Built V L g)
    (hf : FlowOK L g) (hc : CapsInt16 L) {e : Nat} (he : e < 2 * L.length) {bn : Int}
    (hpos : 0 < bn) (hle : bn ≤ g.residual e) :
    (-32767 ≤ (g.edge e).flow + bn ∧ (g.edge e).flow + bn ≤ 32767 ∧
      wrap16 ((g.edge e).flow + bn) = (g.edge e).flow + bn) ∧
    (-32767 ≤ ((g.setFlow e (wrap16 ((g.edge e).flow + bn))).edge
        ((g.setFlow e (wrap16 ((g.edge e).flow + bn))).edge e).reverse).flow - bn ∧
      ((g.setFlow e (wrap16 ((g.edge e).flow + bn))).edge
        ((g.setFlow e (wrap16 ((g.edge e).flow + bn))).edge e).reverse).flow - bn ≤ 32767 ∧
      wrap16 (((g.setFlow e (wrap16 ((g.edge e).flow + bn))).edge
        ((g.setFlow e (wrap16 ((g.edge e).flow + bn))).edge e).reverse).flow - bn) =
        ((g.setFlow e (wrap16 ((g.edge e).flow + bn))).edge
        ((g.setFlow e (wrap16 ((g.edge e).flow + bn))).edge e).reverse).flow - bn) := by
  have hb1 := hf.flow_bounds hb hc e
  have hcap := hb.capacity_le hc e
  have hle' := hle
  unfold Graph.residual at hle'
  have r1 : -32767 ≤ (g.edge e).flow + bn := by omega
  have r2 : (g.edge e).flow + bn ≤ 32767 := by omega
  have hrev : ((g.setFlow e (wrap16 ((g.edge e).flow + bn))).edge e).reverse = mate e := by
    rw [(sameShape_setFlow g e _).reverse, hb.reverse_eq he]
  have hfl : ((g.setFlow e (wrap16 ((g.edge e).flow + bn))).edge (mate e)).flow =
      -(g.edge e).flow := by
    rw [edge_setFlow, if_neg (fun h => mate_ne e h.1), hf.flow_mate he hb]
  rw [hrev, hfl]
  exact ⟨⟨r1, r2, wrap16_id (by omega) r2⟩, by omega, by omega,
    wrap16_id (by omega) (by omega)⟩

/-- What holds at every point of a run. -/
theorem runPoint_inv {V : Nat} {L : List Triple} {s t : Nat} (hv : ValidTriples V L)
    (hc : CapsInt16 L) (hs : s < V) {fuel : Nat} {g : Graph}
    (h : RunPoint fuel V s t (buildGraph V L) g) :
    Built V L g ∧ (FlowOK L g ∨ ∃ g1 e bn, Built V L g1 ∧ FlowOK L g1 ∧ e < 2 * L.length ∧
      0 < bn ∧ bn ≤ g1.residual e ∧ g = g1.setFlow e ((g1.edge e).flow + bn)) := by
  cases h with
  | entry hr =>
    obtain ⟨hinv, _⟩ := reachable_inv hv hc hs hr
    exact ⟨hinv.built, Or.inl hinv.flow⟩
  | walk hr hbfs hbn hw =>
    obtain ⟨hinv, _⟩ := reachable_inv hv hc hs hr
    obtain ⟨hsh, hf, _⟩ := walk_inv hv hc hs hinv hbfs hbn hw
    exact ⟨hinv.built.sameShape hsh, Or.inl hf⟩
  | @half st b flow v g1 e hr hbfs hbn hw hvs hpe =>
    obtain ⟨hinv, _⟩ := reachable_inv hv hc hs hr
    obtain ⟨_, _, _, _, _, _, _, hpos, _⟩ := step_setup hv hc hs hinv hbfs hbn
    obtain ⟨hsh, hf, es, hes, hres⟩ := walk_inv hv hc hs hinv hbfs hbn hw
    obtain ⟨es', rfl, he, _, _, _, _⟩ := hes.head_edge hvs hpe
    have hb1 := hinv.built.sameShape hsh
    have hle := hres e (List.mem_cons_self _ _)
    obtain ⟨⟨_, _, hw1⟩, _⟩ := push_in_range hb1 hf hc he (by omega : 0 < flow) hle
    refine ⟨hb1.sameShape (sameShape_setFlow _ _ _), Or.inr ⟨g1, e, flow, hb1, hf, he,
      by omega, hle, ?_⟩⟩
    rw [hw1]

/-- C12, as stated, fails right after construction on the input with the one
triple `(0, 1, -1)`: the direct edge has capacity `-1` and flow `0`, so
`capacity - flow = -1`. -/
theorem c12_counterexample :
    ValidTriples 2 negativeInput ∧ CapsInt16 negativeInput ∧
    RunPoint 3 2 0 1 (buildGraph 2 negativeInput) (buildGraph 2 negativeInput) ∧
    0 < (buildGraph 2 negativeInput).edges.length ∧
    ((buildGraph 2 negativeInput).edge 0).capacity = -1 ∧
    ((buildGraph 2 negativeInput).edge 0).flow = 0 ∧
    ¬ (0 ≤ ((buildGraph 2 negativeInput).edge 0).capacity -
        ((buildGraph 2 negativeInput).edge 0).flow) :=
  ⟨by decide, by decide, RunPoint.entry Reachable.init, by decide, by decide, by decide,
    by decide⟩

/-- C12 (amended).  On the graph built from triples with end points below `V`
and `int16_t` capacities, for a source `s < V`, at every point of the run (each
entry of the loop, each step of the second backward walk, and between its two
stores) the arena holds the two edges of each triple, and every edge, direct
or reverse, whose capacity is not negative has `capacity - flow ≥ 0`; so every
edge has when no input capacity is negative.  The direct edge of a triple of
negative capacity keeps flow `0`, so its `capacity - flow` is that capacity. -/
theorem c12_residual_nonneg (V : Nat) (L : List Triple) (s t fuel : Nat) (g : Graph)
    (hv : ValidTriples V L) (hc : CapsInt16 L) (hs : s < V)
    (hp : RunPoint fuel V s t (buildGraph V L) g) :
    g.edges.length = 2 * L.length ∧
    (∀ e, e < g.edges.length → 0 ≤ (g.edge e).capacity → 0 ≤ g.residual e) ∧
    ((∀ tr ∈ L, 0 ≤ tr.2.2) → ∀ e, e < g.edges.length → 0 ≤ g.residual e) ∧
    (∀ i, i < L.length → (tri L i).2.2 < 0 →
      (g.edge (2 * i)).flow = 0 ∧ g.residual (2 * i) = (tri L i).2.2) := by
  obtain ⟨hb, hcase⟩ := runPoint_inv hv hc hs hp
  have key : ∀ e, e < 2 * L.length → 0 ≤ (g.edge e).capacity → 0 ≤ g.residual e := by
    intro e he hcap
    rcases hcase with hf | ⟨g1, e0, bn, hb1, hf1, he0, hpos, hle, rfl⟩
    · exact hf.residual_nonneg hb he hcap
    · unfold Graph.residual at hle ⊢
      rw [(sameShape_setFlow g1 e0 _).capacity] at hcap ⊢
      rw [edge_setFlow]
      by_cases h : e = e0
      · subst h
        rw [if_pos ⟨rfl, by rw [hb1.len]; exact he⟩]
        simp only
        omega
      · rw [if_neg (fun hh => h hh.1)]
        exact hf1.residual_nonneg hb1 he hcap
  have hcapL : (∀ tr ∈ L, 0 ≤ tr.2.2) → ∀ e, e < 2 * L.length → 0 ≤ (g.edge e).capacity := by
    intro hnn e he
    have hi : e / 2 < L.length := by omega
    rcases Nat.mod_two_eq_zero_or_one e with h | h
    · have e2 : 2 * (e / 2) = e := by omega
      have := (hb.fwd _ hi).2.1
      rw [e2] at this
      rw [this]; exact hnn _ (tri_mem L _ hi)
    · have e2 : 2 * (e / 2) + 1 = e := by omega
      have := (hb.bwd _ hi).2.1
      rw [e2] at this
      rw [this]
  refine ⟨hb.len, ?_, ?_, ?_⟩
  · intro e he hcap; exact key e (by rw [← hb.len]; exact he) hcap
  · intro hnn e he
    have he' : e < 2 * L.length := by rw [← hb.len]; exact he
    exact key e he' (hcapL hnn e he')
  · intro i hi hneg
    have hcapi := (hb.fwd i hi).2.1
    have hflow : (g.edge (2 * i)).flow = 0 := by
      rcases hcase with hf | ⟨g1, e0, bn, hb1, hf1, he0, hpos, hle, rfl⟩
      · exact (hf.flow_zero hi (le_of_lt hneg)).1
      · have hz := (hf1.flow_zero hi (le_of_lt hneg)).1
        rw [edge_setFlow]
        by_cases h : 2 * i = e0
        · exfalso
          subst h
          unfold Graph.residual at hle
          rw [(hb1.fwd i hi).2.1, hz] at hle
          omega
        · rw [if_neg (fun hh => h hh.1)]; exact hz
    refine ⟨hflow, ?_⟩
    unfold Graph.residual
    rw [hcapi, hflow]; ring

theorem c12_residual_nonneg_witness :
    (ValidTriples 2 trivialInput ∧ CapsInt16 trivialInput ∧ 0 < 2 ∧
      RunPoint 3 2 0 1 (buildGraph 2 trivialInput) trivialAfter.g) ∧
    ∀ e, e < trivialAfter.g.edges.length → 0 ≤ (trivialAfter.g.edge e).capacity →
      0 ≤ trivialAfter.g.residual e :=
  ⟨⟨by decide, by decide, by decide,
      RunPoint.entry (Reachable.step Reachable.init (by decide))⟩,
    (c12_residual_nonneg 2 trivialInput 0 1 3 trivialAfter.g (by decide) (by decide) (by decide)
      (RunPoint.entry (Reachable.step Reachable.init (by decide)))).2.1⟩

/-- C15, as stated, fails on the input of 65539 parallel edges `0 -> 1` of
capacity 32767: the running total does not strictly increase at every
augmentation of the run (the 32-bit total overflows at the last one). -/
theorem c15_counterexample :
    ¬ ∀ (fuel : Nat) (st st' : FFState),
      Reachable fuel 2 0 1 (buildGraph 2 (parallelInput 65539 32767)) st →
      ffStep fuel 2 0 1 st = some (true, st') → st.maxFlow < st'.maxFlow := by
  intro H
  obtain ⟨st, st0, _, hr0, heq, htot, _⟩ := parallel_run 65539 32767 (by decide) (by decide)
    (enoughFuel 2 (parallelInput 65539 32767)) (le_refl _)
  have hnn : ∀ st1, Reachable (enoughFuel 2 (parallelInput 65539 32767)) 2 0 1
      (buildGraph 2 (parallelInput 65539 32767)) st1 → 0 ≤ st1.maxFlow := by
    intro st1 hr
    induction hr with
    | init => exact le_refl _
    | step hr' hstep ih => exact le_of_lt (lt_of_le_of_lt ih (H _ _ _ hr' hstep))
  have h0 := hnn st0 hr0
  have h1 : ((65539 : Nat) : Int) * 32767 = 2147516413 := by norm_num
  have h2 : wrap32 2147516413 = -2147450883 := by unfold wrap32; norm_num
  rw [heq, htot, h1, h2] at h0
  omega

/-- C15 (amended).  On the graph built from triples with end points below `V`
and `int16_t` capacities, for a source `s < V`: whenever `bfs` answers `true`
in a state in which the loop is entered, the backward walk from the sink along
`path` is a path `chain` of at most `V` residual edges; with at least `V` units
of fuel the first walk returns the bottleneck `bn`, the second walk returns a
graph and the iteration completes in the state `st'` (and with any fuel, an
iteration that returns returns that state); `bn` is the minimum of
`capacity - flow` over `chain` and is at least `1`; in `st'` the flow of each
edge of `chain` has grown by exactly `bn`, the flow of its paired reverse edge
has dropped by exactly `bn`, the flow of every edge neither on `chain` nor
paired with an edge of `chain` is unchanged, and so are every edge's
destination, capacity and pairing and every chain (`SameShape`).  The running
total becomes the 32-bit reduction of the old total plus `bn`; it has grown by
exactly `bn`, hence strictly, whenever the positive capacities of the input
edges leaving `s` sum to at most `INT_MAX`. -/
theorem c15_augmentation_step (V : Nat) (L : List Triple) (s t fuel : Nat) (st : FFState)
    (b : BfsState) (hv : ValidTriples V L) (hc : CapsInt16 L) (hs : s < V)
    (hreach : Reachable fuel V s t (buildGraph V L) st)
    (hbfs : bfs fuel st.g s t st.path (List.replicate V false) = some (true, b)) :
    ∃ chain bn st',
      TreePath st.g (2 * L.length) s b.path b.visited t chain ∧ chain.length ≤ V ∧
      (V ≤ fuel → bottleneck st.g b.path s fuel t INT_MAX = some bn ∧
        augment b.path s bn fuel t st.g = some st'.g ∧
        ffStep fuel V s t st = some (true, st')) ∧
      (∀ r, ffStep fuel V s t st = some r → r = (true, st')) ∧
      bn = chain.foldl (fun a e => min a (st.g.residual e)) INT_MAX ∧
      (∀ e ∈ chain, bn ≤ st.g.residual e) ∧ (∃ e ∈ chain, bn = st.g.residual e) ∧ 1 ≤ bn ∧
      (∀ e ∈ chain, (st'.g.edge e).flow = (st.g.edge e).flow + bn ∧
        (st'.g.edge (st.g.edge e).reverse).flow = (st.g.edge (st.g.edge e).reverse).flow - bn) ∧
      (∀ e', e' ∉ chain → (∀ e ∈ chain, e' ≠ (st.g.edge e).reverse) →
        (st'.g.edge e').flow = (st.g.edge e').flow) ∧
      SameShape st.g st'.g ∧ st'.path = b.path ∧
      st'.maxFlow = wrap32 (st.maxFlow + bn) ∧
      (outCapacity L s ≤ INT_MAX →
        st'.maxFlow = st.maxFlow + bn ∧ st.maxFlow < st'.maxFlow) := by
  obtain ⟨hinv, _⟩ := reachable_inv hv hc hs hreach
  obtain ⟨hst, _, chain, hchain⟩ := bfs_true_tree hinv.built hv hs hinv.pathLen hbfs
  have hlenV : chain.length ≤ V := hchain.length_le hinv.built hv
  have hbfsF : bfs (max fuel V) st.g s t st.path (List.replicate V false) = some (true, b) :=
    bfsLoop_mono _ _ _ _ _ hbfs _ (le_max_left _ _)
  have hbnF := bottleneck_chain hchain (max fuel V) INT_MAX (le_trans hlenV (le_max_right _ _))
  obtain ⟨_, _, chain', hchain', hval', hle', hatt', hpos, _⟩ :=
    step_setup hv hc hs hinv hbfsF hbnF
  have hcc : chain' = chain := hchain'.chain_unique hchain
  rw [hcc] at hle' hatt'
  have run : ∀ f, fuel ≤ f → V ≤ f →
      bottleneck st.g b.path s f t INT_MAX =
        some (chain.foldl (fun a e => min a (st.g.residual e)) INT_MAX) ∧
      augment b.path s (chain.foldl (fun a e => min a (st.g.residual e)) INT_MAX) f t st.g =
        some (chain.foldl (fun g e => pushEdge g e
          (chain.foldl (fun a e => min a (st.g.residual e)) INT_MAX)) st.g) ∧
      ffStep f V s t st = some (true,
        ⟨chain.foldl (fun g e => pushEdge g e
          (chain.foldl (fun a e => min a (st.g.residual e)) INT_MAX)) st.g, b.path,
          wrap32 (st.maxFlow + chain.foldl (fun a e => min a (st.g.residual e)) INT_MAX)⟩) := by
    intro f hf hVf
    have hbfs' : bfs f st.g s t st.path (List.replicate V false) = some (true, b) :=
      bfsLoop_mono _ _ _ _ _ hbfs _ hf
    have h1 := bottleneck_chain hchain f INT_MAX (le_trans hlenV hVf)
    have h2 := augment_chain hchain (chain.foldl (fun a e => min a (st.g.residual e)) INT_MAX)
      f st.g (SameShape.refl _) (le_trans hlenV hVf)
    refine ⟨h1, h2, ?_⟩
    unfold ffStep
    rw [hbfs']
    simp only
    rw [h1]
    simp only
    rw [h2]
  obtain ⟨k1, k2⟩ := augment_fold_flow hchain hinv.built hc _ (by omega) st.g
    (SameShape.refl _) hinv.flow hle'
  obtain ⟨hsh, hf', hnet⟩ := augment_fold hchain hinv.built hc _ (by omega) st.g
    (SameShape.refl _) hinv.flow hle'
  refine ⟨chain, _, ⟨_, b.path, _⟩, hchain, hlenV, fun hVf => run fuel (le_refl _) hVf, ?_, rfl,
    hle', hatt', hpos, ?_, ?_, hsh, rfl, rfl, ?_⟩
  · intro r hr
    have h1 := ffStep_mono hr (le_max_left fuel V)
    rw [(run (max fuel V) (le_max_left _ _) (le_max_right _ _)).2.2] at h1
    simp only [Option.some.injEq] at h1
    exact h1.symm
  · intro e he
    rw [hinv.built.reverse_eq (hchain.lt e he)]
    exact k1 e he
  · intro e' hn hm
    refine k2 e' hn (fun e he => ?_)
    rw [← hinv.built.reverse_eq (hchain.lt e he)]
    exact hm e he
  · intro hout
    have h0 := reachable_netOut_nonneg hv hc hs hreach
    have hup := netOut_le_outCapacity hinv.flow s
    have hup' := netOut_le_outCapacity hf' s
    rw [hnet s, if_pos rfl, if_neg (Ne.symm hst)] at hup'
    have e1 : st.maxFlow = netOut L st.g s := by
      rw [hinv.total]; exact wrap32_id (by omega) (by unfold INT_MAX at hout; omega)
    have e2 : wrap32 (st.maxFlow + chain.foldl (fun a e => min a (st.g.residual e)) INT_MAX) =
        st.maxFlow + chain.foldl (fun a e => min a (st.g.residual e)) INT_MAX :=
      wrap32_id (by omega) (by unfold INT_MAX at hout; omega)
    exact ⟨e2, by show st.maxFlow < wrap32 _; rw [e2]; omega⟩

theorem c15_augmentation_step_witness :
    (ValidTriples 4 (diamond 10) ∧ CapsInt16 (diamond 10) ∧ 0 < 4 ∧
      Reachable 5 4 0 3 (buildGraph 4 (diamond 10)) (ffInit (buildGraph 4 (diamond 10)) 4) ∧
      bfs 5 (ffInit (buildGraph 4 (diamond 10)) 4).g 0 3
        (ffInit (buildGraph 4 (diamond 10)) 4).path (List.replicate 4 false) =
        some (true, ⟨[2, 3], [true, true, true, true], [none, some 0, some 2, some 4]⟩)) ∧
    ∃ chain bn st',
      TreePath (ffInit (buildGraph 4 (diamond 10)) 4).g (2 * (diamond 10).length) 0
        [none, some 0, some 2, some 4] [true, true, true, true] 3 chain ∧ chain.length ≤ 4 ∧
      (4 ≤ 5 → bottleneck (ffInit (buildGraph 4 (diamond 10)) 4).g [none, some 0, some 2, some 4]
          0 5 3 INT_MAX = some bn ∧
        augment [none, some 0, some 2, some 4] 0 bn 5 3 (ffInit (buildGraph 4 (diamond 10)) 4).g =
          some st'.g ∧
        ffStep 5 4 0 3 (ffInit (buildGraph 4 (diamond 10)) 4) = some (true, st')) ∧
      (∀ r, ffStep 5 4 0 3 (ffInit (buildGraph 4 (diamond 10)) 4) = some r → r = (true, st')) ∧
      bn = chain.foldl
        (fun a e => min a ((ffInit (buildGraph 4 (diamond 10)) 4).g.residual e)) INT_MAX ∧
      (∀ e ∈ chain, bn ≤ (ffInit (buildGraph 4 (diamond 10)) 4).g.residual e) ∧
      (∃ e ∈ chain, bn = (ffInit (buildGraph 4 (diamond 10)) 4).g.residual e) ∧ 1 ≤ bn ∧
      (∀ e ∈ chain, (st'.g.edge e).flow =
          ((ffInit (buildGraph 4 (diamond 10)) 4).g.edge e).flow + bn ∧
        (st'.g.edge ((ffInit (buildGraph 4 (diamond 10)) 4).g.edge e).reverse).flow =
          ((ffInit (buildGraph 4 (diamond 10)) 4).g.edge
            ((ffInit (buildGraph 4 (diamond 10)) 4).g.edge e).reverse).flow - bn) ∧
      (∀ e', e' ∉ chain →
        (∀ e ∈ chain, e' ≠ ((ffInit (buildGraph 4 (diamond 10)) 4).g.edge e).reverse) →
        (st'.g.edge e').flow = ((ffInit (buildGraph 4 (diamond 10)) 4).g.edge e').flow) ∧
      SameShape (ffInit (buildGraph 4 (diamond 10)) 4).g st'.g ∧
      st'.path = [none, some 0, some 2, some 4] ∧
      st'.maxFlow = wrap32 ((ffInit (buildGraph 4 (diamond 10)) 4).maxFlow + bn) ∧
      (outCapacity (diamond 10) 0 ≤ INT_MAX →
        st'.maxFlow = (ffInit (buildGraph 4 (diamond 10)) 4).maxFlow + bn ∧
        (ffInit (buildGraph 4 (diamond 10)) 4).maxFlow < st'.maxFlow) :=
  ⟨⟨by decide, by decide, by decide, Reachable.init, by decide⟩,
    c15_augmentation_step 4 (diamond 10) 0 3 5 (ffInit (buildGraph 4 (diamond 10)) 4)
      ⟨[2, 3], [true, true, true, true], [none, some 0, some 2, some 4]⟩
      (by decide) (by decide) (by decide) Reachable.init (by decide)⟩

/-- C20 (no integer wrap-around).  On the graph built from triples with end
points below `V` and `int16_t` capacities, for a source `s < V`: every
bottleneck computed in a reachable state lies in `[1, 32767]`; at every step
of the second backward walk both values stored into a `flow` field lie in
`[-32767, 32767]`, so the two narrowing stores are exact; at every point of
the run every `flow` field lies in `[-32767, 32767]`; the running total never
exceeds the sum of the positive capacities of the input edges leaving `s`; and
when that sum is at most `INT_MAX` the total is not negative and the sum
formed by `maxFlow += flow` is at most that sum, so it does not overflow. -/
theorem c20_no_wraparound (V : Nat) (L : List Triple) (s t fuel : Nat)
    (hv : ValidTriples V L) (hc : CapsInt16 L) (hs : s < V) :
    (∀ (st : FFState) (b : BfsState) (flow : Int),
      Reachable fuel V s t (buildGraph V L) st →
      bfs fuel st.g s t st.path (List.replicate V false) = some (true, b) →
      bottleneck st.g b.path s fuel t INT_MAX = some flow →
      1 ≤ flow ∧ flow ≤ 32767 ∧
      (∀ (v : Nat) (g : Graph) (e : Nat), AugReach b.path s flow t st.g v g → v ≠ s →
        b.path.getD v none = some e →
        (-32767 ≤ (g.edge e).flow + flow ∧ (g.edge e).flow + flow ≤ 32767 ∧
          wrap16 ((g.edge e).flow + flow) = (g.edge e).flow + flow) ∧
        (-32767 ≤ ((g.setFlow e (wrap16 ((g.edge e).flow + flow))).edge
            ((g.setFlow e (wrap16 ((g.edge e).flow + flow))).edge e).reverse).flow - flow ∧
          ((g.setFlow e (wrap16 ((g.edge e).flow + flow))).edge
            ((g.setFlow e (wrap16 ((g.edge e).flow + flow))).edge e).reverse).flow - flow ≤
            32767 ∧
          wrap16 (((g.setFlow e (wrap16 ((g.edge e).flow + flow))).edge
            ((g.setFlow e (wrap16 ((g.edge e).flow + flow))).edge e).reverse).flow - flow) =
            ((g.setFlow e (wrap16 ((g.edge e).flow + flow))).edge
            ((g.setFlow e (wrap16 ((g.edge e).flow + flow))).edge e).reverse).flow - flow)) ∧
      (outCapacity L s ≤ INT_MAX →
        0 ≤ st.maxFlow ∧ st.maxFlow + flow ≤ outCapacity L s ∧
        wrap32 (st.maxFlow + flow) = st.maxFlow + flow)) ∧
    (∀ g, RunPoint fuel V s t (buildGraph V L) g →
      ∀ e, -32767 ≤ (g.edge e).flow ∧ (g.edge e).flow ≤ 32767) ∧
    (∀ st, Reachable fuel V s t (buildGraph V L) st → st.maxFlow ≤ outCapacity L s) := by
  refine ⟨?_, ?_, ?_⟩
  · intro st b flow hreach hbfs hbn
    obtain ⟨hinv, _⟩ := reachable_inv hv hc hs hreach
    obtain ⟨hst, _, chain, hchain, _, hle, _, hpos, hup⟩ := step_setup hv hc hs hinv hbfs hbn
    refine ⟨hpos, hup, ?_, ?_⟩
    · intro v g e hw hvs hpe
      obtain ⟨hsh, hf, es, hes, hres⟩ := walk_inv hv hc hs hinv hbfs hbn hw
      obtain ⟨es', rfl, he, _, _, _, _⟩ := hes.head_edge hvs hpe
      exact push_in_range (hinv.built.sameShape hsh) hf hc he (by omega)
        (hres e (List.mem_cons_self _ _))
    · intro hout
      obtain ⟨_, hf', hnet⟩ := augment_fold hchain hinv.built hc flow (by omega) st.g
        (SameShape.refl _) hinv.flow hle
      have h0 := reachable_netOut_nonneg hv hc hs hreach
      have hup1 := netOut_le_outCapacity hinv.flow s
      have hup' := netOut_le_outCapacity hf' s
      rw [hnet s, if_pos rfl, if_neg (Ne.symm hst)] at hup'
      have e1 : st.maxFlow = netOut L st.g s := by
        rw [hinv.total]; exact wrap32_id (by omega) (by unfold INT_MAX at hout; omega)
      refine ⟨by omega, by omega, wrap32_id (by omega) (by unfold INT_MAX at hout; omega)⟩
  · intro g hp e
    obtain ⟨hb, hcase⟩ := runPoint_inv hv hc hs hp
    rcases hcase with hf | ⟨g1, e0, bn, hb1, hf1, he0, hpos, hle, rfl⟩
    · exact hf.flow_bounds hb hc e
    · rw [edge_setFlow]
      by_cases h : e = e0 ∧ e0 < g1.edges.length
      · rw [if_pos h]
        simp only
        obtain ⟨⟨r1, r2, _⟩, _⟩ := push_in_range hb1 hf1 hc he0 hpos hle
        exact ⟨r1, r2⟩
      · rw [if_neg h]
        exact hf1.flow_bounds hb1 hc e
  · intro st hreach
    obtain ⟨hinv, _⟩ := reachable_inv hv hc hs hreach
    have h0 := reachable_netOut_nonneg hv hc hs hreach
    have hup1 := netOut_le_outCapacity hinv.flow s
    rw [hinv.total]
    by_cases hout : outCapacity L s ≤ 2147483647
    · rw [wrap32_id (by omega) (by omega)]; exact hup1
    · have : wrap32 (netOut L st.g s) ≤ 2147483647 := by unfold wrap32; omega
      omega

theorem c20_no_wraparound_witness :
    (ValidTriples 2 trivialInput ∧ CapsInt16 trivialInput ∧ 0 < 2) ∧
    ∀ st, Reachable 3 2 0 1 (buildGraph 2 trivialInput) st →
      st.maxFlow ≤ outCapacity trivialInput 0 :=
  ⟨⟨by decide, by decide, by decide⟩,
    (c20_no_wraparound 2 trivialInput 0 1 3 (by decide) (by decide) (by decide)).2.2⟩

theorem edge_clampGraph (g : Graph) (e : Nat) : (clampGraph g).edge e = clampEdge (g.edge e) := by
  unfold Graph.edge clampGraph
  have : (⟨0, 0, 0, 0⟩ : Edge) = clampEdge ⟨0, 0, 0, 0⟩ := by simp [clampEdge]
  simp only
  rw [this, List.getD_map]
  rfl

theorem adjOf_clampGraph (g : Graph) (u : Nat) : (clampGraph g).adjOf u = g.adjOf u := rfl

theorem origin_clampGraph (g : Graph) (e : Nat) : (clampGraph g).origin e = g.origin e := by
  unfold Graph.origin
  rw [edge_clampGraph, edge_clampGraph]
  rfl

theorem clampGraph_addEdge (g : Graph) (a b : Nat) (c : Int) :
    addEdge (clampGraph g) a b (max c 0) = clampGraph (addEdge g a b c) := by
  unfold addEdge clampGraph
  simp [clampEdge]

theorem clampGraph_foldl : ∀ (L : List Triple) (g : Graph),
    (L.map clampTriple).foldl (fun g tr => addEdge g tr.1 tr.2.1 tr.2.2) (clampGraph g) =
      clampGraph (L.foldl (fun g tr => addEdge g tr.1 tr.2.1 tr.2.2) g) := by
  intro L
  induction L with
  | nil => intro g; rfl
  | cons x xs ih =>
    intro g
    simp only [List.map_cons, List.foldl_cons]
    have : addEdge (clampGraph g) (clampTriple x).1 (clampTriple x).2.1 (clampTriple x).2.2 =
        clampGraph (addEdge g x.1 x.2.1 x.2.2) := clampGraph_addEdge g _ _ _
    rw [this]
    exact ih _

theorem clampGraph_build (V : Nat) (L : List Triple) :
    buildGraph V (clampInput L) = clampGraph (buildGraph V L) := by
  unfold buildGraph clampInput
  have h0 : emptyGraph V = clampGraph (emptyGraph V) := by simp [clampGraph, emptyGraph]
  rw [← clampGraph_foldl, ← h0]

theorem clampGraph_setFlow (g : Graph) (e : Nat) (x : Int) :
    (clampGraph g).setFlow e x = clampGraph (g.setFlow e x) := by
  unfold Graph.setFlow
  rw [edge_clampGraph]
  simp only [clampGraph, List.map_set]
  rfl

theorem clampGraph_pushEdge (g : Graph) (e : Nat) (x : Int) :
    pushEdge (clampGraph g) e x = clampGraph (pushEdge g e x) := by
  unfold pushEdge
  simp only [edge_clampGraph, clampGraph_setFlow]
  rfl

theorem augment_clamp (path : List (Option Nat)) (s : Nat) (bn : Int) :
    ∀ (fuel v : Nat) (g : Graph),
      augment path s bn fuel v (clampGraph g) = (augment path s bn fuel v g).map clampGraph := by
  intro fuel
  induction fuel with
  | zero =>
    intro v g
    unfold augment
    by_cases hv : v = s
    · simp [hv]
    · simp [hv]
  | succ fuel ih =>
    intro v g
    unfold augment
    by_cases hv : v = s
    · simp [hv]
    · rw [if_neg hv, if_neg hv]
      simp only
      rcases hp : path.getD v none with _ | e
      · simp
      · simp only
        rw [clampGraph_pushEdge, origin_clampGraph]
        exact ih _ _

/-- The test `capacity > flow` is the same once negative capacities are
replaced by `0`, provided the flow on edges of negative capacity is not
negative. -/
theorem residual_test_clamp {g : Graph} (hnz : ∀ e, (g.edge e).capacity < 0 → 0 ≤ (g.edge e).flow)
    (e : Nat) : decide (((clampGraph g).edge e).capacity > ((clampGraph g).edge e).flow) =
      decide ((g.edge e).capacity > (g.edge e).flow) := by
  rw [edge_clampGraph]
  simp only [clampEdge]
  rw [decide_eq_decide]
  rcases lt_or_le (g.edge e).capacity 0 with h | h
  · have := hnz e h
    have hm : max (g.edge e).capacity 0 = 0 := max_eq_right (le_of_lt h)
    constructor
    · intro h1; rw [hm] at h1; omega
    · intro h1; omega
  · have hm : max (g.edge e).capacity 0 = (g.edge e).capacity := max_eq_left h
    constructor
    · intro h1; rw [hm] at h1; exact h1
    · intro h1; rw [hm]; exact h1

theorem bfsScan_clamp {g : Graph} (hnz : ∀ e, (g.edge e).capacity < 0 → 0 ≤ (g.edge e).flow)
    (t : Nat) : ∀ (es : List Nat) (st : BfsState),
      bfsScan (clampGraph g) t es st = bfsScan g t es st := by
  intro es
  induction es with
  | nil => intro st; rfl
  | cons e rest ih =>
    intro st
    unfold bfsScan
    have hd : ((clampGraph g).edge e).dst = (g.edge e).dst := by rw [edge_clampGraph]; rfl
    rw [residual_test_clamp hnz e, hd]
    simp only [ih]

theorem bfsLoop_clamp {g : Graph} (hnz : ∀ e, (g.edge e).capacity < 0 → 0 ≤ (g.edge e).flow)
    (t : Nat) : ∀ (fuel : Nat) (st : BfsState),
      bfsLoop (clampGraph g) t fuel st = bfsLoop g t fuel st := by
  intro fuel
  induction fuel with
  | zero => intro st; rfl
  | succ fuel ih =>
    intro st
    unfold bfsLoop
    rcases st.q with _ | ⟨u, q'⟩
    · rfl
    · simp only [adjOf_clampGraph, bfsScan_clamp hnz, ih]

theorem FlowOK.neg_capacity {V : Nat} {L : List Triple} {g : Graph} (hf : FlowOK L g)
    (hb : Built V L g) : ∀ e, (g.edge e).capacity < 0 → 0 ≤ (g.edge e).flow := by
  intro e hneg
  rcases Nat.lt_or_ge e (2 * L.length) with he | he
  · have hi : e / 2 < L.length := by omega
    rcases Nat.mod_two_eq_zero_or_one e with h | h
    · have e2 : 2 * (e / 2) = e := by omega
      have := hf.lo _ hi
      rwa [e2] at this
    · have e2 : 2 * (e / 2) + 1 = e := by omega
      have := (hb.bwd _ hi).2.1
      rw [e2] at this
      rw [this] at hneg; omega
  · rw [edge_default hb he] at hneg; simp at hneg

theorem bottleneck_clamp {g : Graph} (hnz : ∀ e, (g.edge e).capacity < 0 → 0 ≤ (g.edge e).flow)
    {m s : Nat} {path : List (Option Nat)} {vis : List Bool} {v : Nat} {es : List Nat}
    (h : TreePath g m s path vis v es) : ∀ (fuel : Nat) (acc : Int),
      bottleneck (clampGraph g) path s fuel v acc = bottleneck g path s fuel v acc := by
  induction h with
  | root _ =>
    intro fuel acc
    unfold bottleneck
    simp
  | @step v e es hs hp _ _ hr _ _ _ _ ih =>
    intro fuel acc
    unfold bottleneck
    rw [if_neg hs, if_neg hs]
    cases fuel with
    | zero => rfl
    | succ k =>
      simp only [hp]
      have hres : (clampGraph g).residual e = g.residual e := by
        unfold Graph.residual at hr ⊢
        rw [edge_clampGraph]
        simp only [clampEdge]
        rcases lt_or_le (g.edge e).capacity 0 with h | h
        · have := hnz e h; omega
        · rw [max_eq_left h]
      rw [hres, origin_clampGraph]
      exact ih k _

/-- One iteration on the clamped state is the clamped iteration. -/
theorem ffStep_clamp {V : Nat} {L : List Triple} {s t : Nat} {st : FFState}
    (hv : ValidTriples V L) (hs : s < V) (hinv : FFInv V L s t st) (fuel : Nat) :
    ffStep fuel V s t (clampState st) =
      (ffStep fuel V s t st).map fun r => (r.1, clampState r.2) := by
  have hnz := hinv.flow.neg_capacity hinv.built
  unfold ffStep
  have hbfs : bfs fuel (clampState st).g s t (clampState st).path (List.replicate V false) =
      bfs fuel st.g s t st.path (List.replicate V false) := bfsLoop_clamp hnz t fuel _
  rw [hbfs]
  rcases hb : bfs fuel st.g s t st.path (List.replicate V false) with _ | ⟨found, b⟩
  · rfl
  · cases found with
    | false => rfl
    | true =>
      simp only
      obtain ⟨_, _, chain, hchain⟩ := bfs_true_tree hinv.built hv hs hinv.pathLen hb
      have hbn : bottleneck (clampState st).g b.path s fuel t INT_MAX =
          bottleneck st.g b.path s fuel t INT_MAX := bottleneck_clamp hnz hchain fuel INT_MAX
      rw [hbn]
      rcases bottleneck st.g b.path s fuel t INT_MAX with _ | bn
      · rfl
      · simp only
        have ha : augment b.path s bn fuel t (clampState st).g =
            (augment b.path s bn fuel t st.g).map clampGraph := augment_clamp _ _ _ _ _ _
        rw [ha]
        rcases augment b.path s bn fuel t st.g with _ | g'
        · rfl
        · rfl

theorem ffLoop_clamp {V : Nat} {L : List Triple} {s t : Nat} (hv : ValidTriples V L)
    (hc : CapsInt16 L) (hs : s < V) (fuel : Nat) : ∀ (n : Nat) (st : FFState),
    FFInv V L s t st →
    ffLoop fuel V s t n (clampState st) = (ffLoop fuel V s t n st).map clampState := by
  intro n
  induction n with
  | zero => intro st _; rfl
  | succ n ih =>
    intro st hinv
    unfold ffLoop
    rw [ffStep_clamp hv hs hinv fuel]
    rcases hstep : ffStep fuel V s t st with _ | ⟨found, st1⟩
    · rfl
    · cases found with
      | false => rfl
      | true =>
        simp only [Option.map_some']
        exact ih st1 (ffStep_inv hv hc hs hinv hstep).1

/-- The run on the clamped input is the clamped run. -/
theorem fordFulkerson_clamp {V : Nat} {L : List Triple} {s t : Nat} (hv : ValidTriples V L)
    (hc : CapsInt16 L) (hs : s < V) (fuel : Nat) :
    fordFulkerson fuel (buildGraph V (clampInput L)) V s t =
      (fordFulkerson fuel (buildGraph V L) V s t).map fun r => (r.1, clampGraph r.2) := by
  unfold fordFulkerson
  rw [clampGraph_build]
  have h := ffLoop_clamp hv hc hs fuel (s := s) (t := t) fuel (ffInit (buildGraph V L) V)
    (ffInv_init hv s t)
  have e0 : clampState (ffInit (buildGraph V L) V) = ffInit (clampGraph (buildGraph V L)) V := rfl
  rw [e0] at h
  rw [h]
  rcases ffLoop fuel V s t fuel (ffInit (buildGraph V L) V) with _ | st
  · rfl
  · rfl

theorem markEdges_clamp (g : Graph) (u : Nat) : ∀ (es : List Nat) (ps : List Bool × List Bool),
    markEdges (clampGraph g) u es ps = markEdges g u es ps := by
  intro es
  induction es with
  | nil => intro ps; rfl
  | cons e rest ih =>
    intro ps
    unfold markEdges
    have hc : (((clampGraph g).edge e).capacity > 0) ↔ ((g.edge e).capacity > 0) := by
      rw [edge_clampGraph]
      simp only [clampEdge, gt_iff_lt, lt_max_iff, lt_self_iff_false, or_false]
    have hd : ((clampGraph g).edge e).dst = (g.edge e).dst := by rw [edge_clampGraph]; rfl
    by_cases h : (g.edge e).capacity > 0
    · rw [if_pos h, if_pos (hc.mpr h), hd, ih]
    · rw [if_neg h, if_neg (fun h' => h (hc.mp h')), ih]

theorem markAll_clamp (g : Graph) : ∀ (us : List Nat) (ps : List Bool × List Bool),
    markAll (clampGraph g) us ps = markAll g us ps := by
  intro us
  induction us with
  | nil => intro ps; rfl
  | cons u rest ih =>
    intro ps
    unfold markAll
    rw [adjOf_clampGraph, markEdges_clamp, ih]

theorem findSourceSink_clamp (g : Graph) (V : Nat) :
    findSourceSink (clampGraph g) V = findSourceSink g V := by
  unfold findSourceSink
  rw [markAll_clamp]

theorem outputChain_clamp (g : Graph) (u : Nat) : ∀ (es : List Nat) (out : String),
    outputChain (clampGraph g) u es out = outputChain g u es out := by
  intro es
  induction es with
  | nil => intro out; rfl
  | cons e rest ih =>
    intro out
    unfold outputChain
    have hf : ((clampGraph g).edge e).flow = (g.edge e).flow := by rw [edge_clampGraph]; rfl
    have hl : edgeLine (clampGraph g) u e = edgeLine g u e := by
      unfold edgeLine; rw [edge_clampGraph]; rfl
    rw [hf, hl, ih, ih]

theorem outputFlow_clamp (g : Graph) (V : Nat) (maxFlow src sink : Int) :
    outputFlow (clampGraph g) V maxFlow src sink = outputFlow g V maxFlow src sink := by
  unfold outputFlow
  generalize headerLine maxFlow src sink = out
  generalize List.range V = us
  induction us generalizing out with
  | nil => rfl
  | cons u rest ih =>
    unfold outputVertices
    rw [adjOf_clampGraph, outputChain_clamp, ih]

theorem validTriples_clamp {V : Nat} {L : List Triple} (hv : ValidTriples V L) :
    ValidTriples V (clampInput L) := by
  intro tr htr
  obtain ⟨x, hx, rfl⟩ := List.mem_map.mp htr
  exact hv x hx

theorem main_clamp {V : Nat} {L : List Triple} (hv : ValidTriples V L) (hc : CapsInt16 L)
    (fuel : Nat) : main fuel V (clampInput L) = main fuel V L := by
  unfold main
  simp only
  rw [clampGraph_build, findSourceSink_clamp, ← clampGraph_build]
  by_cases hfail : (findSourceSink (buildGraph V L) V).1 = -1 ∨
      (findSourceSink (buildGraph V L) V).2 = -1
  · rw [if_pos hfail, if_pos hfail]
  · rw [if_neg hfail, if_neg hfail]
    rw [not_or] at hfail
    obtain ⟨s, t, hs, _, _, e1, e2, _, _⟩ := findSourceSink_valid hv hfail.1 hfail.2
    rw [e1, e2]
    simp only [Int.toNat_ofNat]
    rw [fordFulkerson_clamp hv hc hs]
    rcases fordFulkerson fuel (buildGraph V L) V s t with _ | ⟨total, g⟩
    · rfl
    · simp only [Option.map_some', outputFlow_clamp]

/-- C19 (negative capacities act as zero).  For triples with end points below
`V` and `int16_t` capacities, replacing every negative capacity by `0`
(`clampInput`) leaves the result of `findSourceSink` unchanged and, whatever
the fuel, the whole run of `main` (exit code and report text); for `s < V` and
`s ≠ t`, with enough fuel `fordFulkerson` returns on both inputs the same value
and graphs with the same flow on every edge and the same report.  At every
point of the run on the original input, both edges of a triple of capacity
`≤ 0` have flow `0`. -/
theorem c19_negative_capacity_is_zero (V : Nat) (L : List Triple) (s t fuel : Nat)
    (hv : ValidTriples V L) (hc : CapsInt16 L) (hs : s < V) (hst : s ≠ t) :
    findSourceSink (buildGraph V (clampInput L)) V = findSourceSink (buildGraph V L) V ∧
    main fuel V (clampInput L) = main fuel V L ∧
    (∃ N, ∀ fuel', N ≤ fuel' → ∃ total g g',
      fordFulkerson fuel' (buildGraph V L) V s t = some (total, g) ∧
      fordFulkerson fuel' (buildGraph V (clampInput L)) V s t = some (total, g') ∧
      (∀ e, (g'.edge e).flow = (g.edge e).flow) ∧
      outputFlow g' V total s t = outputFlow g V total s t) ∧
    (∀ g, RunPoint fuel V s t (buildGraph V L) g → ∀ i, i < L.length → (tri L i).2.2 ≤ 0 →
      (g.edge (2 * i)).flow = 0 ∧ (g.edge (2 * i + 1)).flow = 0) := by
  refine ⟨?_, main_clamp hv hc fuel, ?_, ?_⟩
  · rw [clampGraph_build, findSourceSink_clamp]
  · refine ⟨enoughFuel V L, ?_⟩
    intro fuel' hfuel
    obtain ⟨st, b, _, hff, _, _⟩ := fordFulkerson_spec hv hc hs hst fuel' hfuel
    refine ⟨st.maxFlow, st.g, clampGraph st.g, hff, ?_, ?_, outputFlow_clamp _ _ _ _ _⟩
    · rw [fordFulkerson_clamp hv hc hs, hff]; rfl
    · intro e; rw [edge_clampGraph]; rfl
  · intro g hp i hi hcap
    obtain ⟨hb, hcase⟩ := runPoint_inv hv hc hs hp
    rcases hcase with hf | ⟨g1, e0, bn, hb1, hf1, he0, hpos, hle, rfl⟩
    · exact hf.flow_zero hi hcap
    · obtain ⟨z1, z2⟩ := hf1.flow_zero hi hcap
      unfold Graph.residual at hle
      have n1 : 2 * i ≠ e0 := by
        intro h; subst h
        rw [(hb1.fwd i hi).2.1, z1] at hle
        omega
      have n2 : 2 * i + 1 ≠ e0 := by
        intro h; subst h
        rw [(hb1.bwd i hi).2.1, z2] at hle
        omega
      rw [edge_setFlow, edge_setFlow, if_neg (fun hh => n1 hh.1), if_neg (fun hh => n2 hh.1)]
      exact ⟨z1, z2⟩

theorem c19_negative_capacity_is_zero_witness :
    (ValidTriples 2 negativeInput ∧ CapsInt16 negativeInput ∧ 0 < 2 ∧ 0 ≠ 1) ∧
    (findSourceSink (buildGraph 2 (clampInput negativeInput)) 2 =
      findSourceSink (buildGraph 2 negativeInput) 2 ∧
    main 3 2 (clampInput negativeInput) = main 3 2 negativeInput ∧
    (∃ N, ∀ fuel', N ≤ fuel' → ∃ total g g',
      fordFulkerson fuel' (buildGraph 2 negativeInput) 2 0 1 = some (total, g) ∧
      fordFulkerson fuel' (buildGraph 2 (clampInput negativeInput)) 2 0 1 = some (total, g') ∧
      (∀ e, (g'.edge e).flow = (g.edge e).flow) ∧
      outputFlow g' 2 total 0 1 = outputFlow g 2 total 0 1) ∧
    (∀ g, RunPoint 3 2 0 1 (buildGraph 2 negativeInput) g → ∀ i, i < negativeInput.length →
      (tri negativeInput i).2.2 ≤ 0 →
      (g.edge (2 * i)).flow = 0 ∧ (g.edge (2 * i + 1)).flow = 0)) :=
  ⟨⟨by decide, by decide, by decide, by decide⟩,
    c19_negative_capacity_is_zero 2 negativeInput 0 1 3 (by decide) (by decide) (by decide)
      (by decide)⟩

theorem BfsLevel.depth_root {g : Graph} {L : List Triple} {s : Nat} {d : Nat → Nat} {D : Nat}
    {pending : List Nat} {st : BfsState} (h : BfsLevel g L s d D pending st) : d s = 0 := by
  obtain ⟨es, hes, hlen⟩ := h.depth s h.visS
  cases hes with
  | root _ => exact hlen.symm
  | step hs _ _ _ _ _ _ _ _ => exact absurd rfl hs

/-- Every walk of at most `D` edges ends in a marked vertex whose level is at
most the length of the walk. -/
theorem BfsLevel.reach {V : Nat} {g : Graph} {L : List Triple} {s : Nat} {d : Nat → Nat}
    {D : Nat} {pending : List Nat} {st : BfsState} (h : BfsLevel g L s d D pending st)
    (hb : Built V L g) {k x : Nat} (hw : Within g s k x) :
    k ≤ D → st.visited.getD x false = true ∧ d x ≤ k := by
  induction hw with
  | zero => intro _; exact ⟨h.visS, by rw [h.depth_root]⟩
  | @step k u e _ hmem hr ih =>
    intro hk
    obtain ⟨hu, hdu⟩ := ih (by omega)
    obtain ⟨_, he, ho⟩ := hb.of_mem_adjOf hmem
    rcases h.closed e he hr (by rw [ho]; exact hu) with h1 | h1 | ⟨h1, h2⟩
    · have := h.lower _ h1
      rw [ho] at this; omega
    · have := h.cur e h1
      rw [ho] at this; omega
    · rw [ho] at h2
      exact ⟨h1, by omega⟩

/-- The level of a marked vertex is the least length of a walk reaching it. -/
theorem BfsLevel.shortest {V : Nat} {g : Graph} {L : List Triple} {s : Nat} {d : Nat → Nat}
    {D : Nat} {pending : List Nat} {st : BfsState} (h : BfsLevel g L s d D pending st)
    (hb : Built V L g) {k x : Nat} (hx : st.visited.getD x false = true)
    (hw : Within g s k x) : d x ≤ k := by
  rcases Nat.lt_or_ge D k with hk | hk
  · have := h.upper x hx; omega
  · exact (h.reach hb hw hk).2

theorem visitEdge_level {V : Nat} {g : Graph} {L : List Triple} {s t : Nat} {d : Nat → Nat}
    {D : Nat} {rest : List Nat} {st : BfsState} {e : Nat} (hb : Built V L g)
    (hv : ValidTriples V L) (hinv : BfsInv g L V s t (e :: rest) st)
    (hlev : BfsLevel g L s d D (e :: rest) st) (he : e < 2 * L.length)
    (hu : st.visited.getD (ownerOf L e) false = true)
    (hw : st.visited.getD (g.edge e).dst false = false) (hr : 0 < g.residual e)
    (hown : ∀ e' ∈ rest, ownerOf L e' = ownerOf L e) :
    BfsLevel g L s (Function.update d (g.edge e).dst (D + 1)) D rest (visitEdge g e st) := by
  have hwV : (g.edge e).dst < V := hb.dst_lt hv he
  have key : ∀ u, st.visited.getD u false = true → u ≠ (g.edge e).dst := by
    intro u hu' hwu; rw [hwu] at hu'; rw [hw] at hu'; exact Bool.false_ne_true hu'
  have keep : ∀ u, st.visited.getD u false = true →
      (visitEdge g e st).visited.getD u false = true := by
    intro u hu'
    show (st.visited.set _ true).getD u false = true
    rw [getD_set_ne_bool _ _ (Ne.symm (key u hu'))]; exact hu'
  have hnew : (visitEdge g e st).visited.getD (g.edge e).dst false = true :=
    getD_set_self_bool _ _ (by rw [hinv.visLen]; exact hwV)
  have split : ∀ u, (visitEdge g e st).visited.getD u false = true →
      u = (g.edge e).dst ∨ st.visited.getD u false = true := by
    intro u hu'
    by_cases h : (g.edge e).dst = u
    · exact Or.inl h.symm
    · right
      have : (st.visited.set (g.edge e).dst true).getD u false = true := hu'
      rwa [getD_set_ne_bool _ _ h] at this
  have dold : ∀ u, st.visited.getD u false = true →
      Function.update d (g.edge e).dst (D + 1) u = d u :=
    fun u hu' => Function.update_noteq (key u hu') _ _
  have dnew : Function.update d (g.edge e).dst (D + 1) (g.edge e).dst = D + 1 :=
    Function.update_same _ _ _
  have hdu : d (ownerOf L e) = D := hlev.cur e (List.mem_cons_self _ _)
  refine ⟨keep _ hlev.visS, ?_, ?_, ?_, ?_, ?_, ?_⟩
  · intro v hv'
    rcases split v hv' with h | h
    · rw [h, dnew]
      obtain ⟨es, hes, hlen⟩ := hlev.depth _ hu
      refine ⟨e :: es, TreePath.step ?_ ?_ he rfl hr hnew ?_ ?_ ?_, by rw [List.length_cons, hlen, hdu]⟩
      · intro h'; rw [h', hinv.visS] at hw; exact Bool.false_ne_true hw.symm
      · exact getD_set_self_opt _ _ (by rw [hinv.pathLen]; exact hwV)
      · rw [hb.origin_eq he]; exact hes.mono _ _ hw
      · intro hmem
        obtain ⟨e', he', hd'⟩ := List.mem_map.mp hmem
        have := hes.vis_dst e' he'
        rw [hd', hw] at this; exact Bool.false_ne_true this
      · intro e' he'
        constructor
        · intro h'; subst h'
          have := hes.vis_dst e' he'
          rw [hw] at this; exact Bool.false_ne_true this
        · intro h'
          have h1 := hes.vis_origin e' he'
          have h2 : e' < 2 * L.length := hes.lt e' he'
          rw [hb.origin_eq h2, h', ← hb.dst_eq he, hw] at h1
          exact Bool.false_ne_true h1
    · obtain ⟨es, hes, hlen⟩ := hlev.depth v h
      exact ⟨es, hes.mono _ _ hw, by rw [dold v h]; exact hlen⟩
  · intro v hv'
    rcases split v hv' with h | h
    · rw [h, dnew]
    · rw [dold v h]; exact hlev.upper v h
  · intro v hv'
    rcases List.mem_append.mp hv' with h | h
    · rw [dold v (hinv.qVis v h)]; exact hlev.lower v h
    · rw [List.mem_singleton.mp h, dnew]; omega
  · show (st.q ++ [(g.edge e).dst]).Pairwise _
    rw [List.pairwise_append]
    refine ⟨?_, List.pairwise_singleton _ _, ?_⟩
    · refine hlev.sorted.imp_of_mem ?_
      intro a b ha hb' hab
      rw [dold a (hinv.qVis a ha), dold b (hinv.qVis b hb')]; exact hab
    · intro a ha b hb'
      rw [List.mem_singleton.mp hb', dnew, dold a (hinv.qVis a ha)]
      exact hlev.upper a (hinv.qVis a ha)
  · intro e' he'
    rw [hown e' he', dold _ hu]; exact hdu
  · intro e' he' hr' ho'
    rcases split _ ho' with h | h
    · left
      show ownerOf L e' ∈ st.q ++ [(g.edge e).dst]
      rw [h]; simp
    · rcases hlev.closed e' he' hr' h with h1 | h1 | ⟨h1, h2⟩
      · left
        show ownerOf L e' ∈ st.q ++ [(g.edge e).dst]
        exact List.mem_append_left _ h1
      · rcases List.mem_cons.mp h1 with h2 | h2
        · right; right
          rw [h2]
          refine ⟨hnew, ?_⟩
          rw [dnew, dold _ hu, hdu]
        · right; left; exact h2
      · right; right
        exact ⟨keep _ h1, by rw [dold _ h1, dold _ h]; exact h2⟩

/-- The levels are kept by the scan of a chain, whether or not it finds the
sink. -/
theorem bfsScan_level {V : Nat} {g : Graph} {L : List Triple} {s t : Nat} (hb : Built V L g)
    (hv : ValidTriples V L) (u D : Nat) : ∀ (es : List Nat) (st : BfsState) (d : Nat → Nat),
    (∀ e ∈ es, e < 2 * L.length ∧ ownerOf L e = u) → st.visited.getD u false = true →
    BfsInv g L V s t es st → BfsLevel g L s d D es st →
    ∃ d' rest, BfsLevel g L s d' D rest (bfsScan g t es st).2 ∧
      ((bfsScan g t es st).1 = false → rest = [] ∧ BfsInv g L V s t [] (bfsScan g t es st).2) := by
  intro es
  induction es with
  | nil =>
    intro st d _ _ hinv hlev
    exact ⟨d, [], hlev, fun _ => ⟨rfl, hinv⟩⟩
  | cons e rest ih =>
    intro st d hes hu hinv hlev
    obtain ⟨he, ho⟩ := hes e (List.mem_cons_self _ _)
    have hrest : ∀ e' ∈ rest, e' < 2 * L.length ∧ ownerOf L e' = u :=
      fun e' he' => hes e' (List.mem_cons_of_mem _ he')
    unfold bfsScan
    by_cases hc : (!st.visited.getD (g.edge e).dst false &&
        decide ((g.edge e).capacity > (g.edge e).flow)) = true
    · rw [if_pos hc]
      simp only [Bool.and_eq_true, Bool.not_eq_true', decide_eq_true_eq] at hc
      obtain ⟨hw, hcf⟩ := hc
      have hr : 0 < g.residual e := by unfold Graph.residual; omega
      have hu' : st.visited.getD (ownerOf L e) false = true := by rw [ho]; exact hu
      have hlev' := visitEdge_level hb hv hinv hlev he hu' hw hr
        (fun e' he' => by rw [(hrest e' he').2, ho])
      by_cases ht : (g.edge e).dst = t
      · rw [if_pos ht]
        exact ⟨_, rest, hlev', fun h => absurd h (by simp)⟩
      · rw [if_neg ht]
        obtain ⟨hinv', _⟩ := visitEdge_inv hb hv hinv he hu' hw hr ht
        have hu'' : (visitEdge g e st).visited.getD u false = true := by
          have : (g.edge e).dst ≠ u := by
            intro h; rw [h] at hw; rw [hw] at hu; exact Bool.false_ne_true hu
          show (st.visited.set _ true).getD u false = true
          rw [getD_set_ne_bool _ _ this]; exact hu
        exact ih (visitEdge g e st) _ hrest hu'' hinv' hlev'
    · rw [if_neg hc]
      have hvis : 0 < g.residual e → st.visited.getD (g.edge e).dst false = true := by
        intro hr'
        simp only [Bool.and_eq_true, Bool.not_eq_true', decide_eq_true_eq, not_and] at hc
        by_contra hn
        have hn' : st.visited.getD (g.edge e).dst false = false := by simpa using hn
        have := hc hn'
        unfold Graph.residual at hr'
        omega
      have hinv' : BfsInv g L V s t rest st := by
        refine ⟨hinv.visLen, hinv.pathLen, hinv.visS, hinv.qVis, hinv.tree, ?_, hinv.notT⟩
        intro e' he' hr' ho'
        rcases hinv.closed e' he' hr' ho' with h1 | h1 | h1
        · exact Or.inl h1
        · rcases List.mem_cons.mp h1 with h2 | h2
          · right; right; subst h2; exact hvis hr'
          · exact Or.inr (Or.inl h2)
        · exact Or.inr (Or.inr h1)
      have hlev' : BfsLevel g L s d D rest st := by
        refine ⟨hlev.visS, hlev.depth, hlev.upper, hlev.lower, hlev.sorted,
          fun e' he' => hlev.cur e' (List.mem_cons_of_mem _ he'), ?_⟩
        intro e' he' hr' ho'
        rcases hlev.closed e' he' hr' ho' with h1 | h1 | h1
        · exact Or.inl h1
        · rcases List.mem_cons.mp h1 with h2 | h2
          · right; right
            subst h2
            refine ⟨hvis hr', ?_⟩
            rw [hlev.cur e' (List.mem_cons_self _ _)]
            exact hlev.upper _ (hvis hr')
          · exact Or.inr (Or.inl h2)
        · exact Or.inr (Or.inr h1)
      exact ih st d hrest hu hinv' hlev'

theorem bfsLoop_level {V : Nat} {g : Graph} {L : List Triple} {s t : Nat} (hb : Built V L g)
    (hv : ValidTriples V L) : ∀ (fuel : Nat) (st : BfsState) (d : Nat → Nat) (D : Nat)
    (st' : BfsState), BfsInv g L V s t [] st → BfsLevel g L s d D [] st →
    bfsLoop g t fuel st = some (true, st') →
    ∃ d' D' rest, BfsLevel g L s d' D' rest st' := by
  intro fuel
  induction fuel with
  | zero => intro st d D st' _ _ h; simp [bfsLoop] at h
  | succ fuel ih =>
    intro st d D st' hinv hlev h
    unfold bfsLoop at h
    rcases hq : st.q with _ | ⟨u, q'⟩
    · rw [hq] at h; simp at h
    · rw [hq] at h
      simp only at h
      have huvis : st.visited.getD u false = true := hinv.qVis u (by rw [hq]; simp)
      have huV : u < V := by rw [← hinv.visLen]; exact lt_length_of_getD_true huvis
      have hDu : D ≤ d u := hlev.lower u (by rw [hq]; simp)
      have hsorted := hlev.sorted
      rw [hq, List.pairwise_cons] at hsorted
      have hinv0 : BfsInv g L V s t (g.adjOf u) { st with q := q' } := by
        refine ⟨hinv.visLen, hinv.pathLen, hinv.visS, ?_, hinv.tree, ?_, hinv.notT⟩
        · intro u' hu'; exact hinv.qVis u' (by rw [hq]; exact List.mem_cons_of_mem _ hu')
        · intro e he hr ho
          rcases hinv.closed e he hr ho with h1 | h1 | h1
          · rw [hq] at h1
            rcases List.mem_cons.mp h1 with h2 | h2
            · right; left
              exact (hb.mem_adjOf huV e).mpr ⟨he, h2⟩
            · exact Or.inl h2
          · simp at h1
          · exact Or.inr (Or.inr h1)
      have hlev0 : BfsLevel g L s d (d u) (g.adjOf u) { st with q := q' } := by
        refine ⟨hlev.visS, hlev.depth, ?_, ?_, hsorted.2, ?_, ?_⟩
        · intro v hv'; have := hlev.upper v hv'; omega
        · intro v hv'; exact hsorted.1 v hv'
        · intro e he; rw [((hb.mem_adjOf huV e).mp he).2]
        · intro e he hr ho
          rcases hlev.closed e he hr ho with h1 | h1 | h1
          · rw [hq] at h1
            rcases List.mem_cons.mp h1 with h2 | h2
            · right; left
              exact (hb.mem_adjOf huV e).mpr ⟨he, h2⟩
            · exact Or.inl h2
          · simp at h1
          · exact Or.inr (Or.inr h1)
      obtain ⟨d', rest, hlev', hfalse⟩ := bfsScan_level hb hv u (d u) (g.adjOf u)
        { st with q := q' } d (fun e he => (hb.mem_adjOf huV e).mp he) huvis hinv0 hlev0
      rcases hsc : bfsScan g t (g.adjOf u) { st with q := q' } with ⟨found, st1⟩
      rw [hsc] at h hlev' hfalse
      cases found with
      | true =>
        simp only [Option.some.injEq, Prod.mk.injEq, true_and] at h
        subst h
        exact ⟨d', d u, rest, hlev'⟩
      | false =>
        simp only at h
        obtain ⟨hrest, hinv'⟩ := hfalse rfl
        subst hrest
        exact ih st1 d' (d u) st' hinv' hlev' h

/-- When `bfs` answers `true`, every backward walk read off `path` from a
marked vertex is a shortest residual walk from the source. -/
theorem bfs_shortest {V : Nat} {L : List Triple} {g : Graph} {s t : Nat} (hb : Built V L g)
    (hv : ValidTriples V L) (hs : s < V) {path : List (Option Nat)} (hp : path.length = V)
    {fuel : Nat} {b : BfsState}
    (h : bfs fuel g s t path (List.replicate V false) = some (true, b)) :
    ∀ x es, TreePath g (2 * L.length) s b.path b.visited x es →
      ∀ k, Within g s k x → es.length ≤ k := by
  have hst : s ≠ t := (bfs_true_tree hb hv hs hp h).1
  have hvs : ((List.replicate V false).set s true).getD s false = true :=
    getD_set_self_bool _ _ (by simpa using hs)
  have honly : ∀ v, ((List.replicate V false).set s true).getD v false = true → v = s := by
    intro v h'
    by_contra hne
    rw [getD_set_ne_bool _ _ (Ne.symm hne), getD_replicate_false] at h'
    exact Bool.false_ne_true h'
  have hinv0 : BfsInv g L V s t []
      { q := [s], visited := (List.replicate V false).set s true, path := path.set s none } := by
    refine ⟨by simp, by simp [hp], hvs, ?_, ?_, ?_, ?_⟩
    · intro u hu; rw [List.mem_singleton.mp hu]; exact hvs
    · intro v h'
      rw [honly v h']
      exact ⟨[], TreePath.root hvs⟩
    · intro e _ _ ho
      left; rw [honly _ ho]; simp
    · rw [getD_set_ne_bool _ _ hst]; exact getD_replicate_false _ _
  have hlev0 : BfsLevel g L s (fun _ => 0) 0 []
      { q := [s], visited := (List.replicate V false).set s true, path := path.set s none } := by
    refine ⟨hvs, ?_, fun _ _ => Nat.zero_le _, fun _ _ => le_refl _, List.pairwise_singleton _ _,
      fun e he => by simp at he, ?_⟩
    · intro v h'
      rw [honly v h']
      exact ⟨[], TreePath.root hvs, rfl⟩
    · intro e _ _ ho
      left; rw [honly _ ho]; simp
  obtain ⟨d', D', rest, hlev⟩ := bfsLoop_level hb hv fuel _ _ 0 b hinv0 hlev0 h
  intro x es hes k hw
  have hx := hes.vis_head
  obtain ⟨es', hes', hlen⟩ := hlev.depth x hx
  rw [hes.chain_unique hes', hlen]
  exact hlev.shortest hb hx hw

theorem ResPath.snoc {g : Graph} {u x e : Nat} {es : List Nat}
    (h : ResPath g u es x) (hmem : e ∈ g.adjOf x) (hr : 0 < g.residual e) :
    ResPath g u (es ++ [e]) (g.edge e).dst := by
  induction h with
  | nil u => exact ResPath.cons hmem hr (ResPath.nil _)
  | cons h1 h2 _ ih => exact ResPath.cons h1 h2 (ih hmem)

theorem ResPath.within_from {g : Graph} {s u x : Nat} {es : List Nat} (h : ResPath g u es x) :
    ∀ k, Within g s k u → Within g s (k + es.length) x := by
  induction h with
  | nil u => intro k hk; exact hk
  | cons h1 h2 _ ih =>
    intro k hk
    have := ih (k + 1) (Within.step hk h1 h2)
    rw [List.length_cons]
    rwa [Nat.add_assoc, Nat.add_comm 1] at this

theorem ResPath.within {g : Graph} {s x : Nat} {es : List Nat} (h : ResPath g s es x) :
    Within g s es.length x := by
  have := h.within_from 0 Within.zero
  rwa [Nat.zero_add] at this

theorem Within.to_resPath {g : Graph} {s k x : Nat}
    (h : Within g s k x) : ∃ es, ResPath g s es x ∧ es.length = k := by
  induction h with
  | zero => exact ⟨[], ResPath.nil _, rfl⟩
  | step _ hmem hr ih =>
    obtain ⟨es, hes, hlen⟩ := ih
    exact ⟨es ++ [_], ResPath.snoc hes hmem hr, by simp [hlen]⟩

/-- Read forwards, a backward walk of the search is a residual path from the
source. -/
theorem TreePath.forward {V : Nat} {L : List Triple} {g : Graph} {s : Nat}
    {path : List (Option Nat)} {vis : List Bool} {v : Nat} {es : List Nat}
    (h : TreePath g (2 * L.length) s path vis v es) (hb : Built V L g)
    (hv : ValidTriples V L) : ResPath g s es.reverse v := by
  induction h with
  | root _ => exact ResPath.nil _
  | @step v e es _ _ he hd hr _ _ _ _ ih =>
    rw [List.reverse_cons, ← hd]
    refine ResPath.snoc ih ?_ hr
    rw [hb.origin_eq he]
    exact (hb.mem_adjOf (ownerOf_lt hv he) e).mpr ⟨he, rfl⟩

theorem TreePath.walk {V : Nat} {L : List Triple} {g : Graph} {s : Nat}
    {path : List (Option Nat)} {vis : List Bool} {v : Nat} {es : List Nat}
    (h : TreePath g (2 * L.length) s path vis v es) (hb : Built V L g)
    (hv : ValidTriples V L) : Within g s es.length v := by
  have := (h.forward hb hv).within
  rwa [List.length_reverse] at this

/-- C14 (postcondition of `bfs`).  On a graph laid out by `addEdge` (triples
with end points below `V`, any flows), for `s ≠ t` below `V`, any `path` array
of length `V` (stale entries included) and an all-false `visited` array, `bfs`
returns with more than `V` units of fuel; it answers `true` exactly when some
path of edges with `capacity - flow > 0` leads from `s` to `t`; and on `true`
the backward walk from `t` along `path` reaches `s` (the first loop of
`fordFulkerson` runs to the end on it), its edges, read forwards, are a
residual path from `s` to `t`, each has `capacity - flow > 0`, and no residual
path from `s` to `t` has fewer edges. -/
theorem c14_bfs_postcondition (V : Nat) (L : List Triple) (g : Graph) (s t : Nat)
    (path : List (Option Nat)) (fuel : Nat) (hb : Built V L g) (hv : ValidTriples V L)
    (hs : s < V) (hst : s ≠ t) (hp : path.length = V) (hf : V < fuel) :
    ∃ found b, bfs fuel g s t path (List.replicate V false) = some (found, b) ∧
      (found = true ↔ ∃ es, ResPath g s es t) ∧
      (found = true → ∃ chain, TreePath g (2 * L.length) s b.path b.visited t chain ∧
        (∀ acc, bottleneck g b.path s fuel t acc =
          some (chain.foldl (fun a e => min a (g.residual e)) acc)) ∧
        ResPath g s chain.reverse t ∧
        (∀ e ∈ chain, 0 < g.residual e) ∧
        ∀ es, ResPath g s es t → chain.length ≤ es.length) := by
  rcases bfs_spec hb hv hs hst path hp fuel hf with ⟨b, h1, hinv, hq⟩ | ⟨b, chain, h1, _, h3⟩
  · have hno : ¬ ∃ es, ResPath g s es t := by
      rintro ⟨es, hes⟩
      have := hes.stays hb (fun v => b.visited.getD v false) (by
        intro e he hr ho
        rcases hinv.closed e he hr ho with h | h | h
        · rw [hq] at h; simp at h
        · simp at h
        · exact h) hinv.visS
      simp only at this
      rw [hinv.notT] at this
      exact Bool.false_ne_true this
    refine ⟨false, b, h1, ⟨fun h => absurd h (by simp), fun h => absurd h hno⟩, ?_⟩
    intro h; exact absurd h (by simp)
  · have hres := h3.forward hb hv
    refine ⟨true, b, h1, ⟨fun _ => ⟨_, hres⟩, fun _ => rfl⟩, fun _ => ⟨chain, h3, ?_, hres, ?_, ?_⟩⟩
    · intro acc
      exact bottleneck_chain h3 fuel acc (le_of_lt (lt_of_le_of_lt (h3.length_le hb hv) hf))
    · intro e he; exact h3.residual_pos e he
    · intro es hes
      exact bfs_shortest hb hv hs hp h1 t chain h3 es.length hes.within

theorem c14_bfs_postcondition_witness :
    (Built 4 (diamond 10) (buildGraph 4 (diamond 10)) ∧ ValidTriples 4 (diamond 10) ∧ 0 < 4 ∧
      0 ≠ 3 ∧ [some 7, none, some 5, some 1].length = 4 ∧ 4 < 5) ∧
    ∃ found b, bfs 5 (buildGraph 4 (diamond 10)) 0 3 [some 7, none, some 5, some 1]
        (List.replicate 4 false) = some (found, b) ∧
      (found = true ↔ ∃ es, ResPath (buildGraph 4 (diamond 10)) 0 es 3) ∧
      (found = true → ∃ chain,
        TreePath (buildGraph 4 (diamond 10)) (2 * (diamond 10).length) 0 b.path b.visited 3 chain ∧
        (∀ acc, bottleneck (buildGraph 4 (diamond 10)) b.path 0 5 3 acc =
          some (chain.foldl (fun a e => min a ((buildGraph 4 (diamond 10)).residual e)) acc)) ∧
        ResPath (buildGraph 4 (diamond 10)) 0 chain.reverse 3 ∧
        (∀ e ∈ chain, 0 < (buildGraph 4 (diamond 10)).residual e) ∧
        ∀ es, ResPath (buildGraph 4 (diamond 10)) 0 es 3 → chain.length ≤ es.length) :=
  ⟨⟨built_buildGraph (by decide), by decide, by decide, by decide, rfl, by decide⟩,
    c14_bfs_postcondition 4 (diamond 10) (buildGraph 4 (diamond 10)) 0 3
      [some 7, none, some 5, some 1] 5 (built_buildGraph (by decide)) (by decide) (by decide)
      (by decide) rfl (by decide)⟩

theorem exists_dist (V : Nat) (g : Graph) (s : Nat) : ∃ δ, IsDist V g s δ := by
  classical
  refine ⟨fun x => if h : ∃ j, j < V ∧ Within g s j x then Nat.find h else V, ?_⟩
  intro x
  by_cases h : ∃ j, j < V ∧ Within g s j x
  · simp only [dif_pos h]
    refine ⟨le_of_lt (Nat.find_spec h).1, ?_⟩
    intro k hk
    constructor
    · intro hle
      exact ⟨Nat.find h, hle, (Nat.find_spec h).2⟩
    · rintro ⟨j, hj, hw⟩
      exact le_trans (Nat.find_min' h ⟨lt_of_le_of_lt hj hk, hw⟩) hj
  · simp only [dif_neg h]
    refine ⟨le_refl _, ?_⟩
    intro k hk
    constructor
    · intro hle; omega
    · rintro ⟨j, hj, hw⟩
      exact absurd ⟨j, lt_of_le_of_lt hj hk, hw⟩ h

theorem IsDist.eq_of_shortest {V : Nat} {g : Graph} {s : Nat} {δ : Nat → Nat}
    (h : IsDist V g s δ) {x m : Nat} (hm : m < V) (hw : Within g s m x)
    (hmin : ∀ k, Within g s k x → m ≤ k) : δ x = m := by
  have h1 : δ x ≤ m := ((h x).2 m hm).mpr ⟨m, le_refl _, hw⟩
  have h2 : m ≤ δ x := by
    obtain ⟨j, hj, hwj⟩ := ((h x).2 (δ x) (lt_of_le_of_lt h1 hm)).mp (le_refl _)
    exact le_trans (hmin j hwj) hj
  omega

theorem TreePath.mem_split {g : Graph} {m s : Nat} {path : List (Option Nat)} {vis : List Bool}
    {v : Nat} {es : List Nat} (h : TreePath g m s path vis v es) :
    ∀ e ∈ es, ∃ es2, TreePath g m s path vis (g.edge e).dst (e :: es2) ∧
      TreePath g m s path vis (g.origin e) es2 := by
  induction h with
  | root _ => intro e he; simp at he
  | @step v e es h1 h2 h3 h4 h5 h6 h7 h8 h9 ih =>
    intro e' he'
    rcases List.mem_cons.mp he' with h | h
    · subst h
      exact ⟨es, by rw [h4]; exact TreePath.step h1 h2 h3 h4 h5 h6 h7 h8 h9, h7⟩
    · exact ih e' h

theorem TreePath.length_lt {V : Nat} {L : List Triple} {g : Graph} {s : Nat}
    {path : List (Option Nat)} {vis : List Bool} {v : Nat} {es : List Nat}
    (h : TreePath g (2 * L.length) s path vis v es) (hb : Built V L g)
    (hv : ValidTriples V L) (hs : s < V) : es.length < V := by
  have := nodup_length_le (s :: es.map (fun e => (g.edge e).dst)) V
    (List.nodup_cons.mpr ⟨by
      intro hmem
      obtain ⟨e, he, hd⟩ := List.mem_map.mp hmem
      exact h.dst_ne_root e he hd, h.nodup_dst⟩)
    (by
      intro x hx
      rcases List.mem_cons.mp hx with h' | h'
      · rw [h']; exact hs
      · obtain ⟨e, he, hd⟩ := List.mem_map.mp h'
        rw [← hd]; exact hb.dst_lt hv (h.lt e he))
  simp only [List.length_cons, List.length_map] at this
  omega

/-- The pieces of a completed iteration, edge by edge. -/
theorem ffStep_chain {V : Nat} {L : List Triple} {s t : Nat} {st st' : FFState}
    (hv : ValidTriples V L) (hc : CapsInt16 L) (hs : s < V) (hinv : FFInv V L s t st)
    {fuel : Nat} (h : ffStep fuel V s t st = some (true, st')) :
    ∃ b chain bn, bfs fuel st.g s t st.path (List.replicate V false) = some (true, b) ∧
      TreePath st.g (2 * L.length) s b.path b.visited t chain ∧ 0 < bn ∧
      SameShape st.g st'.g ∧
      (∀ e ∈ chain, (st'.g.edge e).flow = (st.g.edge e).flow + bn ∧
        (st'.g.edge (mate e)).flow = (st.g.edge (mate e)).flow - bn) ∧
      (∀ e', e' ∉ chain → (∀ e ∈ chain, e' ≠ mate e) →
        (st'.g.edge e').flow = (st.g.edge e').flow) ∧
      (∃ e ∈ chain, bn = st.g.residual e) := by
  obtain ⟨b, bn, hbfs, hbn, ha, _, _⟩ := ffStep_true h
  obtain ⟨_, _, chain, hchain, _, hle, hex, h1, _⟩ := step_setup hv hc hs hinv hbfs hbn
  have ha' := augment_mono _ _ _ _ _ _ _ ha (max fuel chain.length) (le_max_left _ _)
  rw [augment_chain hchain bn (max fuel chain.length) st.g (SameShape.refl _)
    (le_max_right _ _)] at ha'
  simp only [Option.some.injEq] at ha'
  have hpos : 0 < bn := by omega
  obtain ⟨k1, k2⟩ := augment_fold_flow hchain hinv.built hc bn hpos st.g (SameShape.refl _)
    hinv.flow hle
  obtain ⟨hsh, _, _⟩ := augment_fold hchain hinv.built hc bn hpos st.g (SameShape.refl _)
    hinv.flow hle
  rw [ha'] at k1 k2 hsh
  exact ⟨b, chain, bn, hbfs, hchain, hpos, hsh, k1, k2, hex⟩

/-- Every augmentation lowers the potential. -/
theorem step_potential {V : Nat} {L : List Triple} {s t : Nat} {st st' : FFState}
    (hv : ValidTriples V L) (hc : CapsInt16 L) (hs : s < V) (hinv : FFInv V L s t st)
    {fuel : Nat} (h : ffStep fuel V s t st = some (true, st')) {δ δ' : Nat → Nat}
    (hδ : IsDist V st.g s δ) (hδ' : IsDist V st'.g s δ') :
    potential V L st'.g δ' + 1 ≤ potential V L st.g δ := by
  obtain ⟨b, chain, bn, hbfs, hchain, hpos, hsh, k1, k2, e0, he0, hbn0⟩ :=
    ffStep_chain hv hc hs hinv h
  have hb := hinv.built
  have hsp := bfs_shortest hb hv hs hinv.pathLen hbfs
  have lev : ∀ e ∈ chain, ∃ m, m + 2 ≤ V ∧ δ (ownerOf L e) = m ∧
      δ (st.g.edge e).dst = m + 1 ∧ Within st.g s m (ownerOf L e) ∧
      ∀ k, Within st.g s k (st.g.edge e).dst → m + 1 ≤ k := by
    intro e he
    obtain ⟨es2, p1, p2⟩ := hchain.mem_split e he
    have hlt := p1.length_lt hb hv hs
    rw [List.length_cons] at hlt
    rw [hb.origin_eq (hchain.lt e he)] at p2
    have w1 := p1.walk hb hv
    have w2 := p2.walk hb hv
    rw [List.length_cons] at w1
    have m1 : ∀ k, Within st.g s k (st.g.edge e).dst → es2.length + 1 ≤ k := by
      intro k hk
      have := hsp _ _ p1 k hk
      rwa [List.length_cons] at this
    exact ⟨es2.length, by omega, hδ.eq_of_shortest (by omega) w2 (hsp _ _ p2),
      hδ.eq_of_shortest (by omega) w1 m1, w2, m1⟩
  have hcap : ∀ e, st'.g.residual e = (st.g.edge e).capacity - (st'.g.edge e).flow := by
    intro e; unfold Graph.residual; rw [hsh.capacity]
  have hres : ∀ e, 0 < st'.g.residual e → 0 < st.g.residual e ∨ mate e ∈ chain := by
    intro e hr
    by_cases hm : mate e ∈ chain
    · exact Or.inr hm
    · left
      rw [hcap] at hr
      by_cases he : e ∈ chain
      · rw [(k1 e he).1] at hr
        unfold Graph.residual; omega
      · rw [k2 e he (fun e2 he2 heq => hm (by rw [heq, mate_mate]; exact he2))] at hr
        exact hr
  have hres2 : ∀ e, 0 < st.g.residual e → ¬ 0 < st'.g.residual e → e ∈ chain := by
    intro e hr hr'
    by_contra he
    apply hr'
    rw [hcap]
    by_cases hm : mate e ∈ chain
    · have := (k1 (mate e) hm).2
      rw [mate_mate] at this
      rw [this]
      unfold Graph.residual at hr; omega
    · rw [k2 e he (fun e2 he2 heq => hm (by rw [heq, mate_mate]; exact he2))]
      exact hr
  have mono_w : ∀ k x, Within st'.g s k x → ∃ j, j ≤ k ∧ Within st.g s j x := by
    intro k x hw
    induction hw with
    | zero => exact ⟨0, le_refl _, Within.zero⟩
    | @step k u e _ hmem hr ih =>
      obtain ⟨j, hj, hwj⟩ := ih
      have hmem' : e ∈ st.g.adjOf u := by
        unfold Graph.adjOf at hmem ⊢; rwa [hsh.adj] at hmem
      obtain ⟨_, he, ho⟩ := hb.of_mem_adjOf hmem'
      rw [hsh.dst e]
      rcases hres e hr with h1 | h1
      · exact ⟨j + 1, by omega, Within.step hwj hmem' h1⟩
      · obtain ⟨m, _, _, _, hwm, hmin⟩ := lev (mate e) h1
        have e1 : ownerOf L (mate e) = (st.g.edge e).dst := (hb.dst_eq he).symm
        have e2 : (st.g.edge (mate e)).dst = u := by
          rw [hb.dst_eq (mate_lt he), mate_mate, ho]
        rw [e1] at hwm
        rw [e2] at hmin
        have := hmin j hwj
        exact ⟨m, by omega, hwm⟩
  have mono : ∀ x, δ x ≤ δ' x := by
    intro x
    by_contra hlt
    have hlt' : δ' x < δ x := by omega
    have hk : δ' x < V := lt_of_lt_of_le hlt' (hδ x).1
    obtain ⟨j, hj, hwj⟩ := ((hδ' x).2 _ hk).mp (le_refl _)
    obtain ⟨j', hj', hwj'⟩ := mono_w j x hwj
    have := ((hδ x).2 (δ' x) hk).mpr ⟨j', by omega, hwj'⟩
    omega
  have edge : ∀ e, e < 2 * L.length →
      edgePot V L st'.g δ' e ≤ edgePot V L st.g δ e ∧
      (0 < st.g.residual e → ¬ 0 < st'.g.residual e →
        edgePot V L st'.g δ' e < edgePot V L st.g δ e) := by
    intro e he
    unfold edgePot level
    rw [hsh.dst e]
    by_cases h1 : 0 < st.g.residual e
    · by_cases h2 : 0 < st'.g.residual e
      · rw [if_pos h1, if_pos h2]
        have := mono (ownerOf L e)
        exact ⟨by omega, fun _ h2' => absurd h2 h2'⟩
      · rw [if_pos h1, if_neg h2]
        obtain ⟨m, hm, d1, d2, _, _⟩ := lev e (hres2 e h1 h2)
        have := mono (st.g.edge e).dst
        rw [d1]
        exact ⟨by omega, fun _ _ => by omega⟩
    · by_cases h2 : 0 < st'.g.residual e
      · rw [if_neg h1, if_pos h2]
        rcases hres e h2 with h3 | h3
        · exact absurd h3 h1
        · obtain ⟨m, hm, d1, d2, _, _⟩ := lev (mate e) h3
          rw [← hb.dst_eq he] at d1
          rw [hb.dst_eq (mate_lt he), mate_mate] at d2
          have := mono (ownerOf L e)
          rw [d1]
          exact ⟨by omega, fun h1' _ => absurd h1' h1⟩
      · rw [if_neg h1, if_neg h2]
        have := mono (st.g.edge e).dst
        exact ⟨by omega, fun h1' _ => absurd h1' h1⟩
  have he0lt : e0 < 2 * L.length := hchain.lt e0 he0
  have hr0 : 0 < st.g.residual e0 := hchain.residual_pos e0 he0
  have hr0' : ¬ 0 < st'.g.residual e0 := by
    rw [hcap, (k1 e0 he0).1]
    unfold Graph.residual at hbn0; omega
  unfold potential
  apply Nat.succ_le_of_lt
  apply Finset.sum_lt_sum
  · intro e he
    exact (edge e (Finset.mem_range.mp he)).1
  · exact ⟨e0, Finset.mem_range.mpr he0lt, (edge e0 he0lt).2 hr0 hr0'⟩

theorem potential_le (V : Nat) (L : List Triple) (g : Graph) (δ : Nat → Nat) :
    potential V L g δ ≤ V * L.length := by
  unfold potential
  have h : ∀ e ∈ Finset.range (2 * L.length), edgePot V L g δ e ≤ V / 2 := by
    intro e _; unfold edgePot level; split <;> omega
  have h1 := Finset.sum_le_card_nsmul _ _ _ h
  simp only [Finset.card_range, smul_eq_mul] at h1
  have h2 : 2 * (V / 2) ≤ V := Nat.mul_div_le V 2
  have h3 : 2 * L.length * (V / 2) = L.length * (2 * (V / 2)) := by ring
  have h4 : L.length * (2 * (V / 2)) ≤ L.length * V := Nat.mul_le_mul_left _ h2
  rw [h3] at h1
  rw [Nat.mul_comm V]
  exact le_trans h1 h4

theorem ReachableIn.reachable {fuel V s t : Nat} {g0 : Graph} {k : Nat} {st : FFState}
    (h : ReachableIn fuel V s t g0 k st) : Reachable fuel V s t g0 st := by
  induction h with
  | init => exact Reachable.init
  | step _ hstep ih => exact Reachable.step ih hstep

/-- The number of augmentations so far plus the potential never exceeds
`V * |L|`. -/
theorem reachableIn_bound {V : Nat} {L : List Triple} {s t : Nat} (hv : ValidTriples V L)
    (hc : CapsInt16 L) (hs : s < V) {fuel k : Nat} {st : FFState}
    (h : ReachableIn fuel V s t (buildGraph V L) k st) :
    ∀ δ, IsDist V st.g s δ → k + potential V L st.g δ ≤ V * L.length := by
  induction h with
  | init =>
    intro δ _
    rw [Nat.zero_add]
    exact potential_le _ _ _ _
  | @step k st st' hr hstep ih =>
    intro δ' hδ'
    obtain ⟨δ, hδ⟩ := exists_dist V st.g s
    have hinv := (reachable_inv hv hc hs hr.reachable).1
    have h1 := step_potential hv hc hs hinv hstep hδ hδ'
    have h2 := ih δ hδ
    omega

theorem ffLoop_reachIn {fuel V s t : Nat} {g0 : Graph} : ∀ (n k : Nat) (st st' : FFState),
    ReachableIn fuel V s t g0 k st → ffLoop fuel V s t n st = some st' →
    ∃ k' st0, ReachableIn fuel V s t g0 k' st0 ∧
      ffStep fuel V s t st0 = some (false, st') := by
  intro n
  induction n with
  | zero => intro k st st' _ h; simp [ffLoop] at h
  | succ n ih =>
    intro k st st' hr h
    unfold ffLoop at h
    rcases hstep : ffStep fuel V s t st with _ | ⟨b, st1⟩
    · rw [hstep] at h; simp at h
    · rw [hstep] at h
      cases b with
      | false =>
        simp only [Option.some.injEq] at h
        subst h
        exact ⟨k, st, hr, hstep⟩
      | true =>
        simp only at h
        exact ih (k + 1) st1 st' (ReachableIn.step hr hstep) h

/-- A loop started in the state reached after `k` augmentations behaves like
the loop started in the initial state with `k` more iterations allowed. -/
theorem ffLoop_of_reachIn {fuel V s t : Nat} {g0 : Graph} {k : Nat} {st : FFState}
    (h : ReachableIn fuel V s t g0 k st) :
    ∀ n r, ffLoop fuel V s t n st = r → ffLoop fuel V s t (n + k) (ffInit g0 V) = r := by
  induction h with
  | init => intro n r h; exact h
  | @step k st st' _ hstep ih =>
    intro n r h
    have h1 : ffLoop fuel V s t (n + 1) st = r := by
      rw [ffLoop, hstep]; exact h
    have := ih (n + 1) r h1
    rwa [Nat.add_assoc, Nat.add_comm 1 k] at this

/-- C11 (termination bound).  On the graph built from `L` (end points below
`V`, `int16_t` capacities), for `s < V` and `s ≠ t`: a state in which the loop
of `fordFulkerson` is entered after exactly `k` augmentations has
`k ≤ V * |L|`, whatever the fuel; and with enough fuel the loop is left, by a
search that fails, from the state entered after some `k ≤ V * |L|`
augmentations, so that `V * |L| + 1` iterations of the loop already give the
result `fordFulkerson` returns. -/
theorem c11_augmentation_bound (V : Nat) (L : List Triple) (s t : Nat)
    (hv : ValidTriples V L) (hc : CapsInt16 L) (hs : s < V) (hst : s ≠ t) :
    (∀ fuel k st, ReachableIn fuel V s t (buildGraph V L) k st → k ≤ V * L.length) ∧
    ∃ N, ∀ fuel, N ≤ fuel → ∃ k st st',
      ReachableIn fuel V s t (buildGraph V L) k st ∧
      ffStep fuel V s t st = some (false, st') ∧
      k ≤ V * L.length ∧
      ffLoop fuel V s t (V * L.length + 1) (ffInit (buildGraph V L) V) = some st' ∧
      fordFulkerson fuel (buildGraph V L) V s t = some (st'.maxFlow, st'.g) := by
  have hbound : ∀ fuel k st, ReachableIn fuel V s t (buildGraph V L) k st →
      k ≤ V * L.length := by
    intro fuel k st hr
    obtain ⟨δ, hδ⟩ := exists_dist V st.g s
    have := reachableIn_bound hv hc hs hr δ hδ
    omega
  refine ⟨hbound, enoughFuel V L, ?_⟩
  intro fuel hfuel
  obtain ⟨st', _, hloop, hff, _, _⟩ := fordFulkerson_spec hv hc hs hst fuel hfuel
  obtain ⟨k, st, hr, hstep⟩ := ffLoop_reachIn fuel 0 _ _ ReachableIn.init hloop
  have hk := hbound fuel k st hr
  refine ⟨k, st, st', hr, hstep, hk, ?_, hff⟩
  have h1 : ffLoop fuel V s t (V * L.length - k + 1) st = some st' := by
    rw [ffLoop, hstep]
  have := ffLoop_of_reachIn hr _ _ h1
  have e : V * L.length - k + 1 + k = V * L.length + 1 := by omega
  rwa [e] at this

theorem c11_augmentation_bound_witness :
    (ValidTriples 4 (diamond 10) ∧ CapsInt16 (diamond 10) ∧ 0 < 4 ∧ 0 ≠ 3) ∧
    (∀ fuel k st, ReachableIn fuel 4 0 3 (buildGraph 4 (diamond 10)) k st →
      k ≤ 4 * (diamond 10).length) ∧
    ∃ N, ∀ fuel, N ≤ fuel → ∃ k st st',
      ReachableIn fuel 4 0 3 (buildGraph 4 (diamond 10)) k st ∧
      ffStep fuel 4 0 3 st = some (false, st') ∧
      k ≤ 4 * (diamond 10).length ∧
      ffLoop fuel 4 0 3 (4 * (diamond 10).length + 1) (ffInit (buildGraph 4 (diamond 10)) 4) =
        some st' ∧
      fordFulkerson fuel (buildGraph 4 (diamond 10)) 4 0 3 = some (st'.maxFlow, st'.g) :=
  ⟨⟨by decide, by decide, by decide, by decide⟩,
    c11_augmentation_bound 4 (diamond 10) 0 3 (by decide) (by decide) (by decide) (by decide)⟩

end FordFulkerson
